import Mathlib

/-!
# CodeLve core: context manager and query processor

A shallow embedding of `src/core/context_manager.cpp` and
`src/core/query_processor.cpp`.

* A `std::string` is the list of its `char`s (`Str`); string literals of the
  source are written as Lean literals and turned into lists with `.toList`.
* `std::string::npos` is `none`: `find` returns an `Option Nat`.
* `std::unordered_map` is an association list in iteration order; `find` on a
  map is a lookup of the key.
* `int` values are `Int`; `int` arithmetic wraps to 32 bits (`wrapInt32`)
  and the conversion to the 64-bit `size_t` is `toSizeT`.
-/

namespace Codelve

/-- A `std::string`, as the list of its `char`s. -/
abbrev Str := List Char

/-! ## Machine integers -/

/-- The value of a 32-bit `int` expression whose mathematical value is `x`
(two's complement wrap-around). -/
def wrapInt32 (x : Int) : Int := (x + 2147483648) % 4294967296 - 2147483648

/-- Conversion of an `int` to the 64-bit unsigned `size_t`
(`static_cast<size_t>` and the implicit conversion in a mixed comparison). -/
def toSizeT (x : Int) : Nat := (x % 18446744073709551616).toNat

/-! ## `std::string` operations -/

/-- `s.find(pat)`: the lowest position at which `pat` occurs in `s`, or `none`
for `npos`. -/
def find : Str → Str → Option Nat
  | [], pat => if pat.isPrefixOf [] then some 0 else none
  | c :: t, pat =>
    if pat.isPrefixOf (c :: t) then some 0 else (find t pat).map (· + 1)

/-- `s.replace(pos, n, r)` for `pos ≤ s.size()`. -/
def replace (s : Str) (pos n : Nat) (r : Str) : Str :=
  s.take pos ++ r ++ s.drop (pos + n)

/-- `s.substr(0, n)`. -/
def substr0 (s : Str) (n : Nat) : Str := s.take n

/-- `::tolower` in the "C" locale, applied to every `char`
(`std::transform(s.begin(), s.end(), s.begin(), ::tolower)`). -/
def toLower (s : Str) : Str := s.map Char.toLower

/-- `std::isspace` in the "C" locale: the characters that `operator>>` skips
and stops at. -/
def isSpace (c : Char) : Bool :=
  c = ' ' || c = '\t' || c = '\n' || c = '\r' || c = Char.ofNat 11 || c = Char.ofNat 12

/-- One `iss >> term`: skip leading whitespace, then read up to the next
whitespace character or the end of the stream. The extraction fails
(`none`) when no character could be read. -/
def extractTerm (s : Str) : Option (Str × Str) :=
  let s1 := s.dropWhile isSpace
  if s1 = [] then none
  else some (s1.takeWhile (fun c => !isSpace c), s1.dropWhile (fun c => !isSpace c))

/-- The loop `while (iss >> term) { if (term.length() > 3) { tolower; push_back } }`
run for at most `fuel` iterations. -/
def readTerms : Nat → Str → List Str
  | 0, _ => []
  | fuel + 1, s =>
    match extractTerm s with
    | none => []
    | some (term, rest) =>
      if term.length > 3 then toLower term :: readTerms fuel rest
      else readTerms fuel rest

/-- The query terms of `findRelevantSymbols` and `getRelevantFiles`: every
iteration consumes at least one character, so `query.length + 1` iterations
reach the end of the stream. -/
def queryTerms (query : Str) : List Str := readTerms (query.length + 1) query

/-! ## ContextManager -/

/-- The data members of `ContextManager` that the modelled functions use. -/
structure ContextManager where
  /-- The map `files_`: path to content, in iteration order. -/
  files_ : List (Str × Str)
  /-- The map `symbols_`: symbol name to the paths of the files containing it. -/
  symbols_ : List (Str × List Str)
  /-- The vector `history_` of (query, response) pairs. -/
  history_ : List (Str × Str)
  maxContextSize_ : Int
  maxHistoryEntries_ : Int

/-- `map.find(key)`: the value stored under `key`, `none` for `end()`. -/
def mapFind {β : Type} (m : List (Str × β)) (key : Str) : Option β :=
  (m.find? (fun kv => kv.1 == key)).map Prod.snd

/-- `ContextManager::getFile`. -/
def getFile (cm : ContextManager) (filePath : Str) : Str :=
  match mapFind cm.files_ filePath with
  | some content => content
  | none => []

/-- `ContextManager::getConversationHistory`. -/
def getConversationHistory (cm : ContextManager) : Str :=
  cm.history_.foldl
    (fun history entry =>
      history ++ "User: ".toList ++ entry.1 ++ "\n".toList
        ++ "CodeLve: ".toList ++ entry.2 ++ "\n\n".toList)
    []

/-- `ContextManager::addToHistory`. -/
def addToHistory (cm : ContextManager) (query response : Str) : ContextManager :=
  let h := cm.history_ ++ [(query, response)]
  if h.length > toSizeT cm.maxHistoryEntries_ then
    { cm with history_ := h.tail }
  else
    { cm with history_ := h }

/-- `ContextManager::clearHistory`. -/
def clearHistory (cm : ContextManager) : ContextManager :=
  { cm with history_ := [] }

/-- `ContextManager::findRelevantSymbols`. -/
def findRelevantSymbols (cm : ContextManager) (query : Str) : List Str :=
  let terms := queryTerms query
  cm.symbols_.foldl
    (fun relevantSymbols symbolPair =>
      let symbolLower := toLower symbolPair.1
      if terms.any (fun term => (find symbolLower term).isSome) then
        relevantSymbols ++ [symbolPair.1]
      else relevantSymbols)
    []

/-- `ContextManager::findFileContainingSymbol`. -/
def findFileContainingSymbol (cm : ContextManager) (symbol : Str) : Str :=
  match mapFind cm.symbols_ symbol with
  | some (filePath :: _) => filePath
  | _ => []

/-- The first loop of `getRelevantFiles`, over the relevant symbols still to
visit, with the vector `relevantFiles` built so far; `maxFiles` is already
converted to `size_t`. -/
def symbolLoop (cm : ContextManager) (maxFiles : Nat) : List Str → List Str → List Str
  | [], relevantFiles => relevantFiles
  | symbol :: rest, relevantFiles =>
    let filePath := findFileContainingSymbol cm symbol
    if filePath ≠ [] ∧ filePath ∉ relevantFiles then
      let relevantFiles1 := relevantFiles ++ [filePath]
      if relevantFiles1.length ≥ maxFiles then relevantFiles1
      else symbolLoop cm maxFiles rest relevantFiles1
    else symbolLoop cm maxFiles rest relevantFiles

/-- The second loop of `getRelevantFiles`, over the entries of `files_` still
to visit. `fileName` is `fs::path(p).filename().string()`. -/
def fileLoop (fileName : Str → Str) (terms : List Str) (maxFiles : Nat) :
    List (Str × Str) → List Str → List Str
  | [], relevantFiles => relevantFiles
  | filePair :: rest, relevantFiles =>
    if filePair.1 ∈ relevantFiles then fileLoop fileName terms maxFiles rest relevantFiles
    else
      let filename := toLower (fileName filePair.1)
      let relevantFiles1 :=
        if terms.any (fun term => (find filename term).isSome) then
          relevantFiles ++ [filePair.1]
        else relevantFiles
      if relevantFiles1.length ≥ maxFiles then relevantFiles1
      else fileLoop fileName terms maxFiles rest relevantFiles1

/-- `ContextManager::getRelevantFiles(query, maxFiles)`. The library function
`std::filesystem::path::filename` is the parameter `fileName`. -/
def getRelevantFiles (fileName : Str → Str) (cm : ContextManager) (query : Str)
    (maxFiles : Int) : List Str :=
  let relevantSymbols := findRelevantSymbols cm query
  let relevantFiles := symbolLoop cm (toSizeT maxFiles) relevantSymbols []
  if relevantFiles.length < toSizeT maxFiles then
    fileLoop fileName (queryTerms query) (toSizeT maxFiles) cm.files_ relevantFiles
  else relevantFiles

/-- The stream contents of `buildContext` before the budget check
(`context.str()`): every `<<` appends to the stream. -/
def assembleContext (fileName : Str → Str) (cm : ContextManager) (query : Str) : Str :=
  let context0 := "### Conversation History ###\n".toList
  let historyText := getConversationHistory cm
  let context1 :=
    if historyText ≠ [] then context0 ++ historyText ++ "\n\n".toList else context0
  let context2 := context1 ++ "### Current Query ###\n".toList
  let context3 := context2 ++ query ++ "\n\n".toList
  let relevantFiles := getRelevantFiles fileName cm query 5
  let context4 := context3 ++ "### Relevant Code ###\n".toList
  relevantFiles.foldl
    (fun context filePath =>
      match mapFind cm.files_ filePath with
      | some content =>
        context ++ "File: ".toList ++ filePath ++ "\n".toList
          ++ "```\n".toList ++ content ++ "\n```\n\n".toList
      | none => context)
    context4

/-- `ContextManager::buildContext`. -/
def buildContext (fileName : Str → Str) (cm : ContextManager) (query : Str) : Str :=
  let result := assembleContext fileName cm query
  if result.length > toSizeT (wrapInt32 (cm.maxContextSize_ * 4)) then
    substr0 result (toSizeT (wrapInt32 (cm.maxContextSize_ * 4)))
  else result

/-! ## QueryProcessor -/

/-- The data members of `QueryProcessor` (the context manager it points to is
passed alongside). -/
structure QueryProcessor where
  codeKeywords_ : List Str
  specialCommands_ : List Str
  codePromptTemplate_ : Str
  generalPromptTemplate_ : Str

/-- The keyword list set by the constructor. -/
def codeKeywords : List Str :=
  ["code", "function", "class", "method", "variable", "implement",
   "debug", "bug", "error", "refactor", "optimize", "documentation",
   "api", "module", "library", "interface", "test", "unit test"].map String.toList

/-- The command list set by the constructor. -/
def specialCommands : List Str :=
  ["/help", "/clear", "/reset", "/exit", "/info", "/settings"].map String.toList

/-- The default of `prompts.code_template`. -/
def defaultCodeTemplate : Str :=
  ("You are CodeLve, an AI assistant for code analysis.\n"
    ++ "Analyze the following code and answer the user's question:\n\n"
    ++ "{context}\n\n"
    ++ "User query: {query}\n"
    ++ "Provide a detailed and accurate response focusing on the code.").toList

/-- The default of `prompts.general_template`. -/
def defaultGeneralTemplate : Str :=
  ("You are CodeLve, an AI assistant for developers.\n"
    ++ "Answer the following question based on your knowledge:\n\n"
    ++ "User query: {query}\n"
    ++ "Provide a concise and helpful response.").toList

/-- The constructor `QueryProcessor::QueryProcessor`, given the two templates
that `config_->getString` returns. -/
def QueryProcessor.mk0 (codeTemplate generalTemplate : Str) : QueryProcessor :=
  { codeKeywords_ := codeKeywords
    specialCommands_ := specialCommands
    codePromptTemplate_ := codeTemplate
    generalPromptTemplate_ := generalTemplate }

/-- The character set `" \t\n\r\f\v"` of `extractCommand`. -/
def trimChars : Str := [' ', '\t', '\n', '\r', Char.ofNat 12, Char.ofNat 11]

/-- `s.find_first_not_of(set)`: the lowest position of a character that is
not in `set`, `none` for `npos`. -/
def findFirstNotOf : Str → Str → Option Nat
  | [], _ => none
  | c :: t, set => if set.contains c then (findFirstNotOf t set).map (· + 1) else some 0

/-- `s.find_last_not_of(set)`: the highest position of a character that is
not in `set`, `none` for `npos`. -/
def findLastNotOf : Str → Str → Option Nat
  | [], _ => none
  | c :: t, set =>
    match findLastNotOf t set with
    | some i => some (i + 1)
    | none => if set.contains c then none else some 0

/-- `s.erase(pos, n)`, where `n = none` is `npos` (erase to the end). -/
def erase (s : Str) (pos : Nat) (n : Option Nat) : Str :=
  match n with
  | none => s.take pos
  | some k => s.take pos ++ s.drop (pos + k)

/-- The two `erase` calls that trim the query in `extractCommand`. In the
second one `npos + 1` wraps to `0`. -/
def trimQuery (rawQuery : Str) : Str :=
  let trimmed1 := erase rawQuery 0 (findFirstNotOf rawQuery trimChars)
  let pos :=
    match findLastNotOf trimmed1 trimChars with
    | none => 0
    | some i => i + 1
  erase trimmed1 pos none

/-- `QueryProcessor::extractCommand`. -/
def extractCommand (qp : QueryProcessor) (rawQuery : Str) : Str :=
  let trimmedQuery := trimQuery rawQuery
  match qp.specialCommands_.find?
      (fun cmd => trimmedQuery == cmd || find trimmedQuery (cmd ++ " ".toList) == some 0) with
  | some cmd => cmd
  | none => []

/-- `QueryProcessor::isCodebaseQuery`. -/
def isCodebaseQuery (fileName : Str → Str) (qp : QueryProcessor) (cm : ContextManager)
    (query : Str) : Bool :=
  let lowerQuery := toLower query
  if qp.codeKeywords_.any (fun keyword => (find lowerQuery keyword).isSome) then true
  else !(getRelevantFiles fileName cm query 1).isEmpty

/-- Whether `query.find(kw) != std::string::npos`. -/
def has (query : Str) (kw : String) : Bool := (find query kw.toList).isSome

/-- The explanation block of `formatInstructions`. -/
def explainInstructions : Str :=
  ("Focus on explaining the code's purpose, functionality, and structure. "
    ++ "Break down complex parts and explain the logic step by step.").toList

/-- The debugging block of `formatInstructions`. -/
def debugInstructions : Str :=
  ("Identify potential bugs or issues in the code. "
    ++ "Suggest specific fixes and explain why they would solve the problem.").toList

/-- The optimization block of `formatInstructions`. -/
def optimizeInstructions : Str :=
  ("Analyze the code for performance bottlenecks. "
    ++ "Suggest optimizations and explain the expected improvements.").toList

/-- The implementation block of `formatInstructions`. -/
def implementInstructions : Str :=
  ("Provide a complete implementation that follows best practices. "
    ++ "Ensure the code is well-documented and fits with the existing codebase style.").toList

/-- The documentation block of `formatInstructions`. -/
def documentInstructions : Str :=
  ("Generate comprehensive documentation for the code. "
    ++ "Include function descriptions, parameter details, return values, and usage examples.").toList

/-- The default block of `formatInstructions`. -/
def defaultInstructions : Str :=
  ("Provide a detailed analysis relevant to the user's query. "
    ++ "Include code examples where appropriate and explain any technical concepts.").toList

/-- `QueryProcessor::formatInstructions`. -/
def formatInstructions (query : Str) : Str :=
  if has query "explain" || has query "understand" || has query "what does" then
    explainInstructions
  else if has query "bug" || has query "error" || has query "fix" || has query "issue" then
    debugInstructions
  else if has query "optimize" || has query "performance" || has query "faster"
      || has query "efficient" then
    optimizeInstructions
  else if has query "implement" || has query "create" || has query "write"
      || has query "add" then
    implementInstructions
  else if has query "document" || has query "comments" || has query "readme" then
    documentInstructions
  else
    defaultInstructions

/-- The idiom `pos = s.find(tok); if (pos != npos) s.replace(pos, n, r);` of
`processQuery`, with `n` the length of `tok`. -/
def fillPlaceholder (s tok r : Str) : Str :=
  match find s tok with
  | some pos => replace s pos tok.length r
  | none => s

/-- `QueryProcessor::processQuery`. -/
def processQuery (fileName : Str → Str) (qp : QueryProcessor) (cm : ContextManager)
    (rawQuery : Str) : Str :=
  let command := extractCommand qp rawQuery
  if command ≠ [] then command
  else
    let isCode := isCodebaseQuery fileName qp cm rawQuery
    if isCode then
      let context := buildContext fileName cm rawQuery
      let formattedQuery1 := fillPlaceholder qp.codePromptTemplate_ "{context}".toList context
      let formattedQuery2 := fillPlaceholder formattedQuery1 "{query}".toList rawQuery
      formattedQuery2 ++ "\n".toList ++ formatInstructions rawQuery
    else
      fillPlaceholder qp.generalPromptTemplate_ "{query}".toList rawQuery

/-! ## Code snippets -/

/-- One `std::getline(iss, line)`: the characters up to the next newline,
which is consumed and not stored. The call fails (`none`) when the stream is
at its end. -/
def getline (s : Str) : Option (Str × Str) :=
  if s = [] then none
  else some (s.takeWhile (fun c => c != '\n'), (s.dropWhile (fun c => c != '\n')).drop 1)

/-- The loop `while (std::getline(iss, line)) lines.push_back(line)` run for
at most `fuel` iterations. -/
def readLines : Nat → Str → List Str
  | 0, _ => []
  | fuel + 1, s =>
    match getline s with
    | none => []
    | some (line, rest) => line :: readLines fuel rest

/-- The vector `lines` of `formatCodeSnippet`: every iteration consumes at
least one character, so `fileContent.length + 1` iterations reach the end. -/
def splitLines (fileContent : Str) : List Str :=
  readLines (fileContent.length + 1) fileContent

/-- Conversion of a `size_t` to the 32-bit `int`. -/
def toInt32 (n : Nat) : Int := wrapInt32 (n : Int)

/-- The outcome of a run of `formatCodeSnippet`. -/
inductive SnippetResult where
  /-- The string that the function returns. -/
  | value (snippet : Str)
  /-- An access `lines[i]` with `i` outside the vector. -/
  | outOfBounds
  /-- The loop did not end within the iterations allowed. -/
  | outOfFuel
  deriving DecidableEq

/-- The loop `for (int i = startLine; i <= endLine; i++) snippet << lines[i] << "\n"`,
run for at most `fuel` tests of its condition, from the current `i` and
stream. -/
def snippetLoop (lines : List Str) (endLine : Int) : Nat → Int → Str → SnippetResult
  | 0, _, _ => .outOfFuel
  | fuel + 1, i, snippet =>
    if i ≤ endLine then
      match lines[toSizeT i]? with
      | none => .outOfBounds
      | some line =>
        snippetLoop lines endLine fuel (wrapInt32 (i + 1)) (snippet ++ line ++ "\n".toList)
    else .value snippet

/-- `ContextManager::formatCodeSnippet`. The loop is given one test of its
condition more than the number of indices from `startLine` to `endLine`. -/
def formatCodeSnippet (cm : ContextManager) (filePath : Str) (startLine endLine : Int) :
    SnippetResult :=
  let fileContent := getFile cm filePath
  if fileContent = [] then .value []
  else
    let lines := splitLines fileContent
    let startLine1 := if startLine < 0 then 0 else startLine
    let endLine1 :=
      if endLine ≥ toInt32 lines.length then
        toInt32 ((lines.length + 18446744073709551616 - 1) % 18446744073709551616)
      else endLine
    if startLine1 > endLine1 then .value []
    else snippetLoop lines endLine1 ((endLine1 - startLine1).toNat + 2) startLine1 []

/-- The lines of a file as the spec words them: the content split at every
newline, without the empty piece after a final newline. -/
def linesSpec (fileContent : Str) : List Str :=
  if (fileContent.splitOnP (fun c => c == '\n')).getLast? = some [] then
    (fileContent.splitOnP (fun c => c == '\n')).dropLast
  else fileContent.splitOnP (fun c => c == '\n')

/-! ## Scanner -/

/-- The struct `SymbolInfo`. -/
structure SymbolInfo where
  name : Str
  type : Str
  filePath : Str
  lineNumber : Int
  signature : Str
  documentation : Str
  deriving DecidableEq

/-- The struct `IndexedCode`. -/
structure IndexedCode where
  files : List (Str × Str)
  symbols : List (Str × List Str)
  symbolDetails : List SymbolInfo
  directories : List Str
  fileExtensions : List Str
  totalSize : Nat
  fileCount : Nat
  deriving DecidableEq

/-- The library `std::regex`, as a parameter of the scanner: for a pattern
and a subject, the matches that `std::sregex_iterator` visits, in order, each
one as the list of its sub-matches `match[0]`, `match[1]`, ... -/
abbrev RegexSearch := Str → Str → List (List Str)

/-- The text of `match[k].str()`: empty for a group that did not take part. -/
def subMatch (m : List Str) (k : Nat) : Str := m.getD k []

/-- The include pattern of `parseCppFile`. -/
def cppIncludePattern : Str := "#include\\s*[<\"]([^>\"]+)[>\"]".toList

/-- The class pattern of `parseCppFile`. -/
def cppClassPattern : Str := "class\\s+(\\w+)(\\s*:\\s*\\w+\\s+\\w+)?\\s*\\\x7b".toList

/-- The function pattern of `parseCppFile`. -/
def cppFunctionPattern : Str := "(\\w+)\\s+(\\w+)\\s*\\([^)]*\\)\\s*(\\\x7b|;)".toList

/-- The import pattern of `parsePythonFile`. -/
def pyImportPattern : Str := "import\\s+(\\w+)|from\\s+(\\w+)\\s+import".toList

/-- The class pattern of `parsePythonFile`. -/
def pyClassPattern : Str := "class\\s+(\\w+)(\\([^)]*\\))?\\s*:".toList

/-- The function pattern of `parsePythonFile`. -/
def pyFunctionPattern : Str := "def\\s+(\\w+)\\s*\\([^)]*\\)\\s*:".toList

/-- The import pattern of `parseJavaScriptFile`. -/
def jsImportPattern : Str :=
  ("import\\s+.*?from\\s+['\"]([^'\"]+)['\"]"
    ++ "|require\\s*\\(\\s*['\"]([^'\"]+)['\"]\\s*\\)").toList

/-- The class pattern of `parseJavaScriptFile`. -/
def jsClassPattern : Str := "class\\s+(\\w+)(\\s+extends\\s+\\w+)?\\s*\\\x7b".toList

/-- The function pattern of `parseJavaScriptFile`. -/
def jsFunctionPattern : Str :=
  ("function\\s+(\\w+)\\s*\\([^)]*\\)|(\\w+)\\s*:\\s*function\\s*\\([^)]*\\)"
    ++ "|(\\w+)\\s*=\\s*function\\s*\\([^)]*\\)").toList

/-- The arrow-function pattern of `parseJavaScriptFile`. -/
def jsArrowPattern : Str :=
  ("const\\s+(\\w+)\\s*=\\s*\\([^)]*\\)\\s*=>|let\\s+(\\w+)\\s*=\\s*\\([^)]*\\)\\s*=>"
    ++ "|var\\s+(\\w+)\\s*=\\s*\\([^)]*\\)\\s*=>").toList

/-- The TODO pattern of `extractSymbols`. -/
def todoPattern : Str := "TODO\\s*:?\\s*(.*)".toList

/-- The constant pattern of `extractSymbols`. -/
def constPattern : Str :=
  "const\\s+([A-Z][A-Z0-9_]*)\\s*=|#define\\s+([A-Z][A-Z0-9_]*)".toList

/-- A `SymbolInfo` as the parsers fill it: line number 0 and, unless set,
an empty documentation. -/
def mkSymbol (name : Str) (type : String) (filePath signature : Str) : SymbolInfo :=
  { name := name, type := type.toList, filePath := filePath, lineNumber := 0
    signature := signature, documentation := [] }

/-- `indexedCode.symbolDetails.push_back(symbol)`. -/
def pushDetail (indexedCode : IndexedCode) (symbol : SymbolInfo) : IndexedCode :=
  { indexedCode with symbolDetails := indexedCode.symbolDetails ++ [symbol] }

/-- `Scanner::parseCppFile`. -/
def parseCppFile (rx : RegexSearch) (filePath content : Str) (indexedCode : IndexedCode) :
    IndexedCode :=
  let ic1 := (rx cppIncludePattern content).foldl
    (fun ic m => pushDetail ic (mkSymbol (subMatch m 1) "include" filePath (subMatch m 0)))
    indexedCode
  let ic2 := (rx cppClassPattern content).foldl
    (fun ic m => pushDetail ic (mkSymbol (subMatch m 1) "class" filePath (subMatch m 0)))
    ic1
  (rx cppFunctionPattern content).foldl
    (fun ic m =>
      let returnType := subMatch m 1
      let functionName := subMatch m 2
      if returnType = "if".toList ∨ returnType = "for".toList ∨ returnType = "while".toList
          ∨ returnType = "switch".toList then ic
      else pushDetail ic (mkSymbol functionName "function" filePath (subMatch m 0)))
    ic2

/-- `Scanner::parsePythonFile`. -/
def parsePythonFile (rx : RegexSearch) (filePath content : Str) (indexedCode : IndexedCode) :
    IndexedCode :=
  let ic1 := (rx pyImportPattern content).foldl
    (fun ic m =>
      let importName := if subMatch m 1 = [] then subMatch m 2 else subMatch m 1
      pushDetail ic (mkSymbol importName "import" filePath (subMatch m 0)))
    indexedCode
  let ic2 := (rx pyClassPattern content).foldl
    (fun ic m => pushDetail ic (mkSymbol (subMatch m 1) "class" filePath (subMatch m 0)))
    ic1
  (rx pyFunctionPattern content).foldl
    (fun ic m => pushDetail ic (mkSymbol (subMatch m 1) "function" filePath (subMatch m 0)))
    ic2

/-- The function name that the two function loops of `parseJavaScriptFile`
take from a match: the first non-empty one of the groups 1 to 3. -/
def jsFunctionName (m : List Str) : Str :=
  if subMatch m 1 ≠ [] then subMatch m 1
  else if subMatch m 2 ≠ [] then subMatch m 2
  else if subMatch m 3 ≠ [] then subMatch m 3
  else []

/-- `Scanner::parseJavaScriptFile`. -/
def parseJavaScriptFile (rx : RegexSearch) (filePath content : Str)
    (indexedCode : IndexedCode) : IndexedCode :=
  let ic1 := (rx jsImportPattern content).foldl
    (fun ic m =>
      let importPath := if subMatch m 1 = [] then subMatch m 2 else subMatch m 1
      pushDetail ic (mkSymbol importPath "import" filePath (subMatch m 0)))
    indexedCode
  let ic2 := (rx jsClassPattern content).foldl
    (fun ic m => pushDetail ic (mkSymbol (subMatch m 1) "class" filePath (subMatch m 0)))
    ic1
  let ic3 := (rx jsFunctionPattern content).foldl
    (fun ic m =>
      if jsFunctionName m ≠ [] then
        pushDetail ic (mkSymbol (jsFunctionName m) "function" filePath (subMatch m 0))
      else ic)
    ic2
  (rx jsArrowPattern content).foldl
    (fun ic m =>
      if jsFunctionName m ≠ [] then
        pushDetail ic (mkSymbol (jsFunctionName m) "function" filePath (subMatch m 0))
      else ic)
    ic3

/-- `Scanner::extractSymbols` (its parameter `fileType` is not used by the
source and is left out). -/
def extractSymbols (rx : RegexSearch) (filePath content : Str) : List SymbolInfo :=
  let symbols1 := (rx todoPattern content).foldl
    (fun symbols m =>
      symbols ++ [{ mkSymbol "TODO".toList "comment" filePath (subMatch m 0) with
        documentation := subMatch m 1 }])
    []
  (rx constPattern content).foldl
    (fun symbols m =>
      let constName := if subMatch m 1 = [] then subMatch m 2 else subMatch m 1
      symbols ++ [mkSymbol constName "constant" filePath (subMatch m 0)])
    symbols1

/-- The update of the mapped value of the first entry stored under `key`
(a write through the reference `symbols[key]` of a key that is present). -/
def mapModify (m : List (Str × List Str)) (key : Str) (f : List Str → List Str) :
    List (Str × List Str) :=
  match m with
  | [] => []
  | kv :: rest =>
    if kv.1 == key then (kv.1, f kv.2) :: rest else kv :: mapModify rest key f

/-- One iteration of the loop of `parseFile` on the map `symbols`: the name
gets an empty file list when the map does not hold it, then the path is
appended to the name's list unless it is already there. -/
def registerSymbol (symbols : List (Str × List Str)) (name filePath : Str) :
    List (Str × List Str) :=
  let symbols1 :=
    if (mapFind symbols name).isNone then symbols ++ [(name, [])] else symbols
  mapModify symbols1 name
    (fun symbolFiles => if filePath ∈ symbolFiles then symbolFiles else symbolFiles ++ [filePath])

/-- `Scanner::parseFile`. The library function
`std::filesystem::path::extension` is the parameter `extension`. -/
def parseFile (extension : Str → Str) (rx : RegexSearch) (filePath content : Str)
    (indexedCode : IndexedCode) : IndexedCode :=
  let ext := toLower (extension filePath)
  let ic1 :=
    if ext = ".cpp".toList ∨ ext = ".h".toList ∨ ext = ".hpp".toList ∨ ext = ".c".toList then
      parseCppFile rx filePath content indexedCode
    else if ext = ".py".toList then parsePythonFile rx filePath content indexedCode
    else if ext = ".js".toList ∨ ext = ".ts".toList then
      parseJavaScriptFile rx filePath content indexedCode
    else indexedCode
  let symbols := extractSymbols rx filePath content
  symbols.foldl
    (fun ic symbol =>
      { ic with
        symbols := registerSymbol ic.symbols symbol.name filePath
        symbolDetails := ic.symbolDetails ++ [symbol] })
    ic1

/-- The assignment `map[key] = value`. -/
def mapAssign (m : List (Str × Str)) (key value : Str) : List (Str × Str) :=
  match m with
  | [] => [(key, value)]
  | kv :: rest => if kv.1 == key then (kv.1, value) :: rest else kv :: mapAssign rest key value

/-- The part of the second pass of `scanDirectory` that indexes one accepted
file: it stores the content, records the extension, parses the file and
updates the counters. -/
def indexFile (extension : Str → Str) (rx : RegexSearch) (filePath content : Str)
    (fileSize : Nat) (indexedCode : IndexedCode) : IndexedCode :=
  let ic1 := { indexedCode with files := mapAssign indexedCode.files filePath content }
  let ext := extension filePath
  let ic2 :=
    if ext ≠ [] ∧ ext ∉ ic1.fileExtensions then
      { ic1 with fileExtensions := ic1.fileExtensions ++ [ext] }
    else ic1
  let ic3 := parseFile extension rx filePath content ic2
  { ic3 with totalSize := ic3.totalSize + fileSize, fileCount := ic3.fileCount + 1 }

/-- The `IndexedCode` that `scanDirectory` starts from. -/
def emptyIndex : IndexedCode :=
  { files := [], symbols := [], symbolDetails := [], directories := [], fileExtensions := []
    totalSize := 0, fileCount := 0 }

/-- `ContextManager::initialize`: the return value and the manager after the
call (the copies are taken not to throw). -/
def initFromIndex (cm : ContextManager) (indexedCode : IndexedCode) :
    Bool × ContextManager :=
  (true, { cm with files_ := indexedCode.files, symbols_ := indexedCode.symbols })

/-! ## Scan of a directory -/

/-- The data members of `Scanner` that the scan reads. -/
structure Scanner where
  maxFileSize_ : Nat
  maxFileCount_ : Nat
  maxLineCount_ : Nat
  supportedExtensions_ : List Str
  excludeDirectories_ : List Str

/-- The extensions that the constructor supports by default. -/
def defaultExtensions : List Str :=
  [".cpp", ".h", ".hpp", ".c", ".cs", ".java", ".py", ".js", ".ts",
   ".go", ".rs", ".php", ".rb", ".swift", ".kt", ".scala"].map String.toList

/-- The directory names that the constructor excludes by default. -/
def defaultExcludes : List Str :=
  ["node_modules", "build", "dist", "target", "bin", "obj",
   ".git", ".svn", ".hg", ".vs", ".idea", "venv", "__pycache__"].map String.toList

/-- The constructor `Scanner::Scanner`, given the three `int` limits that
`config_->getInt` returns (their assignment to the `size_t` members converts
them) and the two lists. -/
def mkScanner (maxFileSize maxFileCount maxLineCount : Int)
    (supportedExtensions excludeDirectories : List Str) : Scanner :=
  { maxFileSize_ := toSizeT maxFileSize
    maxFileCount_ := toSizeT maxFileCount
    maxLineCount_ := toSizeT maxLineCount
    supportedExtensions_ := supportedExtensions
    excludeDirectories_ := excludeDirectories }

/-- What the scan reads of one entry that `fs::recursive_directory_iterator`
yields: its path, `is_directory()`, `is_regular_file()`, `file_size()`, and
the content that the `std::ifstream` delivers (`none` when the file cannot be
opened). -/
structure DirEntry where
  path : Str
  isDirectory : Bool
  isRegularFile : Bool
  fileSize : Nat
  content : Option Str

/-- `Scanner::isRelevantFile`. -/
def isRelevantFile (extension : Str → Str) (sc : Scanner) (filePath : Str) : Bool :=
  decide (toLower (extension filePath) ∈ sc.supportedExtensions_)

/-- The second pass of `scanDirectory` over the entries still to visit, with
the counter `processedFiles` and the index built so far. The iterator is
never told to skip a directory, so the entries are all those beneath the
root. -/
def scanLoop (extension fileName : Str → Str) (rx : RegexSearch) (sc : Scanner) :
    List DirEntry → Nat → IndexedCode → IndexedCode
  | [], _, indexedCode => indexedCode
  | entry :: rest, processedFiles, indexedCode =>
    let dirName := fileName entry.path
    if entry.isDirectory then
      let ic1 := { indexedCode with directories := indexedCode.directories ++ [entry.path] }
      if dirName ∈ sc.excludeDirectories_ then
        scanLoop extension fileName rx sc rest processedFiles ic1
      else scanLoop extension fileName rx sc rest processedFiles ic1
    else if !entry.isRegularFile || !isRelevantFile extension sc entry.path then
      scanLoop extension fileName rx sc rest processedFiles indexedCode
    else if entry.fileSize > sc.maxFileSize_ then
      scanLoop extension fileName rx sc rest processedFiles indexedCode
    else
      match entry.content with
      | none => scanLoop extension fileName rx sc rest processedFiles indexedCode
      | some content =>
        let lineCount := content.count '\n' + 1
        if lineCount > sc.maxLineCount_ then
          scanLoop extension fileName rx sc rest processedFiles indexedCode
        else
          let ic1 := indexFile extension rx entry.path content entry.fileSize indexedCode
          if processedFiles + 1 ≥ sc.maxFileCount_ then ic1
          else scanLoop extension fileName rx sc rest (processedFiles + 1) ic1

/-- `Scanner::scanDirectory` for an existing directory whose recursive
iteration yields `entries`. The first pass only counts files for the
progress callback and is left out, as are the callback and the log. -/
def scanDirectory (extension fileName : Str → Str) (rx : RegexSearch) (sc : Scanner)
    (entries : List DirEntry) : IndexedCode :=
  scanLoop extension fileName rx sc entries 0 emptyIndex

/-- Whether the second pass indexes an entry when it reaches it: a regular
file with a supported extension, within the size and line limits, that can
be opened. -/
def isAccepted (extension : Str → Str) (sc : Scanner) (entry : DirEntry) : Bool :=
  !entry.isDirectory && entry.isRegularFile && isRelevantFile extension sc entry.path
    && decide (entry.fileSize ≤ sc.maxFileSize_)
    && (match entry.content with
        | some content => decide (content.count '\n' + 1 ≤ sc.maxLineCount_)
        | none => false)

/-! ## Engine -/

/-- What `Engine::processQuery` reads and writes when it handles a command:
the context manager, the entries of the chat panel behind `mainWindow_`
(`isUser`, `text`), whether the window exists, and whether `WM_CLOSE` has
been posted to it. -/
structure Engine where
  contextManager_ : ContextManager
  chatEntries_ : List (Bool × Str)
  hasMainWindow : Bool
  closePosted : Bool

/-- `Engine::displayResponse`: through `MainWindow::displayResponse` it
reaches `ChatPanel::addResponse`, which appends an entry. -/
def displayResponse (engine : Engine) (response : Str) : Engine :=
  if engine.hasMainWindow then
    { engine with chatEntries_ := engine.chatEntries_ ++ [(false, response)] }
  else engine

/-- The text that `/help` displays. -/
def helpText : Str :=
  ("# CodeLve Help\n\n"
    ++ "- Type any question about the codebase\n"
    ++ "- Use /clear to clear the chat history\n"
    ++ "- Use /exit or /quit to exit the application\n"
    ++ "- Use /help to show this help message").toList

/-- The part of `Engine::processQuery` that handles the empty query and the
commands; `none` stands for a query that goes on to the inference thread,
which is not modelled. -/
def engineCommand (engine : Engine) (query : Str) : Option Engine :=
  if query = [] then some engine
  else if query = "/exit".toList ∨ query = "/quit".toList then
    if engine.hasMainWindow then some { engine with closePosted := true } else some engine
  else if query = "/help".toList then some (displayResponse engine helpText)
  else if query = "/clear".toList then
    if engine.hasMainWindow then some (displayResponse engine "!CLEAR!".toList)
    else some engine
  else none

/-! ## The calls with their effect on the manager -/

/-- The non-const `files_[key]`: the content stored under `key`; a key that
is absent is first inserted with an empty string. -/
def mapSubscript (m : List (Str × Str)) (key : Str) : Str × List (Str × Str) :=
  match mapFind m key with
  | some content => (content, m)
  | none => ([], m ++ [(key, [])])

/-- The loop of `buildContext` over the relevant files: the state is the
stream together with the map `files_`, which `files_[filePath]` may change. -/
def contextFilesLoop : List Str → Str × List (Str × Str) → Str × List (Str × Str)
  | [], state => state
  | filePath :: rest, (context, files) =>
    if (mapFind files filePath).isSome then
      let r := mapSubscript files filePath
      contextFilesLoop rest
        (context ++ "File: ".toList ++ filePath ++ "\n".toList
          ++ "```\n".toList ++ r.1 ++ "\n```\n\n".toList, r.2)
    else contextFilesLoop rest (context, files)

/-- `ContextManager::buildContext` as the non-const member function it is:
the returned string and the manager after the call. -/
def buildContextM (fileName : Str → Str) (cm : ContextManager) (query : Str) :
    Str × ContextManager :=
  let context0 := "### Conversation History ###\n".toList
  let historyText := getConversationHistory cm
  let context1 :=
    if historyText ≠ [] then context0 ++ historyText ++ "\n\n".toList else context0
  let context2 := context1 ++ "### Current Query ###\n".toList
  let context3 := context2 ++ query ++ "\n\n".toList
  let relevantFiles := getRelevantFiles fileName cm query 5
  let context4 := context3 ++ "### Relevant Code ###\n".toList
  let r := contextFilesLoop relevantFiles (context4, cm.files_)
  let result :=
    if r.1.length > toSizeT (wrapInt32 (cm.maxContextSize_ * 4)) then
      substr0 r.1 (toSizeT (wrapInt32 (cm.maxContextSize_ * 4)))
    else r.1
  (result, { cm with files_ := r.2 })

/-- `QueryProcessor::processQuery` with its effect on the context manager it
points to. -/
def processQueryM (fileName : Str → Str) (qp : QueryProcessor) (cm : ContextManager)
    (rawQuery : Str) : Str × ContextManager :=
  let command := extractCommand qp rawQuery
  if command ≠ [] then (command, cm)
  else
    let isCode := isCodebaseQuery fileName qp cm rawQuery
    if isCode then
      let r := buildContextM fileName cm rawQuery
      let formattedQuery1 := fillPlaceholder qp.codePromptTemplate_ "{context}".toList r.1
      let formattedQuery2 := fillPlaceholder formattedQuery1 "{query}".toList rawQuery
      (formattedQuery2 ++ "\n".toList ++ formatInstructions rawQuery, r.2)
    else
      (fillPlaceholder qp.generalPromptTemplate_ "{query}".toList rawQuery, cm)

/-! ## Call sequences on the history -/

/-- A call that changes the conversation history. -/
inductive HistoryOp where
  | add (query response : Str)
  | clear

/-- The effect of one history call on the manager. -/
def applyOp (cm : ContextManager) : HistoryOp → ContextManager
  | .add query response => addToHistory cm query response
  | .clear => clearHistory cm

/-- The text that `getConversationHistory` writes for one entry. -/
def renderEntry (entry : Str × Str) : Str :=
  "User: ".toList ++ entry.1 ++ "\n".toList ++ "CodeLve".toList ++ ": ".toList
    ++ entry.2 ++ "\n\n".toList

/-! ## Sample states -/

/-- A portable `filename`: the part of the path after the last `/` or `\\`. -/
def pathFileName (p : Str) : Str :=
  (p.reverse.takeWhile (fun c => c != '/' && c != '\\')).reverse

/-- A manager with no index, no history and the given budgets. -/
def emptyManager (maxContextSize maxHistoryEntries : Int) : ContextManager :=
  { files_ := [], symbols_ := [], history_ := []
    maxContextSize_ := maxContextSize, maxHistoryEntries_ := maxHistoryEntries }

/-- Three conversation entries. -/
def sampleEntries : List (Str × Str) :=
  [("q1".toList, "r1".toList), ("q2".toList, "r2".toList), ("q3".toList, "r3".toList)]

/-- The query processor built by the constructor with the default templates. -/
def defaultProcessor : QueryProcessor :=
  QueryProcessor.mk0 defaultCodeTemplate defaultGeneralTemplate

/-- The characters of `trimChars`, as a predicate. -/
def isTrimChar (c : Char) : Bool := trimChars.contains c

/-- The query without its leading and trailing whitespace, as the spec words
it: the longest all-whitespace prefix and suffix are removed. -/
def stripSpec (r : Str) : Str := (r.dropWhile isTrimChar).rdropWhile isTrimChar

/-- The query terms as the spec words them: the whitespace-split tokens of
the query with length greater than 3, lowercased. -/
def queryTermsSpec (query : Str) : List Str :=
  ((query.splitOnP isSpace).filter (fun t => decide (3 < t.length))).map toLower

/-- An index with one C++ file that defines the constant `WEATHER_API`. -/
def weatherManager : ContextManager :=
  { files_ := [("src/w.cpp".toList, "#define WEATHER_API 1".toList)]
    symbols_ := [("WEATHER_API".toList, ["src/w.cpp".toList])]
    history_ := []
    maxContextSize_ := 8192, maxHistoryEntries_ := 10 }

/-- An index with two files and three symbols. -/
def sampleManager : ContextManager :=
  { files_ := [("src/a.py".toList, "def fooBar():".toList), ("src/b.cpp".toList, "int Baz;".toList)]
    symbols_ := [("fooBar".toList, ["src/a.py".toList]), ("Baz".toList, ["src/b.cpp".toList]),
      ("FOOBAR_MAX".toList, ["src/b.cpp".toList])]
    history_ := []
    maxContextSize_ := 8192, maxHistoryEntries_ := 10 }

/-- An index with one file and one symbol whose name contains `parser`. -/
def parserManager : ContextManager :=
  { files_ := [("src/parser.cpp".toList, "#define PARSER_MAX 8".toList)]
    symbols_ := [("PARSER_MAX".toList, ["src/parser.cpp".toList])]
    history_ := []
    maxContextSize_ := 8192, maxHistoryEntries_ := 10 }

/-- A manager whose symbol table names a path that `files_` does not hold. -/
def danglingManager : ContextManager :=
  { files_ := []
    symbols_ := [("PARSER_MAX".toList, ["src/parser.cpp".toList])]
    history_ := []
    maxContextSize_ := 8192, maxHistoryEntries_ := 10 }

/-- A manager that indexes one file of three lines. -/
def linesManager : ContextManager :=
  { files_ := [("src/m.py".toList, "import os\nx = 1\ny = 2\n".toList)]
    symbols_ := []
    history_ := []
    maxContextSize_ := 8192, maxHistoryEntries_ := 10 }

/-- A portable `extension`: the part of the file name from its last dot on,
empty when the name has no dot or only a leading one. -/
def pathExtension (p : Str) : Str :=
  let name := pathFileName p
  let tail := (name.reverse.takeWhile (fun c => c != '.')).reverse
  if tail.length = name.length ∨ tail.length + 1 = name.length then []
  else '.' :: tail

/-- The content of the sample file `a.py`. -/
def aPyContent : Str := "def foo():\n    pass\n".toList

/-- The content of the sample file `b.cpp`, unrelated to `foo`. -/
def bCppContent : Str := "int x = 1;\n".toList

/-- The content of the sample header `c.h`. -/
def cHContent : Str := "#define MAX_SIZE 10\n".toList

/-- The matches of `std::regex` on the sample files: the Python function
pattern matches `def foo():` in `a.py` with `foo` as its group 1, the
constant pattern matches `#define MAX_SIZE` in `c.h` with `MAX_SIZE` as its
group 2, and no other pattern of the scanner matches in `a.py`, `b.cpp` or
`c.h`. -/
def sampleRegex : RegexSearch := fun pattern content =>
  if pattern = pyFunctionPattern ∧ content = aPyContent then
    [["def foo():".toList, "foo".toList]]
  else if pattern = constPattern ∧ content = cHContent then
    [["#define MAX_SIZE".toList, [], "MAX_SIZE".toList]]
  else []

/-- The index after the scan of a tree with `a.py` and `b.cpp`. -/
def sampleIndex : IndexedCode :=
  indexFile pathExtension sampleRegex "proj/b.cpp".toList bCppContent 11
    (indexFile pathExtension sampleRegex "proj/a.py".toList aPyContent 20 emptyIndex)

/-- The manager initialized from the sample index. -/
def scannedManager : ContextManager :=
  (initFromIndex (emptyManager 8192 10) sampleIndex).2

/-- A manager that indexes one file of 2147483648 empty lines. -/
def hugeManager : ContextManager :=
  { files_ := [("big.txt".toList, List.replicate 2147483648 '\n')]
    symbols_ := []
    history_ := []
    maxContextSize_ := 8192, maxHistoryEntries_ := 10 }

/-- The scanner with the default limits and lists. -/
def defaultScanner : Scanner :=
  mkScanner 10485760 10000 10000 defaultExtensions defaultExcludes

/-- The scanner with the file-count limit 0. -/
def zeroCountScanner : Scanner :=
  mkScanner 10485760 0 10000 defaultExtensions defaultExcludes

/-- The entries of a tree with the excluded directory `build`, the file
`gen.cpp` beneath it and the file `b.cpp` beside it. -/
def buildTreeEntries : List DirEntry :=
  [ { path := "proj/build".toList, isDirectory := true, isRegularFile := false
      fileSize := 0, content := none },
    { path := "proj/build/gen.cpp".toList, isDirectory := false, isRegularFile := true
      fileSize := 11, content := some bCppContent },
    { path := "proj/b.cpp".toList, isDirectory := false, isRegularFile := true
      fileSize := 11, content := some bCppContent } ]

/-- An engine with a window, an empty chat panel and one stored exchange. -/
def sampleEngine : Engine :=
  { contextManager_ :=
      { files_ := [], symbols_ := [], history_ := [("q1".toList, "r1".toList)]
        maxContextSize_ := 8192, maxHistoryEntries_ := 10 }
    chatEntries_ := [(true, "q1".toList), (false, "r1".toList)]
    hasMainWindow := true
    closePosted := false }

/-- The entries of a tree that holds the single file `b.cpp`. -/
def oneFileEntries : List DirEntry :=
  [ { path := "proj/b.cpp".toList, isDirectory := false, isRegularFile := true
      fileSize := 11, content := some bCppContent } ]

/-! ## Facts about `find` -/

theorem find_eq_zero_iff (s pat : Str) : find s pat = some 0 ↔ pat <+: s := by
  cases s with
  | nil => simp [find]
  | cons c t =>
    by_cases h : pat <+: c :: t
    · simp [find, h]
    · simp [find, h]

theorem find_isSome_iff (s pat : Str) : (find s pat).isSome ↔ pat <:+: s := by
  induction s with
  | nil =>
    by_cases h : pat = []
    · simp [find, h]
    · simp [find, h]
  | cons c t ih =>
    rw [List.infix_cons_iff]
    by_cases h : pat <+: c :: t
    · simp [find, h]
    · simp [find, h, ih]

theorem find_eq_none_iff (s pat : Str) : find s pat = none ↔ ¬ pat <:+: s := by
  rw [← find_isSome_iff]
  cases find s pat <;> simp

/-- The occurrence of `tok` right after `pre` is the first one of
`pre ++ tok ++ post` when no occurrence starts inside `pre`. -/
theorem find_append_first (pre tok post : Str) (h : ¬ tok <:+: pre ++ tok.dropLast) :
    find (pre ++ tok ++ post) tok = some pre.length := by
  induction pre with
  | nil =>
    have : find (tok ++ post) tok = some 0 := (find_eq_zero_iff _ _).2 (List.prefix_append _ _)
    simpa using this
  | cons c pre ih =>
    have hne : tok ≠ [] := by
      rintro rfl
      exact h List.nil_infix
    have h1 : ¬ tok <+: c :: (pre ++ tok ++ post) := by
      intro hp
      apply h
      have hlen : tok.length ≤ (c :: pre ++ tok.dropLast).length := by
        simp only [List.length_append, List.length_cons, List.length_dropLast]
        have := List.length_pos.2 hne
        omega
      have hp2 : c :: pre ++ tok.dropLast <+: c :: (pre ++ tok ++ post) := by
        have : c :: (pre ++ tok ++ post)
            = (c :: pre ++ tok.dropLast) ++ ([tok.getLast hne] ++ post) := by
          conv_lhs => rw [← List.dropLast_append_getLast hne]
          simp
        rw [this]
        exact List.prefix_append _ _
      exact (List.prefix_of_prefix_length_le hp hp2 hlen).isInfix
    have h2 : ¬ tok <:+: pre ++ tok.dropLast := by
      intro hi
      apply h
      exact hi.trans (List.suffix_cons c _).isInfix
    have h3 := ih h2
    have h4 : find (c :: (pre ++ tok ++ post)) tok
        = (find (pre ++ tok ++ post) tok).map (· + 1) := by
      rw [find, if_neg]
      rwa [List.isPrefixOf_iff_prefix]
    have h5 : c :: pre ++ tok ++ post = c :: (pre ++ tok ++ post) := by simp
    rw [h5, h4, h3]
    simp

/-- Filling a placeholder that occurs in the string replaces its first
occurrence. -/
theorem fillPlaceholder_first (pre tok post r : Str) (h : ¬ tok <:+: pre ++ tok.dropLast) :
    fillPlaceholder (pre ++ tok ++ post) tok r = pre ++ r ++ post := by
  unfold fillPlaceholder
  rw [find_append_first pre tok post h]
  simp [replace, List.take_append_eq_append_take, List.drop_append_eq_append_drop]

/-- Filling a placeholder that does not occur leaves the string as it is. -/
theorem fillPlaceholder_absent (s tok r : Str) (h : ¬ tok <:+: s) :
    fillPlaceholder s tok r = s := by
  simp [fillPlaceholder, (find_eq_none_iff s tok).2 h]

/-! ## Machine integers -/

theorem toSizeT_of_nonneg (x : Int) (h0 : 0 ≤ x) (h1 : x < 18446744073709551616) :
    toSizeT x = x.toNat := by
  unfold toSizeT
  rw [Int.emod_eq_of_lt h0 h1]

theorem toSizeT_le (x : Int) (h0 : 0 ≤ x) : (toSizeT x : Int) ≤ x := by
  unfold toSizeT
  omega

theorem wrapInt32_of_range (x : Int) (h0 : -2147483648 ≤ x) (h1 : x < 2147483648) :
    wrapInt32 x = x := by
  unfold wrapInt32
  omega

/-! ## Conversation history -/

theorem foldl_append_eq {α : Type} (f : α → Str) (l : List α) (init : Str) :
    l.foldl (fun acc a => acc ++ f a) init = init ++ l.flatMap f := by
  induction l generalizing init with
  | nil => simp
  | cons a l ih => simp [ih]

theorem getConversationHistory_eq (cm : ContextManager) :
    getConversationHistory cm = cm.history_.flatMap renderEntry := by
  unfold getConversationHistory
  have h := foldl_append_eq renderEntry cm.history_ []
  simp only [List.nil_append] at h
  rw [← h]
  congr 1
  funext acc entry
  simp [renderEntry, List.append_assoc]

theorem addToHistory_maxHistoryEntries (cm : ContextManager) (q r : Str) :
    (addToHistory cm q r).maxHistoryEntries_ = cm.maxHistoryEntries_ := by
  simp only [addToHistory]
  split <;> rfl

theorem addToHistory_history_of_le (cm : ContextManager) (q r : Str)
    (h : cm.history_.length + 1 ≤ toSizeT cm.maxHistoryEntries_) :
    (addToHistory cm q r).history_ = cm.history_ ++ [(q, r)] := by
  unfold addToHistory
  have : ¬ (cm.history_ ++ [(q, r)]).length > toSizeT cm.maxHistoryEntries_ := by
    simp only [List.length_append, List.length_singleton]
    omega
  simp only [this, if_false]

theorem addToHistory_history_of_gt (cm : ContextManager) (q r : Str)
    (h : toSizeT cm.maxHistoryEntries_ < cm.history_.length + 1) :
    (addToHistory cm q r).history_ = (cm.history_ ++ [(q, r)]).tail := by
  unfold addToHistory
  have : (cm.history_ ++ [(q, r)]).length > toSizeT cm.maxHistoryEntries_ := by
    simp only [List.length_append, List.length_singleton]
    omega
  simp only [this, if_true]

/-- Adding entries while the capacity is not exceeded appends them. -/
theorem foldl_addToHistory_of_le (entries : List (Str × Str)) (cm : ContextManager)
    (h : cm.history_.length + entries.length ≤ toSizeT cm.maxHistoryEntries_) :
    (entries.foldl (fun c e => addToHistory c e.1 e.2) cm).history_ = cm.history_ ++ entries
    ∧ (entries.foldl (fun c e => addToHistory c e.1 e.2) cm).maxHistoryEntries_
        = cm.maxHistoryEntries_ := by
  induction entries generalizing cm with
  | nil => simp
  | cons e entries ih =>
    simp only [List.length_cons] at h
    have h1 : (addToHistory cm e.1 e.2).history_ = cm.history_ ++ [(e.1, e.2)] :=
      addToHistory_history_of_le cm e.1 e.2 (by omega)
    have h2 := addToHistory_maxHistoryEntries cm e.1 e.2
    have h3 := ih (addToHistory cm e.1 e.2) (by
      rw [h1, h2]
      simp only [List.length_append, List.length_singleton]
      omega)
    simp only [List.foldl_cons]
    rw [h3.1, h3.2, h1, h2]
    simp

/-- The history never grows beyond the capacity (as a `size_t`). -/
theorem applyOp_invariant (cm : ContextManager) (op : HistoryOp)
    (h : cm.history_.length ≤ toSizeT cm.maxHistoryEntries_) :
    (applyOp cm op).history_.length ≤ toSizeT (applyOp cm op).maxHistoryEntries_
    ∧ (applyOp cm op).maxHistoryEntries_ = cm.maxHistoryEntries_ := by
  cases op with
  | clear => simp [applyOp, clearHistory]
  | add q r =>
    simp only [applyOp]
    refine ⟨?_, addToHistory_maxHistoryEntries cm q r⟩
    rw [addToHistory_maxHistoryEntries]
    by_cases hc : cm.history_.length + 1 ≤ toSizeT cm.maxHistoryEntries_
    · rw [addToHistory_history_of_le cm q r hc]
      simpa using hc
    · rw [addToHistory_history_of_gt cm q r (by omega)]
      simp only [List.length_tail, List.length_append, List.length_singleton]
      omega

theorem foldl_applyOp_invariant (ops : List HistoryOp) (cm : ContextManager)
    (h : cm.history_.length ≤ toSizeT cm.maxHistoryEntries_) :
    (ops.foldl applyOp cm).history_.length ≤ toSizeT cm.maxHistoryEntries_
    ∧ (ops.foldl applyOp cm).maxHistoryEntries_ = cm.maxHistoryEntries_ := by
  induction ops generalizing cm with
  | nil => exact ⟨h, rfl⟩
  | cons op ops ih =>
    have h1 := applyOp_invariant cm op h
    have h2 := ih (applyOp cm op) h1.1
    simp only [List.foldl_cons]
    rw [h1.2] at h2
    exact h2

/-- C3: with history capacity `k ≥ 0`, after `k + 1` pairs have been added by
`addToHistory` to an empty history, `getConversationHistory` returns the
rendering of the last `k` pairs (all but the first) in insertion order, each
pair rendered as `"User: " + query + "\n" + "CodeLve" + ": " + response + "\n\n"`. -/
theorem getConversationHistory_after_overflow (cm : ContextManager) (k : Int)
    (entries : List (Str × Str)) (hk : 0 ≤ k) (hint : k ≤ 2147483647)
    (hcap : cm.maxHistoryEntries_ = k) (hempty : cm.history_ = [])
    (hlen : (entries.length : Int) = k + 1) :
    getConversationHistory (entries.foldl (fun c e => addToHistory c e.1 e.2) cm)
      = (entries.drop (entries.length - k.toNat)).flatMap
          (fun e => "User: ".toList ++ e.1 ++ "\n".toList ++ "CodeLve".toList ++ ": ".toList
            ++ e.2 ++ "\n\n".toList) := by
  have hsz : toSizeT cm.maxHistoryEntries_ = k.toNat := by
    rw [hcap]
    exact toSizeT_of_nonneg k hk (by omega)
  have hne : entries ≠ [] := by
    rintro rfl
    simp at hlen
    omega
  obtain ⟨init, last, rfl⟩ : ∃ init last, entries = init ++ [last] :=
    ⟨entries.dropLast, entries.getLast hne, (List.dropLast_append_getLast hne).symm⟩
  simp only [List.length_append, List.length_singleton] at hlen
  have hinit : init.length = k.toNat := by omega
  have h1 := foldl_addToHistory_of_le init cm (by rw [hempty, hsz]; simp; omega)
  rw [hempty] at h1
  simp only [List.nil_append] at h1
  rw [getConversationHistory_eq, List.foldl_append]
  simp only [List.foldl_cons, List.foldl_nil]
  rw [addToHistory_history_of_gt _ _ _ (by rw [h1.1, h1.2, hsz]; omega), h1.1]
  have hd : (init ++ [last]).length - k.toNat = 1 := by
    simp only [List.length_append, List.length_singleton]
    omega
  rw [hd]
  simp only [List.drop_one]
  rfl

/-- C4: in every state reached from an empty history by `addToHistory` and
`clearHistory` calls, with `maxHistoryEntries ≥ 0`, the number of stored
entries is at most `maxHistoryEntries`. -/
theorem history_length_le_max (cm : ContextManager) (ops : List HistoryOp)
    (hmax : 0 ≤ cm.maxHistoryEntries_) (hempty : cm.history_ = []) :
    ((ops.foldl applyOp cm).history_.length : Int) ≤ cm.maxHistoryEntries_ := by
  have h := (foldl_applyOp_invariant ops cm (by rw [hempty]; simp)).1
  have h2 := toSizeT_le cm.maxHistoryEntries_ hmax
  omega

theorem getConversationHistory_after_overflow_witness :
    (0 : Int) ≤ 2 ∧ (2 : Int) ≤ 2147483647
    ∧ (emptyManager 8192 2).maxHistoryEntries_ = 2 ∧ (emptyManager 8192 2).history_ = []
    ∧ (sampleEntries.length : Int) = 2 + 1
    ∧ getConversationHistory
        (sampleEntries.foldl (fun c e => addToHistory c e.1 e.2) (emptyManager 8192 2))
      = (sampleEntries.drop (sampleEntries.length - (2 : Int).toNat)).flatMap
          (fun e => "User: ".toList ++ e.1 ++ "\n".toList ++ "CodeLve".toList ++ ": ".toList
            ++ e.2 ++ "\n\n".toList) :=
  ⟨by decide, by decide, rfl, rfl, by decide,
    getConversationHistory_after_overflow (emptyManager 8192 2) 2 sampleEntries
      (by decide) (by decide) rfl rfl (by decide)⟩

theorem history_length_le_max_witness :
    (0 : Int) ≤ (emptyManager 8192 1).maxHistoryEntries_ ∧ (emptyManager 8192 1).history_ = []
    ∧ (([HistoryOp.add "a".toList "b".toList, HistoryOp.add "c".toList "d".toList,
          HistoryOp.clear, HistoryOp.add "e".toList "f".toList].foldl applyOp
          (emptyManager 8192 1)).history_.length : Int)
        ≤ (emptyManager 8192 1).maxHistoryEntries_ :=
  ⟨by decide, rfl, history_length_le_max (emptyManager 8192 1) _ (by decide) rfl⟩

/-! ## Query processor: general template, instruction blocks -/

/-- C6: for a query that is neither a command nor codebase-related,
`processQuery` returns the general template with the first occurrence of
`{query}` replaced by the query (the text before and after it untouched, no
context, no instruction block), and the template unchanged when it contains
no `{query}`. -/
theorem processQuery_general (fileName : Str → Str) (qp : QueryProcessor)
    (cm : ContextManager) (q : Str)
    (hcmd : extractCommand qp q = []) (hgen : isCodebaseQuery fileName qp cm q = false) :
    (∀ pre post : Str, qp.generalPromptTemplate_ = pre ++ "{query}".toList ++ post →
        ¬ "{query}".toList <:+: pre ++ "\x7bquery".toList →
        processQuery fileName qp cm q = pre ++ q ++ post)
    ∧ (¬ "{query}".toList <:+: qp.generalPromptTemplate_ →
        processQuery fileName qp cm q = qp.generalPromptTemplate_) := by
  have hp : processQuery fileName qp cm q
      = fillPlaceholder qp.generalPromptTemplate_ "{query}".toList q := by
    simp [processQuery, hcmd, hgen]
  rw [hp]
  refine ⟨?_, fun h => fillPlaceholder_absent _ _ _ h⟩
  intro pre post hT hfirst
  rw [hT]
  exact fillPlaceholder_first pre _ post q hfirst

set_option maxRecDepth 100000 in
theorem processQuery_general_witness :
    extractCommand defaultProcessor "hello there".toList = []
    ∧ isCodebaseQuery pathFileName defaultProcessor (emptyManager 8192 10)
        "hello there".toList = false
    ∧ processQuery pathFileName defaultProcessor (emptyManager 8192 10) "hello there".toList
      = ("You are CodeLve, an AI assistant for developers.\n"
          ++ "Answer the following question based on your knowledge:\n\n"
          ++ "User query: ").toList ++ "hello there".toList
          ++ "\nProvide a concise and helpful response.".toList :=
  ⟨by decide, by decide,
    (processQuery_general pathFileName defaultProcessor (emptyManager 8192 10)
      "hello there".toList (by decide) (by decide)).1 _ _ (by decide) (by decide)⟩

theorem has_iff (query : Str) (kw : String) : has query kw = true ↔ kw.toList <:+: query := by
  unfold has
  exact find_isSome_iff query kw.toList

/-- C9: `formatInstructions` returns one of six fixed blocks, chosen by the
first rule that matches in the order explanation (explain, understand,
"what does"), debugging (bug, error, fix, issue), optimization (optimize,
performance, faster, efficient), implementation (implement, create, write,
add), documentation (document, comments, readme), and otherwise the generic
analysis block; a keyword matches when it occurs in the query as a
substring. -/
theorem formatInstructions_spec (q : Str) :
    formatInstructions q =
      if "explain".toList <:+: q ∨ "understand".toList <:+: q ∨ "what does".toList <:+: q then
        explainInstructions
      else if "bug".toList <:+: q ∨ "error".toList <:+: q ∨ "fix".toList <:+: q
          ∨ "issue".toList <:+: q then
        debugInstructions
      else if "optimize".toList <:+: q ∨ "performance".toList <:+: q
          ∨ "faster".toList <:+: q ∨ "efficient".toList <:+: q then
        optimizeInstructions
      else if "implement".toList <:+: q ∨ "create".toList <:+: q ∨ "write".toList <:+: q
          ∨ "add".toList <:+: q then
        implementInstructions
      else if "document".toList <:+: q ∨ "comments".toList <:+: q
          ∨ "readme".toList <:+: q then
        documentInstructions
      else
        defaultInstructions := by
  unfold formatInstructions
  simp only [Bool.or_eq_true, has_iff, or_assoc]

/-! ## Command extraction -/

theorem erase_findFirstNotOf (s set : Str) :
    erase s 0 (findFirstNotOf s set) = s.dropWhile (fun c => set.contains c) := by
  induction s with
  | nil => simp [findFirstNotOf, erase]
  | cons c t ih =>
    by_cases hc : c ∈ set
    · have hc2 : set.contains c = true := by simpa using hc
      rw [findFirstNotOf, if_pos hc2, List.dropWhile_cons_of_pos (by simpa using hc), ← ih]
      cases findFirstNotOf t set with
      | none => simp [erase]
      | some k => simp [erase]
    · have hc2 : ¬ set.contains c = true := by simpa using hc
      rw [findFirstNotOf, if_neg hc2, List.dropWhile_cons_of_neg (by simpa using hc)]
      simp [erase]

theorem rdropWhile_cons (p : Char → Bool) (c : Char) (t : Str) :
    (c :: t).rdropWhile p
      = if t.rdropWhile p = [] then (if p c then [] else [c]) else c :: t.rdropWhile p := by
  unfold List.rdropWhile
  rw [List.reverse_cons, List.dropWhile_append]
  by_cases h : t.reverse.dropWhile p = []
  · by_cases hc : p c = true
    · simp [h, hc]
    · simp [h, hc]
  · simp [h]

theorem findLastNotOf_none (s set : Str) (h : findLastNotOf s set = none) :
    s.rdropWhile (fun c => set.contains c) = [] := by
  induction s with
  | nil => simp
  | cons c t ih =>
    rw [findLastNotOf] at h
    cases ht : findLastNotOf t set with
    | some i => rw [ht] at h; cases h
    | none =>
      rw [ht] at h
      by_cases hc : set.contains c = true
      · rw [rdropWhile_cons, ih ht, if_pos rfl, if_pos hc]
      · rw [if_neg hc] at h
        cases h

theorem findLastNotOf_some (s set : Str) (i : Nat) (h : findLastNotOf s set = some i) :
    s.take (i + 1) = s.rdropWhile (fun c => set.contains c)
    ∧ s.rdropWhile (fun c => set.contains c) ≠ [] := by
  induction s generalizing i with
  | nil => simp [findLastNotOf] at h
  | cons c t ih =>
    rw [findLastNotOf] at h
    cases ht : findLastNotOf t set with
    | some j =>
      rw [ht] at h
      injection h with h
      subst h
      have h1 := ih j ht
      rw [rdropWhile_cons, if_neg h1.2, List.take_succ_cons, h1.1]
      exact ⟨rfl, List.cons_ne_nil _ _⟩
    | none =>
      rw [ht] at h
      by_cases hc : set.contains c = true
      · rw [if_pos hc] at h
        cases h
      · rw [if_neg hc] at h
        injection h with h
        subst h
        rw [rdropWhile_cons, findLastNotOf_none t set ht, if_pos rfl, if_neg hc]
        exact ⟨rfl, List.cons_ne_nil _ _⟩

/-- The two `erase` calls of `extractCommand` strip the leading and trailing
whitespace. -/
theorem trimQuery_eq_stripSpec (r : Str) : trimQuery r = stripSpec r := by
  unfold trimQuery stripSpec
  simp only
  rw [erase_findFirstNotOf]
  have hp : (fun c => trimChars.contains c) = isTrimChar := rfl
  rw [hp]
  cases h : findLastNotOf (r.dropWhile isTrimChar) trimChars with
  | none =>
    have := findLastNotOf_none _ _ h
    rw [hp] at this
    simp [erase, this]
  | some i =>
    have := (findLastNotOf_some _ _ i h).1
    rw [hp] at this
    simp [erase, this]

/-- C7: with `t` the raw query stripped of leading and trailing whitespace,
`extractCommand` returns the first command `c` of the list `/help`, `/clear`,
`/reset`, `/exit`, `/info`, `/settings` such that `t = c` or `t` starts with
`c` followed by a space, and it returns the empty string exactly when no
command of the list satisfies that condition. -/
theorem extractCommand_spec (codeTemplate generalTemplate r : Str) :
    extractCommand (QueryProcessor.mk0 codeTemplate generalTemplate) r
      = (("/help".toList :: "/clear".toList :: "/reset".toList :: "/exit".toList
            :: "/info".toList :: ["/settings".toList]).find?
          (fun c => decide (stripSpec r = c ∨ c ++ " ".toList <+: stripSpec r))).getD []
    ∧ (extractCommand (QueryProcessor.mk0 codeTemplate generalTemplate) r = []
        ↔ ∀ c ∈ ("/help".toList :: "/clear".toList :: "/reset".toList :: "/exit".toList
            :: "/info".toList :: ["/settings".toList]),
          ¬ (stripSpec r = c ∨ c ++ " ".toList <+: stripSpec r)) := by
  have hfun : (fun cmd : Str =>
        trimQuery r == cmd || find (trimQuery r) (cmd ++ " ".toList) == some 0)
      = (fun c => decide (stripSpec r = c ∨ c ++ " ".toList <+: stripSpec r)) := by
    funext c
    rw [trimQuery_eq_stripSpec]
    rw [Bool.eq_iff_iff]
    simp [find_eq_zero_iff]
  have hmain : extractCommand (QueryProcessor.mk0 codeTemplate generalTemplate) r
      = (("/help".toList :: "/clear".toList :: "/reset".toList :: "/exit".toList
            :: "/info".toList :: ["/settings".toList]).find?
          (fun c => decide (stripSpec r = c ∨ c ++ " ".toList <+: stripSpec r))).getD [] := by
    unfold extractCommand
    simp only [hfun]
    have hl : (QueryProcessor.mk0 codeTemplate generalTemplate).specialCommands_
        = ("/help".toList :: "/clear".toList :: "/reset".toList :: "/exit".toList
            :: "/info".toList :: ["/settings".toList]) := rfl
    rw [hl]
    cases List.find? _ _ <;> rfl
  refine ⟨hmain, ?_⟩
  rw [hmain]
  constructor
  · intro h c hc
    cases hf : List.find? (fun c => decide (stripSpec r = c ∨ c ++ " ".toList <+: stripSpec r))
        ("/help".toList :: "/clear".toList :: "/reset".toList :: "/exit".toList
            :: "/info".toList :: ["/settings".toList]) with
    | none =>
      have := List.find?_eq_none.1 hf c hc
      simpa using this
    | some d =>
      rw [hf] at h
      simp only [Option.getD_some] at h
      have hmem := List.mem_of_find?_eq_some hf
      subst h
      simp at hmem
  · intro h
    have : List.find? (fun c => decide (stripSpec r = c ∨ c ++ " ".toList <+: stripSpec r))
        ("/help".toList :: "/clear".toList :: "/reset".toList :: "/exit".toList
            :: "/info".toList :: ["/settings".toList]) = none := by
      rw [List.find?_eq_none]
      intro c hc
      simpa using h c hc
    rw [this]
    rfl

/-! ## Query terms -/

/-- The first piece of a split is the run up to the first separator; the
other pieces are the split of what follows that separator. -/
theorem splitOnP_eq_takeWhile_cons (p : Char → Bool) (s : Str) :
    s.splitOnP p = s.takeWhile (fun c => !p c) ::
      (match s.dropWhile (fun c => !p c) with
        | [] => []
        | _ :: r => r.splitOnP p) := by
  induction s with
  | nil => simp
  | cons x xs ih =>
    rw [List.splitOnP_cons]
    by_cases hx : p x = true
    · simp [hx]
    · have hx2 : (!p x) = true := by simpa using hx
      rw [if_neg hx, ih, List.takeWhile_cons_of_pos (p := fun c => !p c) hx2,
        List.dropWhile_cons_of_pos (p := fun c => !p c) hx2]
      rfl

theorem queryTermsSpec_nil : queryTermsSpec [] = [] := by
  simp [queryTermsSpec]

theorem queryTermsSpec_cons_space (c : Char) (s : Str) (hc : isSpace c = true) :
    queryTermsSpec (c :: s) = queryTermsSpec s := by
  simp [queryTermsSpec, List.splitOnP_cons, hc]

theorem queryTermsSpec_dropWhile (s : Str) :
    queryTermsSpec (s.dropWhile isSpace) = queryTermsSpec s := by
  induction s with
  | nil => rfl
  | cons c s ih =>
    by_cases hc : isSpace c = true
    · rw [List.dropWhile_cons_of_pos hc, ih, queryTermsSpec_cons_space c s hc]
    · rw [List.dropWhile_cons_of_neg hc]

/-- The spec terms obey the recursion of the `iss >> term` loop. -/
theorem queryTermsSpec_step (s : Str) :
    queryTermsSpec s
      = (if 3 < (s.takeWhile (fun c => !isSpace c)).length then
          [toLower (s.takeWhile (fun c => !isSpace c))] else [])
        ++ queryTermsSpec (s.dropWhile (fun c => !isSpace c)) := by
  have h := splitOnP_eq_takeWhile_cons isSpace s
  cases hd : s.dropWhile (fun c => !isSpace c) with
  | nil =>
    rw [hd] at h
    simp only at h
    rw [queryTermsSpec, h, queryTermsSpec_nil]
    by_cases hl : 3 < (s.takeWhile (fun c => !isSpace c)).length
    · simp [hl]
    · simp [hl]
  | cons sp r =>
    rw [hd] at h
    simp only at h
    have hsp : isSpace sp = true := by
      have := List.head_dropWhile_not (fun c => !isSpace c) s (by rw [hd]; simp)
      simp only [hd, List.head_cons] at this
      simpa using this
    rw [queryTermsSpec_cons_space sp r hsp]
    rw [queryTermsSpec, h, queryTermsSpec]
    by_cases hl : 3 < (s.takeWhile (fun c => !isSpace c)).length
    · simp [hl]
    · simp [hl]

theorem length_dropWhile_lt (s : Str) (hne : s ≠ [])
    (hhead : ∀ c, s.head? = some c → isSpace c = false) :
    (s.dropWhile (fun c => !isSpace c)).length < s.length := by
  cases s with
  | nil => exact absurd rfl hne
  | cons c t =>
    have hc : (!isSpace c) = true := by simp [hhead c rfl]
    rw [List.dropWhile_cons_of_pos (p := fun c => !isSpace c) hc]
    have := (List.dropWhile_sublist (fun c => !isSpace c) (l := t)).length_le
    simp only [List.length_cons]
    omega

/-- With enough fuel the `iss >> term` loop yields the spec terms. -/
theorem readTerms_eq_spec (fuel : Nat) (s : Str) (h : s.length < fuel) :
    readTerms fuel s = queryTermsSpec s := by
  induction fuel generalizing s with
  | zero => omega
  | succ fuel ih =>
    rw [readTerms, extractTerm]
    by_cases h1 : s.dropWhile isSpace = []
    · rw [if_pos h1, ← queryTermsSpec_dropWhile, h1, queryTermsSpec_nil]
    · rw [if_neg h1]
      simp only
      have hhead : ∀ c, (s.dropWhile isSpace).head? = some c → isSpace c = false := by
        intro c hc
        have := List.head_dropWhile_not isSpace s h1
        rw [List.head?_eq_head h1] at hc
        injection hc with hc
        rw [hc] at this
        simpa using this
      have hlt := length_dropWhile_lt (s.dropWhile isSpace) h1 hhead
      have hle := (List.dropWhile_sublist isSpace (l := s)).length_le
      rw [ih _ (by omega), ← queryTermsSpec_dropWhile s, queryTermsSpec_step (s.dropWhile isSpace)]
      by_cases hl : 3 < ((s.dropWhile isSpace).takeWhile (fun c => !isSpace c)).length
      · simp [hl]
      · simp [hl]

theorem queryTerms_eq_spec (query : Str) : queryTerms query = queryTermsSpec query :=
  readTerms_eq_spec _ _ (Nat.lt_succ_self _)

/-! ## Relevant symbols -/

theorem foldl_filter_eq {α : Type} (P : α → Bool) (f : α → Str) (l : List α)
    (init : List Str) :
    l.foldl (fun acc a => if P a then acc ++ [f a] else acc) init
      = init ++ (l.filter P).map f := by
  induction l generalizing init with
  | nil => simp
  | cons a l ih =>
    by_cases ha : P a = true
    · simp [ih, ha]
    · simp [ih, ha]

/-- The relevant symbols are the keys, in iteration order, whose lowercased
name contains a query term. -/
theorem findRelevantSymbols_eq_filter (cm : ContextManager) (query : Str) :
    findRelevantSymbols cm query
      = (cm.symbols_.filter (fun symbolPair =>
          (queryTerms query).any (fun term => (find (toLower symbolPair.1) term).isSome))).map
          Prod.fst := by
  unfold findRelevantSymbols
  have h := foldl_filter_eq
    (fun symbolPair : Str × List Str =>
      (queryTerms query).any (fun term => (find (toLower symbolPair.1) term).isSome))
    Prod.fst cm.symbols_ []
  simpa using h

/-- C10: provided the keys of the symbol table are distinct (it is a map), a
name `s` is in `findRelevantSymbols(q)` if and only if `s` is a key of the
table and the lowercased `s` contains, as a substring, the lowercased form of
some whitespace-delimited token of `q` whose length is greater than 3; each
such symbol appears exactly once in the result. -/
theorem findRelevantSymbols_spec (cm : ContextManager) (q : Str)
    (hkeys : (cm.symbols_.map Prod.fst).Nodup) :
    (∀ s : Str, s ∈ findRelevantSymbols cm q ↔
        s ∈ cm.symbols_.map Prod.fst
        ∧ ∃ t ∈ q.splitOnP isSpace, 3 < t.length ∧ toLower t <:+: toLower s)
    ∧ (∀ s ∈ findRelevantSymbols cm q,
        (findRelevantSymbols cm q).countP (fun x => decide (x = s)) = 1) := by
  have hsub : (findRelevantSymbols cm q).Sublist (cm.symbols_.map Prod.fst) := by
    rw [findRelevantSymbols_eq_filter]
    exact (List.filter_sublist _).map _
  refine ⟨?_, fun s hs => List.count_eq_one_of_mem (hkeys.sublist hsub) hs⟩
  intro s
  rw [findRelevantSymbols_eq_filter, queryTerms_eq_spec]
  simp only [List.mem_map, List.mem_filter, List.any_eq_true, find_isSome_iff, queryTermsSpec,
    decide_eq_true_eq]
  constructor
  · rintro ⟨sp, ⟨hsp, term, ⟨t, ⟨ht, hlen⟩, rfl⟩, hinf⟩, rfl⟩
    exact ⟨⟨sp, hsp, rfl⟩, t, ht, hlen, hinf⟩
  · rintro ⟨⟨sp, hsp, rfl⟩, t, ht, hlen, hinf⟩
    exact ⟨sp, ⟨hsp, toLower t, ⟨t, ⟨ht, hlen⟩, rfl⟩, hinf⟩, rfl⟩

theorem findRelevantSymbols_spec_witness :
    (sampleManager.symbols_.map Prod.fst).Nodup
    ∧ ((∀ s : Str, s ∈ findRelevantSymbols sampleManager "explain Foobar now".toList ↔
          s ∈ sampleManager.symbols_.map Prod.fst
          ∧ ∃ t ∈ "explain Foobar now".toList.splitOnP isSpace,
              3 < t.length ∧ toLower t <:+: toLower s)
      ∧ (∀ s ∈ findRelevantSymbols sampleManager "explain Foobar now".toList,
          (findRelevantSymbols sampleManager "explain Foobar now".toList).countP
            (fun x => decide (x = s)) = 1)) :=
  ⟨by decide, findRelevantSymbols_spec sampleManager "explain Foobar now".toList (by decide)⟩

/-! ## Classification -/

theorem symbolLoop_nil (cm : ContextManager) (maxFiles : Nat) (relevantFiles : List Str) :
    symbolLoop cm maxFiles [] relevantFiles = relevantFiles := rfl

/-- The file loop leaves the result alone when no file name contains a term. -/
theorem fileLoop_of_no_match (fileName : Str → Str) (terms : List Str) (maxFiles : Nat)
    (files : List (Str × Str)) (relevantFiles : List Str)
    (hno : ∀ fp ∈ files, ∀ term ∈ terms, ¬ term <:+: toLower (fileName fp.1)) :
    fileLoop fileName terms maxFiles files relevantFiles = relevantFiles := by
  induction files with
  | nil => rfl
  | cons fp rest ih =>
    have ih2 := ih (fun fp2 h2 => hno fp2 (List.mem_cons_of_mem _ h2))
    have hany : terms.any (fun term => (find (toLower (fileName fp.1)) term).isSome) = false := by
      rw [List.any_eq_false]
      intro term hterm
      rw [find_isSome_iff]
      exact hno fp (List.mem_cons_self _ _) term hterm
    rw [fileLoop]
    by_cases hmem : fp.1 ∈ relevantFiles
    · rw [if_pos hmem, ih2]
    · rw [if_neg hmem]
      simp only [hany, Bool.false_eq_true, if_false]
      split
      · rfl
      · exact ih2

theorem weather_terms :
    queryTerms "what is the weather today".toList
      = ["what".toList, "weather".toList, "today".toList] := by
  decide

/-- C8, as amended: `isCodebaseQuery(q)` is true if and only if the lowercased
`q` contains one of the 18 code keywords as a substring or
`getRelevantFiles(q, 1)` is non-empty; "please refactor this loop" is
codebase-related for every index; and "what is the weather today" is general
whenever no indexed symbol name and no file base name, converted to lower
case, contains "what", "weather" or "today". -/
theorem isCodebaseQuery_spec (fileName : Str → Str) (codeTemplate generalTemplate : Str)
    (cm : ContextManager) :
    (∀ q : Str,
      isCodebaseQuery fileName (QueryProcessor.mk0 codeTemplate generalTemplate) cm q = true ↔
        (∃ kw ∈ ["code", "function", "class", "method", "variable", "implement",
            "debug", "bug", "error", "refactor", "optimize", "documentation",
            "api", "module", "library", "interface", "test", "unit test"].map String.toList,
          kw <:+: toLower q)
        ∨ getRelevantFiles fileName cm q 1 ≠ [])
    ∧ isCodebaseQuery fileName (QueryProcessor.mk0 codeTemplate generalTemplate) cm
        "please refactor this loop".toList = true
    ∧ ((∀ sp ∈ cm.symbols_, ∀ term ∈ ["what".toList, "weather".toList, "today".toList],
          ¬ term <:+: toLower sp.1) →
       (∀ fp ∈ cm.files_, ∀ term ∈ ["what".toList, "weather".toList, "today".toList],
          ¬ term <:+: toLower (fileName fp.1)) →
       isCodebaseQuery fileName (QueryProcessor.mk0 codeTemplate generalTemplate) cm
        "what is the weather today".toList = false) := by
  have hiff : ∀ q : Str,
      isCodebaseQuery fileName (QueryProcessor.mk0 codeTemplate generalTemplate) cm q = true ↔
        (∃ kw ∈ ["code", "function", "class", "method", "variable", "implement",
            "debug", "bug", "error", "refactor", "optimize", "documentation",
            "api", "module", "library", "interface", "test", "unit test"].map String.toList,
          kw <:+: toLower q)
        ∨ getRelevantFiles fileName cm q 1 ≠ [] := by
    intro q
    have hk : (QueryProcessor.mk0 codeTemplate generalTemplate).codeKeywords_
        = ["code", "function", "class", "method", "variable", "implement",
            "debug", "bug", "error", "refactor", "optimize", "documentation",
            "api", "module", "library", "interface", "test", "unit test"].map String.toList :=
      rfl
    unfold isCodebaseQuery
    rw [hk]
    by_cases hany : (["code", "function", "class", "method", "variable", "implement",
            "debug", "bug", "error", "refactor", "optimize", "documentation",
            "api", "module", "library", "interface", "test", "unit test"].map String.toList).any
          (fun keyword => (find (toLower q) keyword).isSome) = true
    · simp only [hany, if_true, true_iff]
      left
      rw [List.any_eq_true] at hany
      obtain ⟨kw, hkw, hf⟩ := hany
      exact ⟨kw, hkw, (find_isSome_iff _ _).1 hf⟩
    · simp only [hany, Bool.false_eq_true, if_false]
      have hnot : ¬ ∃ kw ∈ ["code", "function", "class", "method", "variable", "implement",
            "debug", "bug", "error", "refactor", "optimize", "documentation",
            "api", "module", "library", "interface", "test", "unit test"].map String.toList,
          kw <:+: toLower q := by
        rintro ⟨kw, hkw, hinf⟩
        apply hany
        rw [List.any_eq_true]
        exact ⟨kw, hkw, (find_isSome_iff _ _).2 hinf⟩
      constructor
      · intro h
        right
        intro hnil
        rw [hnil] at h
        simp at h
      · rintro (h | h)
        · exact absurd h hnot
        · cases hr : getRelevantFiles fileName cm q 1 with
          | nil => exact absurd hr h
          | cons a l => rfl
  refine ⟨hiff, ?_, ?_⟩
  · rw [hiff]
    left
    exact ⟨"refactor".toList, by decide, by decide⟩
  · intro hsym hfile
    have hnk : ¬ ∃ kw ∈ ["code", "function", "class", "method", "variable", "implement",
            "debug", "bug", "error", "refactor", "optimize", "documentation",
            "api", "module", "library", "interface", "test", "unit test"].map String.toList,
          kw <:+: toLower "what is the weather today".toList := by
      decide
    have hrel : findRelevantSymbols cm "what is the weather today".toList = [] := by
      rw [findRelevantSymbols_eq_filter, weather_terms, List.map_eq_nil_iff,
        List.filter_eq_nil_iff]
      intro sp hsp
      rw [Bool.not_eq_true, List.any_eq_false]
      intro term hterm
      rw [find_isSome_iff]
      exact hsym sp hsp term hterm
    have hfiles : getRelevantFiles fileName cm "what is the weather today".toList 1 = [] := by
      unfold getRelevantFiles
      simp only [hrel, symbolLoop_nil]
      have h1 : ([] : List Str).length < toSizeT 1 := by decide
      rw [if_pos h1, weather_terms]
      exact fileLoop_of_no_match fileName _ _ cm.files_ [] hfile
    have := (hiff "what is the weather today".toList).not
    rw [Bool.not_eq_true] at this
    rw [this]
    rintro (h | h)
    · exact hnk h
    · exact h hfiles

set_option maxRecDepth 100000 in
theorem isCodebaseQuery_spec_witness :
    (∀ sp ∈ sampleManager.symbols_,
        ∀ term ∈ ["what".toList, "weather".toList, "today".toList], ¬ term <:+: toLower sp.1)
    ∧ (∀ fp ∈ sampleManager.files_,
        ∀ term ∈ ["what".toList, "weather".toList, "today".toList],
          ¬ term <:+: toLower (pathFileName fp.1))
    ∧ isCodebaseQuery pathFileName defaultProcessor sampleManager
        "what is the weather today".toList = false :=
  ⟨by decide, by decide,
    (isCodebaseQuery_spec pathFileName defaultCodeTemplate defaultGeneralTemplate
      sampleManager).2.2 (by decide) (by decide)⟩

set_option maxRecDepth 100000 in
/-- C8, counterexample to the claim as stated: with the single indexed symbol
`WEATHER_API` (file `src/w.cpp`), no symbol name and no file base name contains
"what", "weather" or "today", and yet "what is the weather today" is
classified as codebase-related, because symbol names are lowercased before
the comparison. -/
theorem isCodebaseQuery_weather_counterexample :
    (∀ sp ∈ weatherManager.symbols_,
        ∀ term ∈ ["what".toList, "weather".toList, "today".toList], ¬ term <:+: sp.1)
    ∧ (∀ fp ∈ weatherManager.files_,
        ∀ term ∈ ["what".toList, "weather".toList, "today".toList],
          ¬ term <:+: pathFileName fp.1)
    ∧ isCodebaseQuery pathFileName defaultProcessor weatherManager
        "what is the weather today".toList = true := by
  decide

/-! ## Context budget -/

/-- Without overflow of the `int` product, the threshold of the budget check
is `maxContextSize * 4`. -/
theorem budget_of_no_overflow (m : Int) (h0 : 0 ≤ m) (h1 : m * 4 ≤ 2147483647) :
    toSizeT (wrapInt32 (m * 4)) = (m * 4).toNat := by
  rw [wrapInt32_of_range (m * 4) (by omega) (by omega)]
  exact toSizeT_of_nonneg (m * 4) (by omega) (by omega)

/-- C1, as amended: for every `maxContextSize ≥ 0` whose product with 4 fits
an `int` (`maxContextSize * 4 ≤ 2147483647`), every state and every query,
the string returned by `buildContext` has at most `maxContextSize * 4`
characters. -/
theorem buildContext_length_le (fileName : Str → Str) (cm : ContextManager) (q : Str)
    (h0 : 0 ≤ cm.maxContextSize_) (h1 : cm.maxContextSize_ * 4 ≤ 2147483647) :
    ((buildContext fileName cm q).length : Int) ≤ cm.maxContextSize_ * 4 := by
  unfold buildContext
  simp only
  rw [budget_of_no_overflow _ h0 h1]
  split
  · simp only [substr0, List.length_take]
    omega
  · omega

theorem buildContext_length_le_witness :
    (0 : Int) ≤ (emptyManager 10 10).maxContextSize_
    ∧ (emptyManager 10 10).maxContextSize_ * 4 ≤ 2147483647
    ∧ ((buildContext pathFileName (emptyManager 10 10) "hello".toList).length : Int)
        ≤ (emptyManager 10 10).maxContextSize_ * 4 :=
  ⟨by decide, by decide,
    buildContext_length_le pathFileName (emptyManager 10 10) "hello".toList
      (by decide) (by decide)⟩

/-- C2, as amended: for every `maxContextSize ≥ 0` whose product with 4 fits
an `int`, if the assembled context is longer than `maxContextSize * 4`
characters then `buildContext` returns exactly its first `maxContextSize * 4`
characters (length exactly `maxContextSize * 4`), and otherwise it returns
the assembled context unchanged. -/
theorem buildContext_truncation (fileName : Str → Str) (cm : ContextManager) (q : Str)
    (h0 : 0 ≤ cm.maxContextSize_) (h1 : cm.maxContextSize_ * 4 ≤ 2147483647) :
    (cm.maxContextSize_ * 4 < ((assembleContext fileName cm q).length : Int) →
        buildContext fileName cm q
            = (assembleContext fileName cm q).take (cm.maxContextSize_ * 4).toNat
        ∧ ((buildContext fileName cm q).length : Int) = cm.maxContextSize_ * 4)
    ∧ (((assembleContext fileName cm q).length : Int) ≤ cm.maxContextSize_ * 4 →
        buildContext fileName cm q = assembleContext fileName cm q) := by
  unfold buildContext
  simp only
  rw [budget_of_no_overflow _ h0 h1]
  constructor
  · intro h
    have hgt : (assembleContext fileName cm q).length > (cm.maxContextSize_ * 4).toNat := by
      omega
    rw [if_pos hgt]
    refine ⟨rfl, ?_⟩
    simp only [substr0, List.length_take]
    omega
  · intro h
    have hle : ¬ (assembleContext fileName cm q).length > (cm.maxContextSize_ * 4).toNat := by
      omega
    rw [if_neg hle]

set_option maxRecDepth 100000 in
theorem buildContext_truncation_witness :
    (0 : Int) ≤ (emptyManager 10 10).maxContextSize_
    ∧ (emptyManager 10 10).maxContextSize_ * 4 ≤ 2147483647
    ∧ buildContext pathFileName (emptyManager 10 10) "hello".toList
        = "### Conversation History ###\n### Current".toList
    ∧ buildContext pathFileName (emptyManager 100 10) "hello".toList
        = assembleContext pathFileName (emptyManager 100 10) "hello".toList :=
  ⟨by decide, by decide,
    ((buildContext_truncation pathFileName (emptyManager 10 10) "hello".toList
      (by decide) (by decide)).1 (by decide)).1,
    (buildContext_truncation pathFileName (emptyManager 100 10) "hello".toList
      (by decide) (by decide)).2 (by decide)⟩

set_option maxRecDepth 100000 in
/-- C2, counterexample to the claim as stated: with `maxContextSize = 2^30`
the `int` product `maxContextSize * 4` wraps to 0, so the assembled context
of the empty query, which is far shorter than `2^32` characters, is cut to
the empty string instead of being returned unchanged. -/
theorem buildContext_truncation_counterexample :
    (0 : Int) ≤ (emptyManager 1073741824 10).maxContextSize_
    ∧ ((assembleContext pathFileName (emptyManager 1073741824 10) []).length : Int)
        ≤ (emptyManager 1073741824 10).maxContextSize_ * 4
    ∧ buildContext pathFileName (emptyManager 1073741824 10) [] = []
    ∧ buildContext pathFileName (emptyManager 1073741824 10) []
        ≠ assembleContext pathFileName (emptyManager 1073741824 10) [] := by
  decide

theorem getRelevantFiles_emptyManager (fileName : Str → Str) (a b : Int) (q : Str) :
    getRelevantFiles fileName (emptyManager a b) q 5 = [] := by
  have h5 : toSizeT 5 = 5 := by decide
  simp [getRelevantFiles, findRelevantSymbols, emptyManager, symbolLoop, fileLoop, h5]

theorem assembleContext_emptyManager (fileName : Str → Str) (a b : Int) (q : Str) :
    assembleContext fileName (emptyManager a b) q
      = "### Conversation History ###\n".toList ++ "### Current Query ###\n".toList ++ q
          ++ "\n\n".toList ++ "### Relevant Code ###\n".toList := by
  unfold assembleContext
  rw [getRelevantFiles_emptyManager]
  have hh : getConversationHistory (emptyManager a b) = [] := rfl
  rw [hh]
  rfl

theorem assembleContext_emptyManager_length (fileName : Str → Str) (a b : Int) (q : Str) :
    (assembleContext fileName (emptyManager a b) q).length = q.length + 75 := by
  rw [assembleContext_emptyManager]
  have h1 : "### Conversation History ###\n".toList.length = 29 := by decide
  have h2 : "### Current Query ###\n".toList.length = 22 := by decide
  have h3 : "\n\n".toList.length = 2 := by decide
  have h4 : "### Relevant Code ###\n".toList.length = 22 := by decide
  rw [List.length_append, List.length_append, List.length_append, List.length_append,
    h1, h2, h3, h4]
  omega

/-- C1, counterexample to the claim as stated: with `maxContextSize = 2^29`
the `int` product `maxContextSize * 4` wraps to `-2^31`, which converts to a
`size_t` threshold of `2^64 - 2^31`; a query of `2^31` characters is then
returned with its whole context, `2^31 + 75 > maxContextSize * 4` characters. -/
theorem buildContext_length_counterexample :
    (0 : Int) ≤ (emptyManager 536870912 10).maxContextSize_
    ∧ ¬ ((buildContext pathFileName (emptyManager 536870912 10)
            (List.replicate 2147483648 'a')).length : Int)
          ≤ (emptyManager 536870912 10).maxContextSize_ * 4 := by
  have hT : toSizeT (wrapInt32 ((emptyManager 536870912 10).maxContextSize_ * 4))
      = 18446744071562067968 := by decide
  have hlen := assembleContext_emptyManager_length pathFileName 536870912 10
    (List.replicate 2147483648 'a')
  rw [List.length_replicate] at hlen
  have hb : buildContext pathFileName (emptyManager 536870912 10)
      (List.replicate 2147483648 'a')
      = assembleContext pathFileName (emptyManager 536870912 10)
          (List.replicate 2147483648 'a') := by
    unfold buildContext
    simp only
    rw [hT, hlen, if_neg (by omega)]
  have hm : (emptyManager 536870912 10).maxContextSize_ = 536870912 := rfl
  refine ⟨by rw [hm]; omega, ?_⟩
  rw [hb, hlen, hm]
  omega

/-! ## Code template -/

/-- An occurrence of a token cannot start inside a prefix that lacks the
token's first character. -/
theorem infix_of_infix_append_left (a : Char) (tok pre rest : Str) (ha : a ∉ pre)
    (h : (a :: tok) <:+: pre ++ rest) : (a :: tok) <:+: rest := by
  induction pre with
  | nil => simpa using h
  | cons c pre ih =>
    rw [List.cons_append, List.infix_cons_iff] at h
    rcases h with h | h
    · have hc : a = c := by
        obtain ⟨t, ht⟩ := h
        simp only [List.cons_append, List.cons.injEq] at ht
        exact ht.1
      exact absurd (hc ▸ List.mem_cons_self a pre) ha
    · exact ih (fun hm => ha (List.mem_cons_of_mem _ hm)) h

/-- An occurrence of a token cannot end inside a suffix that lacks the
token's last character. -/
theorem infix_of_infix_append_right (z : Char) (tok rest suf : Str) (hz : z ∉ suf)
    (h : (tok ++ [z]) <:+: rest ++ suf) : (tok ++ [z]) <:+: rest := by
  rw [← List.reverse_infix] at h ⊢
  rw [List.reverse_append, List.reverse_append] at h
  rw [List.reverse_append]
  exact infix_of_infix_append_left z tok.reverse suf.reverse rest.reverse
    (by simpa using hz) (by simpa using h)

set_option maxRecDepth 100000 in
/-- For a codebase-related query whose context holds no `{query}`, the code
template gets the context and the raw query in its own two placeholders,
followed by the instruction block. -/
theorem processQuery_code_of_clean_context (fileName : Str → Str) (generalTemplate : Str)
    (cm : ContextManager) (q : Str)
    (hcmd : extractCommand (QueryProcessor.mk0 defaultCodeTemplate generalTemplate) q = [])
    (hcode : isCodebaseQuery fileName
      (QueryProcessor.mk0 defaultCodeTemplate generalTemplate) cm q = true)
    (hclean : ¬ "{query}".toList <:+: buildContext fileName cm q) :
    processQuery fileName (QueryProcessor.mk0 defaultCodeTemplate generalTemplate) cm q
      = ("You are CodeLve, an AI assistant for code analysis.\n"
          ++ "Analyze the following code and answer the user's question:\n\n").toList
        ++ buildContext fileName cm q
        ++ "\n\nUser query: ".toList ++ q
        ++ "\nProvide a detailed and accurate response focusing on the code.".toList
        ++ "\n".toList ++ formatInstructions q := by
  have hT : (QueryProcessor.mk0 defaultCodeTemplate generalTemplate).codePromptTemplate_
      = ("You are CodeLve, an AI assistant for code analysis.\n"
          ++ "Analyze the following code and answer the user's question:\n\n").toList
        ++ "{context}".toList
        ++ ("\n\nUser query: ".toList ++ "{query}".toList
          ++ "\nProvide a detailed and accurate response focusing on the code.".toList) := by
    show defaultCodeTemplate = _
    decide
  have h1 := fillPlaceholder_first
    ("You are CodeLve, an AI assistant for code analysis.\n"
          ++ "Analyze the following code and answer the user's question:\n\n").toList
    "{context}".toList
    ("\n\nUser query: ".toList ++ "{query}".toList
          ++ "\nProvide a detailed and accurate response focusing on the code.".toList)
    (buildContext fileName cm q) (by decide)
  have hfirst : ¬ "{query}".toList <:+:
      (("You are CodeLve, an AI assistant for code analysis.\n"
          ++ "Analyze the following code and answer the user's question:\n\n").toList
        ++ buildContext fileName cm q ++ "\n\nUser query: ".toList)
        ++ "{query}".toList.dropLast := by
    intro h
    apply hclean
    have h2 : ("\x7bquery".toList ++ ['}']) <:+:
        (("You are CodeLve, an AI assistant for code analysis.\n"
          ++ "Analyze the following code and answer the user's question:\n\n").toList
          ++ buildContext fileName cm q)
        ++ ("\n\nUser query: ".toList ++ "{query}".toList.dropLast) := by
      simpa [List.append_assoc] using h
    have h3 := infix_of_infix_append_right '}' _ _ _ (by decide) h2
    exact infix_of_infix_append_left '{' "query\x7d".toList _ _ (by decide) h3
  have h2 := fillPlaceholder_first
    (("You are CodeLve, an AI assistant for code analysis.\n"
          ++ "Analyze the following code and answer the user's question:\n\n").toList
        ++ buildContext fileName cm q ++ "\n\nUser query: ".toList)
    "{query}".toList
    "\nProvide a detailed and accurate response focusing on the code.".toList q hfirst
  have hp : processQuery fileName (QueryProcessor.mk0 defaultCodeTemplate generalTemplate) cm q
      = fillPlaceholder
          (fillPlaceholder
            (QueryProcessor.mk0 defaultCodeTemplate generalTemplate).codePromptTemplate_
            "{context}".toList (buildContext fileName cm q))
          "{query}".toList q
        ++ "\n".toList ++ formatInstructions q := by
    simp [processQuery, hcmd, hcode]
  rw [hp, hT, h1]
  simp only [List.append_assoc] at h2 ⊢
  rw [h2]
  simp only [List.append_assoc]

set_option maxRecDepth 100000 in
/-- C5, the code at a failing input: the query `code {query}` is not a
command and is codebase-related, and `processQuery` replaces the `{query}`
that the context carries (the query is copied into it) instead of the
template's own placeholder, which stays in the prompt after "User query: ";
the result differs from the code template filled with `buildContext(q)` and
the raw query and followed by the instruction block. -/
theorem processQuery_placeholder_in_query :
    extractCommand defaultProcessor "code {query}".toList = []
    ∧ isCodebaseQuery pathFileName defaultProcessor (emptyManager 8192 10)
        "code {query}".toList = true
    ∧ processQuery pathFileName defaultProcessor (emptyManager 8192 10) "code {query}".toList
      = ("You are CodeLve, an AI assistant for code analysis.\n"
          ++ "Analyze the following code and answer the user's question:\n\n"
          ++ "### Conversation History ###\n"
          ++ "### Current Query ###\n"
          ++ "code code {query}\n\n"
          ++ "### Relevant Code ###\n"
          ++ "\n\n"
          ++ "User query: {query}\n"
          ++ "Provide a detailed and accurate response focusing on the code."
          ++ "\n"
          ++ "Provide a detailed analysis relevant to the user's query. "
          ++ "Include code examples where appropriate and explain any technical concepts.").toList
    ∧ processQuery pathFileName defaultProcessor (emptyManager 8192 10) "code {query}".toList
      ≠ ("You are CodeLve, an AI assistant for code analysis.\n"
          ++ "Analyze the following code and answer the user's question:\n\n").toList
        ++ buildContext pathFileName (emptyManager 8192 10) "code {query}".toList
        ++ "\n\nUser query: ".toList ++ "code {query}".toList
        ++ "\nProvide a detailed and accurate response focusing on the code.".toList
        ++ "\n".toList ++ formatInstructions "code {query}".toList := by
  decide

/-! ## Relevant files: size and duplicates -/

theorem symbolLoop_length_le (cm : ContextManager) (maxFiles : Nat) (symbols : List Str)
    (relevantFiles : List Str) (h : relevantFiles.length < maxFiles) :
    (symbolLoop cm maxFiles symbols relevantFiles).length ≤ maxFiles := by
  induction symbols generalizing relevantFiles with
  | nil => exact Nat.le_of_lt h
  | cons symbol rest ih =>
    rw [symbolLoop]
    simp only
    split
    · split
      · simp only [List.length_append, List.length_singleton]
        omega
      · rename_i hlt
        exact ih _ (by omega)
    · exact ih _ h

theorem fileLoop_length_le (fileName : Str → Str) (terms : List Str) (maxFiles : Nat)
    (files : List (Str × Str)) (relevantFiles : List Str)
    (h : relevantFiles.length < maxFiles) :
    (fileLoop fileName terms maxFiles files relevantFiles).length ≤ maxFiles := by
  induction files generalizing relevantFiles with
  | nil => exact Nat.le_of_lt h
  | cons filePair rest ih =>
    rw [fileLoop]
    by_cases hmem : filePair.1 ∈ relevantFiles
    · rw [if_pos hmem]
      exact ih _ h
    · rw [if_neg hmem]
      by_cases hany : terms.any (fun term => (find (toLower (fileName filePair.1)) term).isSome)
          = true
      · simp only [hany, if_true]
        by_cases hge : (relevantFiles ++ [filePair.1]).length ≥ maxFiles
        · rw [if_pos hge]
          simp only [List.length_append, List.length_singleton]
          omega
        · rw [if_neg hge]
          exact ih _ (by omega)
      · simp only [hany, Bool.false_eq_true, if_false]
        rw [if_neg (by omega)]
        exact ih _ h

/-- For a limit of at least one file (as a `size_t`), at most that many files
are returned. -/
theorem getRelevantFiles_length_le (fileName : Str → Str) (cm : ContextManager) (q : Str)
    (maxFiles : Int) (h : 1 ≤ toSizeT maxFiles) :
    (getRelevantFiles fileName cm q maxFiles).length ≤ toSizeT maxFiles := by
  unfold getRelevantFiles
  simp only
  split
  · rename_i hlt
    exact fileLoop_length_le _ _ _ _ _ hlt
  · exact symbolLoop_length_le cm _ _ [] (by simpa using h)

set_option maxRecDepth 100000 in
/-- C11, the code at a failing input: with `maxFiles = 0` and one symbol that
matches the query, the first loop appends the symbol's file before it
compares the size with the limit, and one path is returned. -/
theorem getRelevantFiles_zero_limit :
    getRelevantFiles pathFileName parserManager "explain the parser".toList 0
      = ["src/parser.cpp".toList]
    ∧ ¬ (getRelevantFiles pathFileName parserManager "explain the parser".toList 0).length ≤ 0 := by
  decide

theorem symbolLoop_nodup (cm : ContextManager) (maxFiles : Nat) (symbols : List Str)
    (relevantFiles : List Str) (h : relevantFiles.Nodup) :
    (symbolLoop cm maxFiles symbols relevantFiles).Nodup := by
  induction symbols generalizing relevantFiles with
  | nil => exact h
  | cons symbol rest ih =>
    rw [symbolLoop]
    simp only
    split
    · rename_i hnew
      have hnd : (relevantFiles ++ [findFileContainingSymbol cm symbol]).Nodup := by
        rw [List.nodup_append]
        refine ⟨h, List.nodup_singleton _, ?_⟩
        intro a ha hb
        rw [List.mem_singleton] at hb
        subst hb
        exact hnew.2 ha
      split
      · exact hnd
      · exact ih _ hnd
    · exact ih _ h

theorem fileLoop_nodup (fileName : Str → Str) (terms : List Str) (maxFiles : Nat)
    (files : List (Str × Str)) (relevantFiles : List Str) (h : relevantFiles.Nodup) :
    (fileLoop fileName terms maxFiles files relevantFiles).Nodup := by
  induction files generalizing relevantFiles with
  | nil => exact h
  | cons filePair rest ih =>
    rw [fileLoop]
    by_cases hmem : filePair.1 ∈ relevantFiles
    · rw [if_pos hmem]
      exact ih _ h
    · rw [if_neg hmem]
      by_cases hany : terms.any (fun term => (find (toLower (fileName filePair.1)) term).isSome)
          = true
      · simp only [hany, if_true]
        have hnd : (relevantFiles ++ [filePair.1]).Nodup := by
          rw [List.nodup_append]
          refine ⟨h, List.nodup_singleton _, ?_⟩
          intro a ha hb
          rw [List.mem_singleton] at hb
          subst hb
          exact hmem ha
        split
        · exact hnd
        · exact ih _ hnd
      · simp only [hany, Bool.false_eq_true, if_false]
        split
        · exact h
        · exact ih _ h

/-- C12: the list returned by `getRelevantFiles` contains no path twice,
across the symbol-derived phase and the filename-matching phase. -/
theorem getRelevantFiles_nodup (fileName : Str → Str) (cm : ContextManager) (q : Str)
    (maxFiles : Int) : (getRelevantFiles fileName cm q maxFiles).Nodup := by
  unfold getRelevantFiles
  simp only
  have h1 := symbolLoop_nodup cm (toSizeT maxFiles) (findRelevantSymbols cm q) [] List.nodup_nil
  split
  · exact fileLoop_nodup _ _ _ _ _ h1
  · exact h1

/-! ## The context and the state of the manager -/

/-- The text that `buildContext` writes for one relevant file. -/
theorem contextFilesLoop_eq (files : List (Str × Str)) (relevantFiles : List Str)
    (context : Str) :
    contextFilesLoop relevantFiles (context, files)
      = (relevantFiles.foldl
          (fun context filePath =>
            match mapFind files filePath with
            | some content =>
              context ++ "File: ".toList ++ filePath ++ "\n".toList
                ++ "```\n".toList ++ content ++ "\n```\n\n".toList
            | none => context)
          context, files) := by
  induction relevantFiles generalizing context with
  | nil => rfl
  | cons filePath rest ih =>
    rw [contextFilesLoop]
    cases hf : mapFind files filePath with
    | none => simp [hf, ih]
    | some content => simp [hf, ih, mapSubscript]

/-- The call `buildContext` returns the string of the pure model and leaves
the manager as it was: `files_[filePath]` is only reached for a key that
`find` has found. -/
theorem buildContextM_eq (fileName : Str → Str) (cm : ContextManager) (q : Str) :
    buildContextM fileName cm q = (buildContext fileName cm q, cm) := by
  unfold buildContextM buildContext assembleContext
  simp only [contextFilesLoop_eq]

theorem processQueryM_eq (fileName : Str → Str) (qp : QueryProcessor) (cm : ContextManager)
    (r : Str) : processQueryM fileName qp cm r = (processQuery fileName qp cm r, cm) := by
  unfold processQueryM processQuery
  simp only [buildContextM_eq]
  split
  · rfl
  · split <;> rfl

/-- C18: two calls of `buildContext(q)` in succession, the second on the
manager as the first call left it, return identical strings. -/
theorem buildContext_twice (fileName : Str → Str) (cm : ContextManager) (q : Str) :
    (buildContextM fileName (buildContextM fileName cm q).2 q).1
      = (buildContextM fileName cm q).1 := by
  simp only [buildContextM_eq]

/-- C19: `processQuery`, and the `buildContext` call it makes, leave the
files map, the symbols map and the conversation history of the context
manager exactly as they were before the call. -/
theorem processQuery_frame (fileName : Str → Str) (qp : QueryProcessor)
    (cm : ContextManager) (r : Str) :
    ((processQueryM fileName qp cm r).2.files_ = cm.files_
      ∧ (processQueryM fileName qp cm r).2.symbols_ = cm.symbols_
      ∧ (processQueryM fileName qp cm r).2.history_ = cm.history_)
    ∧ ((buildContextM fileName cm r).2.files_ = cm.files_
      ∧ (buildContextM fileName cm r).2.symbols_ = cm.symbols_
      ∧ (buildContextM fileName cm r).2.history_ = cm.history_) := by
  simp only [processQueryM_eq, buildContextM_eq, and_self]

/-! ## Layout of the context -/

theorem foldl_files_eq (files : List (Str × Str)) (relevantFiles : List Str) (context : Str) :
    relevantFiles.foldl
        (fun context filePath =>
          match mapFind files filePath with
          | some content =>
            context ++ "File: ".toList ++ filePath ++ "\n".toList
              ++ "```\n".toList ++ content ++ "\n```\n\n".toList
          | none => context)
        context
      = context ++ (relevantFiles.filter (fun p => (mapFind files p).isSome)).flatMap
          (fun p => "File: ".toList ++ p ++ "\n".toList ++ "```\n".toList
            ++ (match mapFind files p with
                | some content => content
                | none => [])
            ++ "\n```\n\n".toList) := by
  induction relevantFiles generalizing context with
  | nil => simp
  | cons filePath rest ih =>
    rw [List.foldl_cons, ih]
    cases hf : mapFind files filePath with
    | none => simp [hf]
    | some content => simp [hf, List.append_assoc]

/-- The stream of `buildContext`, section by section. -/
theorem assembleContext_eq (fileName : Str → Str) (cm : ContextManager) (q : Str) :
    assembleContext fileName cm q
      = "### Conversation History ###\n".toList
        ++ (if getConversationHistory cm = [] then []
            else getConversationHistory cm ++ "\n\n".toList)
        ++ ("### Current Query ###\n".toList ++ q ++ "\n\n".toList)
        ++ ("### Relevant Code ###\n".toList
          ++ ((getRelevantFiles fileName cm q 5).filter
                (fun p => (mapFind cm.files_ p).isSome)).flatMap
              (fun p => "File: ".toList ++ p ++ "\n".toList ++ "```\n".toList
                ++ getFile cm p ++ "\n```\n\n".toList)) := by
  unfold assembleContext
  simp only [foldl_files_eq]
  have hg : ∀ p, getFile cm p
      = (match mapFind cm.files_ p with
          | some content => content
          | none => []) := fun p => rfl
  simp only [hg]
  by_cases hh : getConversationHistory cm = []
  · simp [hh, List.append_assoc]
  · simp [hh, List.append_assoc]

/-- When the stream fits the budget, `buildContext` returns it whole. -/
theorem buildContext_of_fit (fileName : Str → Str) (cm : ContextManager) (q : Str)
    (hfit : (assembleContext fileName cm q).length
      ≤ toSizeT (wrapInt32 (cm.maxContextSize_ * 4))) :
    buildContext fileName cm q = assembleContext fileName cm q := by
  unfold buildContext
  simp only
  rw [if_neg (by omega)]

/-- C16, as amended: when the output is not truncated, `buildContext(q)`
consists, in this order, of the conversation-history section (its header
line, then the rendered history followed by a blank line when the history is
not empty), the current-query section with `q` verbatim, and the
relevant-code section, which lists, for each path of `getRelevantFiles(q)`
in order that is a key of `files_`, the path followed by the file's full
content fenced as a code block; a path that `files_` does not hold is
skipped. -/
theorem buildContext_layout (fileName : Str → Str) (cm : ContextManager) (q : Str)
    (hfit : (assembleContext fileName cm q).length
      ≤ toSizeT (wrapInt32 (cm.maxContextSize_ * 4))) :
    buildContext fileName cm q
      = "### Conversation History ###\n".toList
        ++ (if getConversationHistory cm = [] then []
            else getConversationHistory cm ++ "\n\n".toList)
        ++ ("### Current Query ###\n".toList ++ q ++ "\n\n".toList)
        ++ ("### Relevant Code ###\n".toList
          ++ ((getRelevantFiles fileName cm q 5).filter
                (fun p => (mapFind cm.files_ p).isSome)).flatMap
              (fun p => "File: ".toList ++ p ++ "\n".toList ++ "```\n".toList
                ++ getFile cm p ++ "\n```\n\n".toList)) := by
  rw [← assembleContext_eq]
  unfold buildContext
  simp only
  rw [if_neg (by omega)]

set_option maxRecDepth 100000 in
theorem buildContext_layout_witness :
    (assembleContext pathFileName parserManager "explain the parser".toList).length
      ≤ toSizeT (wrapInt32 (parserManager.maxContextSize_ * 4))
    ∧ buildContext pathFileName parserManager "explain the parser".toList
      = ("### Conversation History ###\n"
          ++ "### Current Query ###\nexplain the parser\n\n"
          ++ "### Relevant Code ###\n"
          ++ "File: src/parser.cpp\n```\n#define PARSER_MAX 8\n```\n\n").toList :=
  ⟨by decide,
    (buildContext_layout pathFileName parserManager "explain the parser".toList
      (by decide)).trans (by decide)⟩

set_option maxRecDepth 100000 in
/-- C16, counterexample to the claim as stated: the symbol table names
`src/parser.cpp`, which `files_` does not hold; `getRelevantFiles` returns
that path, the output is not truncated, and the relevant-code section does
not list the path. -/
theorem buildContext_layout_counterexample :
    getRelevantFiles pathFileName danglingManager "explain the parser".toList 5
      = ["src/parser.cpp".toList]
    ∧ (assembleContext pathFileName danglingManager "explain the parser".toList).length
      ≤ toSizeT (wrapInt32 (danglingManager.maxContextSize_ * 4))
    ∧ buildContext pathFileName danglingManager "explain the parser".toList
      = ("### Conversation History ###\n"
          ++ "### Current Query ###\nexplain the parser\n\n"
          ++ "### Relevant Code ###\n").toList
    ∧ ¬ "src/parser.cpp".toList
        <:+: buildContext pathFileName danglingManager "explain the parser".toList := by
  decide

/-- C17, as amended: when the conversation history is empty and the output is
not truncated, the string returned by `buildContext(q)` begins with the
header line of the conversation-history section, with no history text, and
the current-query section follows that header directly. -/
theorem buildContext_empty_history (fileName : Str → Str) (cm : ContextManager) (q : Str)
    (hempty : cm.history_ = [])
    (hfit : (assembleContext fileName cm q).length
      ≤ toSizeT (wrapInt32 (cm.maxContextSize_ * 4))) :
    ("### Conversation History ###\n".toList
      ++ ("### Current Query ###\n".toList ++ q ++ "\n\n".toList))
      <+: buildContext fileName cm q := by
  rw [buildContext_of_fit fileName cm q hfit, assembleContext_eq]
  have hh : getConversationHistory cm = [] := by
    rw [getConversationHistory_eq, hempty]
    rfl
  rw [if_pos hh, List.append_nil]
  exact List.prefix_append _ _

set_option maxRecDepth 100000 in
theorem buildContext_empty_history_witness :
    (emptyManager 8192 10).history_ = []
    ∧ (assembleContext pathFileName (emptyManager 8192 10) "hi".toList).length
      ≤ toSizeT (wrapInt32 ((emptyManager 8192 10).maxContextSize_ * 4))
    ∧ ("### Conversation History ###\n".toList
        ++ ("### Current Query ###\n".toList ++ "hi".toList ++ "\n\n".toList))
        <+: buildContext pathFileName (emptyManager 8192 10) "hi".toList :=
  ⟨rfl, by decide,
    buildContext_empty_history pathFileName (emptyManager 8192 10) "hi".toList rfl
      (by decide)⟩

set_option maxRecDepth 100000 in
/-- C17, counterexample to the claim as stated: with an empty history the
returned string still begins with the header of the conversation-history
section, not with the current-query section. -/
theorem buildContext_empty_history_counterexample :
    (emptyManager 8192 10).history_ = []
    ∧ buildContext pathFileName (emptyManager 8192 10) "hi".toList
      = ("### Conversation History ###\n"
          ++ "### Current Query ###\nhi\n\n"
          ++ "### Relevant Code ###\n").toList
    ∧ ¬ "### Current Query ###".toList
        <+: buildContext pathFileName (emptyManager 8192 10) "hi".toList := by
  decide

/-! ## Lines of a file -/

theorem linesSpec_nil : linesSpec [] = [] := by
  simp [linesSpec]

theorem getLast?_cons_of_ne_nil {α : Type} (a : α) (l : List α) (h : l ≠ []) :
    (a :: l).getLast? = l.getLast? := by
  cases l with
  | nil => exact absurd rfl h
  | cons b l => rfl

theorem dropLast_cons_of_ne_nil {α : Type} (a : α) (l : List α) (h : l ≠ []) :
    (a :: l).dropLast = a :: l.dropLast := by
  cases l with
  | nil => exact absurd rfl h
  | cons b l => rfl

/-- The spec lines obey the recursion of the `getline` loop. -/
theorem linesSpec_step (s : Str) (hs : s ≠ []) :
    linesSpec s = s.takeWhile (fun c => c != '\n')
      :: linesSpec ((s.dropWhile (fun c => c != '\n')).drop 1) := by
  have hsplit := splitOnP_eq_takeWhile_cons (fun c => c == '\n') s
  have hfun : (fun c : Char => !(c == '\n')) = (fun c => c != '\n') := rfl
  rw [hfun] at hsplit
  cases hd : s.dropWhile (fun c => c != '\n') with
  | nil =>
    rw [hd] at hsplit
    simp only at hsplit
    have htw : s.takeWhile (fun c => c != '\n') = s := by
      have := List.takeWhile_append_dropWhile (fun c => c != '\n') s
      rw [hd, List.append_nil] at this
      exact this
    rw [htw] at hsplit ⊢
    have : linesSpec s = [s] := by
      unfold linesSpec
      rw [hsplit]
      simp [hs]
    rw [this]
    simp [linesSpec_nil]
  | cons nl r =>
    rw [hd] at hsplit
    simp only at hsplit
    have hne := List.splitOnP_ne_nil (fun c => c == '\n') r
    simp only [List.drop_succ_cons, List.drop_zero]
    unfold linesSpec
    rw [hsplit, getLast?_cons_of_ne_nil _ _ hne, dropLast_cons_of_ne_nil _ _ hne]
    split <;> rfl

theorem length_getline_rest_lt (s : Str) (hs : s ≠ []) :
    ((s.dropWhile (fun c => c != '\n')).drop 1).length < s.length := by
  have hle := (List.dropWhile_sublist (fun c => c != '\n') (l := s)).length_le
  have hpos := List.length_pos.2 hs
  simp only [List.length_drop]
  omega

/-- With enough fuel the `getline` loop yields the spec lines. -/
theorem readLines_eq_spec (fuel : Nat) (s : Str) (h : s.length < fuel) :
    readLines fuel s = linesSpec s := by
  induction fuel generalizing s with
  | zero => omega
  | succ fuel ih =>
    rw [readLines, getline]
    by_cases hs : s = []
    · rw [if_pos hs, hs, linesSpec_nil]
    · rw [if_neg hs]
      simp only
      have hlt := length_getline_rest_lt s hs
      rw [ih _ (by omega), linesSpec_step s hs]

theorem splitLines_eq_spec (fileContent : Str) : splitLines fileContent = linesSpec fileContent :=
  readLines_eq_spec _ _ (Nat.lt_succ_self _)

/-! ## Code snippets -/

theorem toInt32_of_le (n : Nat) (h : n ≤ 2147483647) : toInt32 n = (n : Int) := by
  unfold toInt32
  exact wrapInt32_of_range _ (by omega) (by omega)

/-- The loop over indices inside the vector appends the lines from `i` to
`endLine`, each followed by a newline. -/
theorem snippetLoop_range (lines : List Str) (endLine : Int)
    (hend : endLine < (lines.length : Int)) (hn : lines.length ≤ 2147483647)
    (k fuel : Nat) (i : Int) (snippet : Str)
    (hk : i + (k : Int) = endLine + 1) (hfuel : k < fuel) (hi : 0 ≤ i) :
    snippetLoop lines endLine fuel i snippet
      = .value (snippet
          ++ ((lines.drop i.toNat).take k).flatMap (fun line => line ++ "\n".toList)) := by
  induction k generalizing fuel i snippet with
  | zero =>
    cases fuel with
    | zero => omega
    | succ fuel =>
      rw [snippetLoop, if_neg (by omega)]
      simp
  | succ k ih =>
    cases fuel with
    | zero => omega
    | succ fuel =>
      have hlt : i.toNat < lines.length := by omega
      have hsz : toSizeT i = i.toNat := toSizeT_of_nonneg i hi (by omega)
      have hw : wrapInt32 (i + 1) = i + 1 := wrapInt32_of_range _ (by omega) (by omega)
      rw [snippetLoop, if_pos (by omega), hsz, List.getElem?_eq_getElem hlt]
      simp only
      rw [hw, ih fuel (i + 1) _ (by omega) (by omega) (by omega)]
      have hnat : (i + 1).toNat = i.toNat + 1 := by omega
      rw [hnat, List.drop_eq_getElem_cons hlt, List.take_succ_cons, List.flatMap_cons]
      simp only [List.append_assoc]

/-- C20, as amended: for an indexed file with `n` lines, `1 ≤ n ≤ 2147483647`,
and `0 ≤ a ≤ b < n`, `formatCodeSnippet(path, a, b)` returns exactly the
lines `a..b`, each of them followed by a newline character (the last one
too). -/
theorem formatCodeSnippet_range (cm : ContextManager) (path : Str) (a b : Int)
    (hn1 : 1 ≤ (splitLines (getFile cm path)).length)
    (hn : (splitLines (getFile cm path)).length ≤ 2147483647)
    (ha : 0 ≤ a) (hab : a ≤ b) (hb : b < ((splitLines (getFile cm path)).length : Int)) :
    formatCodeSnippet cm path a b
      = .value ((((splitLines (getFile cm path)).drop a.toNat).take (b - a + 1).toNat).flatMap
          (fun line => line ++ "\n".toList)) := by
  have hne : getFile cm path ≠ [] := by
    intro h
    rw [h] at hn1
    simp [splitLines, readLines, getline] at hn1
  unfold formatCodeSnippet
  simp only
  rw [if_neg hne, toInt32_of_le _ hn, if_neg (by omega), if_neg (by omega), if_neg (by omega)]
  rw [snippetLoop_range _ b hb hn (b - a + 1).toNat _ a [] (by omega) (by omega) ha]
  simp

set_option maxRecDepth 100000 in
theorem formatCodeSnippet_range_witness :
    1 ≤ (splitLines (getFile linesManager "src/m.py".toList)).length
    ∧ (splitLines (getFile linesManager "src/m.py".toList)).length ≤ 2147483647
    ∧ (0 : Int) ≤ 1 ∧ (1 : Int) ≤ 2
    ∧ (2 : Int) < ((splitLines (getFile linesManager "src/m.py".toList)).length : Int)
    ∧ formatCodeSnippet linesManager "src/m.py".toList 1 2
      = .value ((((splitLines (getFile linesManager "src/m.py".toList)).drop
            (1 : Int).toNat).take ((2 : Int) - 1 + 1).toNat).flatMap
          (fun line => line ++ "\n".toList)) :=
  ⟨by decide, by decide, by decide, by decide, by decide,
    formatCodeSnippet_range linesManager "src/m.py".toList 1 2
      (by decide) (by decide) (by decide) (by decide) (by decide)⟩

set_option maxRecDepth 100000 in
/-- C20, counterexample to the claim as stated: for the file
`import os`, `x = 1`, `y = 2` and the range 0..1 the function returns
`import os\nx = 1\n`, which is not the two lines joined by one newline
between them: a newline follows the last line as well. -/
theorem formatCodeSnippet_range_counterexample :
    splitLines (getFile linesManager "src/m.py".toList)
      = ["import os".toList, "x = 1".toList, "y = 2".toList]
    ∧ formatCodeSnippet linesManager "src/m.py".toList 0 1
      = .value "import os\nx = 1\n".toList
    ∧ formatCodeSnippet linesManager "src/m.py".toList 0 1
      ≠ .value (List.intercalate "\n".toList ["import os".toList, "x = 1".toList]) := by
  decide

/-! ## Scanner: the symbols map -/

theorem foldl_symbols_eq {α : Type} (g : IndexedCode → α → IndexedCode)
    (hg : ∀ ic a, (g ic a).symbols = ic.symbols) (l : List α) (ic : IndexedCode) :
    (l.foldl g ic).symbols = ic.symbols := by
  induction l generalizing ic with
  | nil => rfl
  | cons a l ih => rw [List.foldl_cons, ih, hg]

theorem pushDetail_symbols (ic : IndexedCode) (symbol : SymbolInfo) :
    (pushDetail ic symbol).symbols = ic.symbols := rfl

/-- The C and C++ parser does not touch the map `symbols`. -/
theorem parseCppFile_symbols (rx : RegexSearch) (filePath content : Str) (ic : IndexedCode) :
    (parseCppFile rx filePath content ic).symbols = ic.symbols := by
  unfold parseCppFile
  simp only
  rw [foldl_symbols_eq, foldl_symbols_eq, foldl_symbols_eq]
  · intro ic m; rfl
  · intro ic m; rfl
  · intro ic m
    dsimp only
    split <;> rfl

/-- The Python parser does not touch the map `symbols`. -/
theorem parsePythonFile_symbols (rx : RegexSearch) (filePath content : Str)
    (ic : IndexedCode) : (parsePythonFile rx filePath content ic).symbols = ic.symbols := by
  unfold parsePythonFile
  simp only
  rw [foldl_symbols_eq, foldl_symbols_eq, foldl_symbols_eq]
  · intro ic m; rfl
  · intro ic m; rfl
  · intro ic m; rfl

/-- The JavaScript parser does not touch the map `symbols`. -/
theorem parseJavaScriptFile_symbols (rx : RegexSearch) (filePath content : Str)
    (ic : IndexedCode) : (parseJavaScriptFile rx filePath content ic).symbols = ic.symbols := by
  unfold parseJavaScriptFile
  simp only
  rw [foldl_symbols_eq, foldl_symbols_eq, foldl_symbols_eq, foldl_symbols_eq]
  · intro ic m; rfl
  · intro ic m; rfl
  · intro ic m
    dsimp only
    split <;> rfl
  · intro ic m
    dsimp only
    split <;> rfl

theorem mapFind_isNone_iff (m : List (Str × List Str)) (key : Str) :
    (mapFind m key).isNone = true ↔ ∀ kv ∈ m, kv.1 ≠ key := by
  induction m with
  | nil => simp [mapFind]
  | cons kv rest ih =>
    by_cases hk : kv.1 = key
    · simp [mapFind, List.find?_cons, hk]
    · simp [mapFind, List.find?_cons, hk]

theorem mapModify_forall (P : List Str → Prop) (m : List (Str × List Str)) (key : Str)
    (f : List Str → List Str) (hm : ∀ kv ∈ m, P kv.2) (hf : ∀ v, P v → P (f v)) :
    ∀ kv ∈ mapModify m key f, P kv.2 := by
  induction m with
  | nil => simp [mapModify]
  | cons kv rest ih =>
    have hkv := hm kv (List.mem_cons_self _ _)
    have hrest : ∀ kv2 ∈ rest, P kv2.2 := fun kv2 h2 => hm kv2 (List.mem_cons_of_mem _ h2)
    rw [mapModify]
    split
    · intro kv2 h2
      rcases List.mem_cons.1 h2 with h | h
      · rw [h]
        exact hf _ hkv
      · exact hrest kv2 h
    · intro kv2 h2
      rcases List.mem_cons.1 h2 with h | h
      · rw [h]
        exact hkv
      · exact ih hrest kv2 h

theorem mapModify_append_absent (m : List (Str × List Str)) (key : Str) (v : List Str)
    (f : List Str → List Str) (h : ∀ kv ∈ m, kv.1 ≠ key) :
    mapModify (m ++ [(key, v)]) key f = m ++ [(key, f v)] := by
  induction m with
  | nil => simp [mapModify]
  | cons kv rest ih =>
    have hkv : ¬ (kv.1 == key) = true := by
      simpa using h kv (List.mem_cons_self _ _)
    rw [List.cons_append, mapModify, if_neg hkv,
      ih (fun kv2 h2 => h kv2 (List.mem_cons_of_mem _ h2))]
    rfl

/-- One registration keeps every file list of the map non-empty and free of
duplicates. -/
theorem registerSymbol_ok (m : List (Str × List Str)) (name filePath : Str)
    (hm : ∀ kv ∈ m, kv.2 ≠ [] ∧ kv.2.Nodup) :
    ∀ kv ∈ registerSymbol m name filePath, kv.2 ≠ [] ∧ kv.2.Nodup := by
  have hf : ∀ v : List Str, (v ≠ [] ∧ v.Nodup) →
      ((if filePath ∈ v then v else v ++ [filePath]) ≠ []
        ∧ (if filePath ∈ v then v else v ++ [filePath]).Nodup) := by
    intro v hv
    split
    · exact hv
    · rename_i hnot
      refine ⟨by simp, ?_⟩
      rw [List.nodup_append]
      refine ⟨hv.2, List.nodup_singleton _, ?_⟩
      intro a ha hb
      rw [List.mem_singleton] at hb
      subst hb
      exact hnot ha
  unfold registerSymbol
  simp only
  by_cases habs : (mapFind m name).isNone = true
  · rw [if_pos habs, mapModify_append_absent m name [] _ ((mapFind_isNone_iff m name).1 habs)]
    intro kv hkv
    rcases List.mem_append.1 hkv with h | h
    · exact hm kv h
    · rw [List.mem_singleton] at h
      rw [h]
      simp
  · rw [if_neg habs]
    exact mapModify_forall (fun v => v ≠ [] ∧ v.Nodup) m name _ hm hf

theorem parseFile_symbols_ok (extension : Str → Str) (rx : RegexSearch)
    (filePath content : Str) (ic : IndexedCode)
    (hm : ∀ kv ∈ ic.symbols, kv.2 ≠ [] ∧ kv.2.Nodup) :
    ∀ kv ∈ (parseFile extension rx filePath content ic).symbols, kv.2 ≠ [] ∧ kv.2.Nodup := by
  unfold parseFile
  simp only
  have hdispatch : ∀ ic1 : IndexedCode, ic1.symbols = ic.symbols →
      ∀ symbols : List SymbolInfo, ∀ kv ∈ (symbols.foldl
        (fun ic symbol =>
          { ic with
            symbols := registerSymbol ic.symbols symbol.name filePath
            symbolDetails := ic.symbolDetails ++ [symbol] })
        ic1).symbols, kv.2 ≠ [] ∧ kv.2.Nodup := by
    intro ic1 h1 symbols
    have hm1 : ∀ kv ∈ ic1.symbols, kv.2 ≠ [] ∧ kv.2.Nodup := by rw [h1]; exact hm
    clear h1
    induction symbols generalizing ic1 with
    | nil => exact hm1
    | cons symbol rest ih =>
      rw [List.foldl_cons]
      exact ih _ (registerSymbol_ok ic1.symbols symbol.name filePath hm1)
  apply hdispatch
  split
  · exact parseCppFile_symbols _ _ _ _
  · split
    · exact parsePythonFile_symbols _ _ _ _
    · split
      · exact parseJavaScriptFile_symbols _ _ _ _
      · rfl

/-- C15: starting from an empty `IndexedCode`, after any sequence of
`parseFile` calls every key of the map `symbols` has a non-empty list of
file paths, and no path occurs twice in any one symbol's list. -/
theorem parseFile_symbols_invariant (extension : Str → Str) (rx : RegexSearch)
    (calls : List (Str × Str)) :
    ∀ kv ∈ (calls.foldl (fun ic call => parseFile extension rx call.1 call.2 ic)
        emptyIndex).symbols,
      kv.2 ≠ [] ∧ kv.2.Nodup := by
  have h : ∀ (ic : IndexedCode), (∀ kv ∈ ic.symbols, kv.2 ≠ [] ∧ kv.2.Nodup) →
      ∀ kv ∈ (calls.foldl (fun ic call => parseFile extension rx call.1 call.2 ic)
        ic).symbols, kv.2 ≠ [] ∧ kv.2.Nodup := by
    induction calls with
    | nil => intro ic hic; exact hic
    | cons call rest ih =>
      intro ic hic
      rw [List.foldl_cons]
      exact ih _ (parseFile_symbols_ok extension rx call.1 call.2 ic hic)
  exact h emptyIndex (by simp [emptyIndex])

set_option maxRecDepth 100000 in
theorem parseFile_symbols_invariant_witness :
    ("MAX_SIZE".toList, ["proj/c.h".toList, "inc/c.h".toList])
      ∈ ([("proj/c.h".toList, cHContent), ("inc/c.h".toList, cHContent),
          ("proj/c.h".toList, cHContent)].foldl
          (fun ic call => parseFile pathExtension sampleRegex call.1 call.2 ic)
          emptyIndex).symbols
    ∧ (["proj/c.h".toList, "inc/c.h".toList] ≠ []
      ∧ ["proj/c.h".toList, "inc/c.h".toList].Nodup) :=
  ⟨by decide,
    parseFile_symbols_invariant pathExtension sampleRegex
      [("proj/c.h".toList, cHContent), ("inc/c.h".toList, cHContent),
        ("proj/c.h".toList, cHContent)]
      ("MAX_SIZE".toList, ["proj/c.h".toList, "inc/c.h".toList]) (by decide)⟩

set_option maxRecDepth 100000 in
/-- C14, the code at a failing input: for the file `proj/a.py` with the
content `def foo():`, `parseFile` appends the record of the function `foo`
to `symbolDetails`, and the map `symbols` stays empty: it has no entry for
`foo`, so the path is not in `symbols["foo"]`. -/
theorem parseFile_python_function_unregistered :
    (parseFile pathExtension sampleRegex "proj/a.py".toList aPyContent emptyIndex).symbolDetails
      = [mkSymbol "foo".toList "function" "proj/a.py".toList "def foo():".toList]
    ∧ (parseFile pathExtension sampleRegex "proj/a.py".toList aPyContent emptyIndex).symbols = []
    ∧ mapFind (parseFile pathExtension sampleRegex "proj/a.py".toList aPyContent
        emptyIndex).symbols "foo".toList = none := by
  decide

theorem mapFind_cons (kv : Str × List Str) (rest : List (Str × List Str)) (k : Str) :
    mapFind (kv :: rest) k = if kv.1 = k then some kv.2 else mapFind rest k := by
  by_cases h : kv.1 = k
  · simp [mapFind, List.find?_cons, h]
  · simp [mapFind, List.find?_cons, h]

theorem mapFind_mapModify (m : List (Str × List Str)) (key k : Str)
    (f : List Str → List Str) :
    mapFind (mapModify m key f) k
      = if k = key then (mapFind m key).map f else mapFind m k := by
  induction m with
  | nil => simp [mapModify, mapFind]
  | cons kv rest ih =>
    rw [mapModify]
    by_cases h1 : kv.1 = key
    · have h1b : (kv.1 == key) = true := by simpa using h1
      rw [if_pos h1b, mapFind_cons, mapFind_cons, mapFind_cons]
      by_cases h2 : k = key
      · simp [h1, h2]
      · have h3 : ¬ kv.1 = k := fun h => h2 (h ▸ h1)
        simp [h2, h3]
    · have h1b : ¬ (kv.1 == key) = true := by simpa using h1
      rw [if_neg h1b, mapFind_cons, ih, mapFind_cons, mapFind_cons]
      by_cases h2 : k = key
      · have h3 : ¬ kv.1 = k := fun h => h1 (h.trans h2)
        simp [h1, h2, h3]
      · simp [h2]

theorem mapFind_append_singleton (m : List (Str × List Str)) (key k : Str) (v : List Str)
    (habs : ∀ kv ∈ m, kv.1 ≠ key) :
    mapFind (m ++ [(key, v)]) k = if k = key then some v else mapFind m k := by
  induction m with
  | nil =>
    rw [List.nil_append, mapFind_cons]
    by_cases h : k = key
    · simp [h]
    · have h2 : ¬ key = k := fun e => h e.symm
      simp [h, h2, mapFind]
  | cons kv rest ih =>
    have hkv : kv.1 ≠ key := habs kv (List.mem_cons_self _ _)
    rw [List.cons_append, mapFind_cons, mapFind_cons,
      ih (fun kv2 h2 => habs kv2 (List.mem_cons_of_mem _ h2))]
    by_cases h : k = key
    · have h3 : ¬ kv.1 = k := fun e => hkv (e.trans h)
      simp [h, h3]
      intro e
      exact absurd e hkv
    · simp [h]

/-- The map after one registration: the list of the registered name holds
the path, and the other names keep their lists. -/
theorem mapFind_registerSymbol (m : List (Str × List Str)) (name filePath k : Str) :
    mapFind (registerSymbol m name filePath) k
      = if k = name then
          some (if filePath ∈ (mapFind m name).getD [] then (mapFind m name).getD []
            else (mapFind m name).getD [] ++ [filePath])
        else mapFind m k := by
  unfold registerSymbol
  simp only
  by_cases habs : (mapFind m name).isNone = true
  · have hnone : mapFind m name = none := by
      cases hf : mapFind m name with
      | none => rfl
      | some v => rw [hf] at habs; cases habs
    rw [if_pos habs, mapModify_append_absent m name [] _ ((mapFind_isNone_iff m name).1 habs),
      mapFind_append_singleton m name k _ ((mapFind_isNone_iff m name).1 habs), hnone]
    rfl
  · rw [if_neg habs, mapFind_mapModify]
    cases hf : mapFind m name with
    | none => rw [hf] at habs; exact absurd rfl habs
    | some v => rfl

/-- The symbols that `extractSymbols` returns are registered by `parseFile`:
afterwards the path is in the list of each of their names. -/
theorem parseFile_general_symbols_registered (extension : Str → Str) (rx : RegexSearch)
    (filePath content : Str) (ic : IndexedCode) :
    ∀ symbol ∈ extractSymbols rx filePath content,
      ∃ files, mapFind (parseFile extension rx filePath content ic).symbols symbol.name
          = some files ∧ filePath ∈ files := by
  unfold parseFile
  simp only
  generalize (if toLower (extension filePath) = ".cpp".toList
      ∨ toLower (extension filePath) = ".h".toList
      ∨ toLower (extension filePath) = ".hpp".toList
      ∨ toLower (extension filePath) = ".c".toList then
      parseCppFile rx filePath content ic
    else if toLower (extension filePath) = ".py".toList then
      parsePythonFile rx filePath content ic
    else if toLower (extension filePath) = ".js".toList
        ∨ toLower (extension filePath) = ".ts".toList then
      parseJavaScriptFile rx filePath content ic
    else ic) = ic1
  generalize extractSymbols rx filePath content = symbols
  have hkeep : ∀ (l : List SymbolInfo) (ic2 : IndexedCode) (name : Str),
      (∃ files, mapFind ic2.symbols name = some files ∧ filePath ∈ files) →
      ∃ files, mapFind (l.foldl
        (fun ic symbol =>
          { ic with
            symbols := registerSymbol ic.symbols symbol.name filePath
            symbolDetails := ic.symbolDetails ++ [symbol] })
        ic2).symbols name = some files ∧ filePath ∈ files := by
    intro l
    induction l with
    | nil => intro ic2 name h; exact h
    | cons s l ih =>
      intro ic2 name h
      rw [List.foldl_cons]
      apply ih
      obtain ⟨files, hf, hmem⟩ := h
      simp only [mapFind_registerSymbol]
      by_cases hk : name = s.name
      · rw [if_pos hk, ← hk, hf]
        simp only [Option.getD_some]
        rw [if_pos hmem]
        exact ⟨files, rfl, hmem⟩
      · rw [if_neg hk]
        exact ⟨files, hf, hmem⟩
  induction symbols generalizing ic1 with
  | nil => intro symbol h; cases h
  | cons s l ih =>
    intro symbol hsym
    rw [List.foldl_cons]
    rcases List.mem_cons.1 hsym with h | h
    · subst h
      apply hkeep
      simp only [mapFind_registerSymbol, if_true]
      split
      · rename_i hin
        exact ⟨_, rfl, hin⟩
      · exact ⟨_, rfl, by simp⟩
    · exact ih _ symbol h

/-! ## Where a relevant file comes from -/

theorem symbolLoop_mem (cm : ContextManager) (maxFiles : Nat) (symbols : List Str)
    (relevantFiles : List Str) (p : Str)
    (h : p ∈ symbolLoop cm maxFiles symbols relevantFiles) :
    p ∈ relevantFiles ∨ ∃ s ∈ symbols, findFileContainingSymbol cm s = p ∧ p ≠ [] := by
  induction symbols generalizing relevantFiles with
  | nil => exact Or.inl h
  | cons symbol rest ih =>
    rw [symbolLoop] at h
    simp only at h
    have hstep : p ∈ relevantFiles ++ [findFileContainingSymbol cm symbol] →
        findFileContainingSymbol cm symbol ≠ [] →
        p ∈ relevantFiles
          ∨ ∃ s ∈ symbol :: rest, findFileContainingSymbol cm s = p ∧ p ≠ [] := by
      intro hp hne
      rcases List.mem_append.1 hp with h1 | h1
      · exact Or.inl h1
      · rw [List.mem_singleton] at h1
        exact Or.inr ⟨symbol, List.mem_cons_self _ _, h1.symm, h1 ▸ hne⟩
    have hrest : (∃ s ∈ rest, findFileContainingSymbol cm s = p ∧ p ≠ []) →
        ∃ s ∈ symbol :: rest, findFileContainingSymbol cm s = p ∧ p ≠ [] := by
      rintro ⟨s, hs, h2⟩
      exact ⟨s, List.mem_cons_of_mem _ hs, h2⟩
    split at h
    · rename_i hnew
      split at h
      · exact hstep h hnew.1
      · rcases ih _ h with h1 | h1
        · exact hstep h1 hnew.1
        · exact Or.inr (hrest h1)
    · rcases ih _ h with h1 | h1
      · exact Or.inl h1
      · exact Or.inr (hrest h1)

theorem fileLoop_mem (fileName : Str → Str) (terms : List Str) (maxFiles : Nat)
    (files : List (Str × Str)) (relevantFiles : List Str) (p : Str)
    (h : p ∈ fileLoop fileName terms maxFiles files relevantFiles) :
    p ∈ relevantFiles
      ∨ ∃ fp ∈ files, fp.1 = p ∧ ∃ term ∈ terms, term <:+: toLower (fileName p) := by
  induction files generalizing relevantFiles with
  | nil => exact Or.inl h
  | cons filePair rest ih =>
    have hrest : (∃ fp ∈ rest, fp.1 = p ∧ ∃ term ∈ terms, term <:+: toLower (fileName p)) →
        ∃ fp ∈ filePair :: rest, fp.1 = p
          ∧ ∃ term ∈ terms, term <:+: toLower (fileName p) := by
      rintro ⟨fp, hfp, h2⟩
      exact ⟨fp, List.mem_cons_of_mem _ hfp, h2⟩
    rw [fileLoop] at h
    by_cases hmem : filePair.1 ∈ relevantFiles
    · rw [if_pos hmem] at h
      rcases ih _ h with h1 | h1
      · exact Or.inl h1
      · exact Or.inr (hrest h1)
    · rw [if_neg hmem] at h
      by_cases hany : terms.any (fun term => (find (toLower (fileName filePair.1)) term).isSome)
          = true
      · simp only [hany, if_true] at h
        have hstep : p ∈ relevantFiles ++ [filePair.1] →
            p ∈ relevantFiles ∨ ∃ fp ∈ filePair :: rest, fp.1 = p
              ∧ ∃ term ∈ terms, term <:+: toLower (fileName p) := by
          intro hp
          rcases List.mem_append.1 hp with h1 | h1
          · exact Or.inl h1
          · rw [List.mem_singleton] at h1
            rw [List.any_eq_true] at hany
            obtain ⟨term, hterm, hfound⟩ := hany
            rw [find_isSome_iff, ← h1] at hfound
            exact Or.inr ⟨filePair, List.mem_cons_self _ _, h1.symm, term, hterm, hfound⟩
        split at h
        · exact hstep h
        · rcases ih _ h with h1 | h1
          · exact hstep h1
          · exact Or.inr (hrest h1)
      · simp only [hany, Bool.false_eq_true, if_false] at h
        split at h
        · exact Or.inl h
        · rcases ih _ h with h1 | h1
          · exact Or.inl h1
          · exact Or.inr (hrest h1)

theorem findFileContainingSymbol_entry (cm : ContextManager) (s p : Str)
    (h : findFileContainingSymbol cm s = p) (hne : p ≠ []) :
    ∃ sp ∈ cm.symbols_, sp.1 = s ∧ sp.2.head? = some p := by
  unfold findFileContainingSymbol at h
  unfold mapFind at h
  cases hf : cm.symbols_.find? (fun kv => kv.1 == s) with
  | none =>
    rw [hf] at h
    exact absurd h.symm hne
  | some sp =>
    rw [hf] at h
    have hmem := List.mem_of_find?_eq_some hf
    have hkey : sp.1 = s := by simpa using List.find?_some hf
    cases hl : sp.2 with
    | nil =>
      simp only [Option.map_some', hl] at h
      exact absurd h.symm hne
    | cons a l =>
      simp only [Option.map_some', hl] at h
      exact ⟨sp, hmem, hkey, by rw [hl, h]; rfl⟩

/-- A path returned by `getRelevantFiles` is the first file of a symbol whose
lowercased name contains a query term, or the key of an indexed file whose
lowercased base name contains a query term. -/
theorem getRelevantFiles_mem (fileName : Str → Str) (cm : ContextManager) (q : Str)
    (maxFiles : Int) (p : Str) (h : p ∈ getRelevantFiles fileName cm q maxFiles) :
    (∃ sp ∈ cm.symbols_, (∃ term ∈ queryTerms q, term <:+: toLower sp.1)
        ∧ sp.2.head? = some p)
    ∨ (∃ fp ∈ cm.files_, fp.1 = p ∧ ∃ term ∈ queryTerms q, term <:+: toLower (fileName p)) := by
  have hsym : p ∈ symbolLoop cm (toSizeT maxFiles) (findRelevantSymbols cm q) [] →
      ∃ sp ∈ cm.symbols_, (∃ term ∈ queryTerms q, term <:+: toLower sp.1)
        ∧ sp.2.head? = some p := by
    intro hp
    rcases symbolLoop_mem cm _ _ _ p hp with h1 | ⟨s, hs, hfile, hne⟩
    · cases h1
    · obtain ⟨sp, hsp, hkey, hhead⟩ := findFileContainingSymbol_entry cm s p hfile hne
      refine ⟨sp, hsp, ?_, hhead⟩
      rw [findRelevantSymbols_eq_filter] at hs
      simp only [List.mem_map, List.mem_filter, List.any_eq_true, find_isSome_iff] at hs
      obtain ⟨sp2, ⟨_, term, hterm, hinf⟩, hname⟩ := hs
      rw [hkey, ← hname]
      exact ⟨term, hterm, hinf⟩
  unfold getRelevantFiles at h
  simp only at h
  split at h
  · rcases fileLoop_mem _ _ _ _ _ p h with h1 | h1
    · exact Or.inl (hsym h1)
    · exact Or.inr h1
  · exact Or.inl (hsym h)

theorem foo_query_terms :
    queryTerms "explain the foo function".toList = ["explain".toList, "function".toList] := by
  decide

/-- C13, as amended: for the query "explain the foo function" the query terms
are the tokens longer than three characters, "explain" and "function", so
for every index `findRelevantSymbols` does not include "foo", and
`getRelevantFiles` does not include the path of `a.py`, a file whose base
name contains neither term and that no symbol other than `foo` lists
first. -/
theorem foo_query_relevance (fileName : Str → Str) (cm : ContextManager) (maxFiles : Int)
    (aPy : Str)
    (hsym : ∀ sp ∈ cm.symbols_, sp.2.head? = some aPy → sp.1 = "foo".toList)
    (hname : ¬ "explain".toList <:+: toLower (fileName aPy)
      ∧ ¬ "function".toList <:+: toLower (fileName aPy)) :
    queryTerms "explain the foo function".toList = ["explain".toList, "function".toList]
    ∧ "foo".toList ∉ findRelevantSymbols cm "explain the foo function".toList
    ∧ aPy ∉ getRelevantFiles fileName cm "explain the foo function".toList maxFiles := by
  refine ⟨foo_query_terms, ?_, ?_⟩
  · intro h
    rw [findRelevantSymbols_eq_filter, foo_query_terms] at h
    simp only [List.mem_map, List.mem_filter, List.any_eq_true, find_isSome_iff] at h
    obtain ⟨sp, ⟨_, term, hterm, hinf⟩, hkey⟩ := h
    rw [hkey] at hinf
    have : ∀ t ∈ ["explain".toList, "function".toList], ¬ t <:+: toLower "foo".toList := by
      decide
    exact this term hterm hinf
  · intro h
    rcases getRelevantFiles_mem fileName cm _ maxFiles aPy h with
      ⟨sp, hsp, ⟨term, hterm, hinf⟩, hhead⟩ | ⟨fp, _, _, term, hterm, hinf⟩
    · rw [hsym sp hsp hhead, foo_query_terms] at *
      have : ∀ t ∈ ["explain".toList, "function".toList], ¬ t <:+: toLower "foo".toList := by
        decide
      exact this term hterm hinf
    · rw [foo_query_terms] at hterm
      rcases List.mem_cons.1 hterm with h1 | h1
      · exact hname.1 (h1 ▸ hinf)
      · rw [List.mem_singleton] at h1
        exact hname.2 (h1 ▸ hinf)

set_option maxRecDepth 100000 in
theorem foo_query_relevance_witness :
    (∀ sp ∈ scannedManager.symbols_, sp.2.head? = some "proj/a.py".toList → sp.1 = "foo".toList)
    ∧ (¬ "explain".toList <:+: toLower (pathFileName "proj/a.py".toList)
      ∧ ¬ "function".toList <:+: toLower (pathFileName "proj/a.py".toList))
    ∧ (queryTerms "explain the foo function".toList = ["explain".toList, "function".toList]
      ∧ "foo".toList ∉ findRelevantSymbols scannedManager "explain the foo function".toList
      ∧ "proj/a.py".toList
          ∉ getRelevantFiles pathFileName scannedManager "explain the foo function".toList 5) :=
  ⟨by decide, by decide,
    foo_query_relevance pathFileName scannedManager 5 "proj/a.py".toList
      (by decide) (by decide)⟩

set_option maxRecDepth 100000 in
/-- C13, counterexample to the claim as stated: after the scan of a tree with
`a.py` (`def foo():`) and `b.cpp` (unrelated content) and the
initialization of the manager from the result, both files are indexed and
`foo` is among the extracted symbols, and yet for the query "explain the foo
function" `findRelevantSymbols` does not include "foo" and
`getRelevantFiles` does not include the path of `a.py`: both are empty. -/
theorem foo_query_counterexample :
    sampleIndex.files = [("proj/a.py".toList, aPyContent), ("proj/b.cpp".toList, bCppContent)]
    ∧ sampleIndex.symbolDetails
        = [mkSymbol "foo".toList "function" "proj/a.py".toList "def foo():".toList]
    ∧ "foo".toList ∉ findRelevantSymbols scannedManager "explain the foo function".toList
    ∧ "proj/a.py".toList
        ∉ getRelevantFiles pathFileName scannedManager "explain the foo function".toList 5
    ∧ findRelevantSymbols scannedManager "explain the foo function".toList = []
    ∧ getRelevantFiles pathFileName scannedManager "explain the foo function".toList 5 = [] := by
  decide

/-- When every path that the symbol table names is a key of `files_`, as in
every index that `indexFile` builds, no relevant path is skipped: the
relevant-code section lists every path of `getRelevantFiles(q)`. -/
theorem buildContext_layout_of_indexed (fileName : Str → Str) (cm : ContextManager) (q : Str)
    (hidx : ∀ sp ∈ cm.symbols_, ∀ p ∈ sp.2, (mapFind cm.files_ p).isSome = true)
    (hfit : (assembleContext fileName cm q).length
      ≤ toSizeT (wrapInt32 (cm.maxContextSize_ * 4))) :
    buildContext fileName cm q
      = "### Conversation History ###\n".toList
        ++ (if getConversationHistory cm = [] then []
            else getConversationHistory cm ++ "\n\n".toList)
        ++ ("### Current Query ###\n".toList ++ q ++ "\n\n".toList)
        ++ ("### Relevant Code ###\n".toList
          ++ (getRelevantFiles fileName cm q 5).flatMap
              (fun p => "File: ".toList ++ p ++ "\n".toList ++ "```\n".toList
                ++ getFile cm p ++ "\n```\n\n".toList)) := by
  rw [buildContext_of_fit fileName cm q hfit, assembleContext_eq]
  have hall : (getRelevantFiles fileName cm q 5).filter
      (fun p => (mapFind cm.files_ p).isSome) = getRelevantFiles fileName cm q 5 := by
    rw [List.filter_eq_self]
    intro p hp
    rcases getRelevantFiles_mem fileName cm q 5 p hp with
      ⟨sp, hsp, _, hhead⟩ | ⟨fp, hfp, hkey, _⟩
    · apply hidx sp hsp p
      cases hl : sp.2 with
      | nil => rw [hl] at hhead; cases hhead
      | cons a l =>
        rw [hl] at hhead
        simp only [List.head?_cons, Option.some.injEq] at hhead
        rw [hhead]
        exact List.mem_cons_self _ _
    · cases hf : List.find? (fun kv => kv.1 == p) cm.files_ with
      | none =>
        have := List.find?_eq_none.1 hf fp hfp
        simp [hkey] at this
      | some kv => simp [mapFind, hf]
  rw [hall]

/-! ## Scanner: every registered path is an indexed file -/

theorem foldl_index_files_eq {α : Type} (g : IndexedCode → α → IndexedCode)
    (hg : ∀ ic a, (g ic a).files = ic.files) (l : List α) (ic : IndexedCode) :
    (l.foldl g ic).files = ic.files := by
  induction l generalizing ic with
  | nil => rfl
  | cons a l ih => rw [List.foldl_cons, ih, hg]

theorem parseCppFile_files (rx : RegexSearch) (filePath content : Str) (ic : IndexedCode) :
    (parseCppFile rx filePath content ic).files = ic.files := by
  unfold parseCppFile
  simp only
  rw [foldl_index_files_eq, foldl_index_files_eq, foldl_index_files_eq]
  · intro ic m; rfl
  · intro ic m; rfl
  · intro ic m
    dsimp only
    split <;> rfl

theorem parsePythonFile_files (rx : RegexSearch) (filePath content : Str) (ic : IndexedCode) :
    (parsePythonFile rx filePath content ic).files = ic.files := by
  unfold parsePythonFile
  simp only
  rw [foldl_index_files_eq, foldl_index_files_eq, foldl_index_files_eq]
  · intro ic m; rfl
  · intro ic m; rfl
  · intro ic m; rfl

theorem parseJavaScriptFile_files (rx : RegexSearch) (filePath content : Str)
    (ic : IndexedCode) : (parseJavaScriptFile rx filePath content ic).files = ic.files := by
  unfold parseJavaScriptFile
  simp only
  rw [foldl_index_files_eq, foldl_index_files_eq, foldl_index_files_eq, foldl_index_files_eq]
  · intro ic m; rfl
  · intro ic m; rfl
  · intro ic m
    dsimp only
    split <;> rfl
  · intro ic m
    dsimp only
    split <;> rfl

/-- `parseFile` does not touch the map `files`. -/
theorem parseFile_files (extension : Str → Str) (rx : RegexSearch) (filePath content : Str)
    (ic : IndexedCode) : (parseFile extension rx filePath content ic).files = ic.files := by
  unfold parseFile
  simp only
  rw [foldl_index_files_eq]
  · split
    · exact parseCppFile_files _ _ _ _
    · split
      · exact parsePythonFile_files _ _ _ _
      · split
        · exact parseJavaScriptFile_files _ _ _ _
        · rfl
  · intro ic symbol; rfl

theorem filesFind_cons (kv : Str × Str) (rest : List (Str × Str)) (k : Str) :
    mapFind (kv :: rest) k = if kv.1 = k then some kv.2 else mapFind rest k := by
  by_cases h : kv.1 = k
  · simp [mapFind, List.find?_cons, h]
  · simp [mapFind, List.find?_cons, h]

theorem mapAssign_isSome_self (m : List (Str × Str)) (key value : Str) :
    (mapFind (mapAssign m key value) key).isSome = true := by
  induction m with
  | nil => simp [mapAssign, filesFind_cons]
  | cons kv rest ih =>
    rw [mapAssign]
    by_cases h : kv.1 = key
    · have hb : (kv.1 == key) = true := by simpa using h
      rw [if_pos hb, filesFind_cons]
      simp [h]
    · have hb : ¬ (kv.1 == key) = true := by simpa using h
      rw [if_neg hb, filesFind_cons, if_neg h]
      exact ih

theorem mapAssign_isSome_of_isSome (m : List (Str × Str)) (key value k : Str)
    (hk : (mapFind m k).isSome = true) :
    (mapFind (mapAssign m key value) k).isSome = true := by
  induction m with
  | nil => simp [mapFind] at hk
  | cons kv rest ih =>
    rw [filesFind_cons] at hk
    rw [mapAssign]
    by_cases h : kv.1 = key
    · have hb : (kv.1 == key) = true := by simpa using h
      rw [if_pos hb, filesFind_cons]
      by_cases h2 : kv.1 = k
      · simp [h2]
      · rw [if_neg h2] at hk
        simp only [h2, if_false]
        exact hk
    · have hb : ¬ (kv.1 == key) = true := by simpa using h
      rw [if_neg hb, filesFind_cons]
      by_cases h2 : kv.1 = k
      · simp [h2]
      · rw [if_neg h2] at hk
        rw [if_neg h2]
        exact ih hk

/-- One registration adds at most the given path to the lists of the map. -/
theorem registerSymbol_paths (Q : Str → Prop) (m : List (Str × List Str))
    (name filePath : Str) (hm : ∀ kv ∈ m, ∀ p ∈ kv.2, Q p) (hQ : Q filePath) :
    ∀ kv ∈ registerSymbol m name filePath, ∀ p ∈ kv.2, Q p := by
  have hf : ∀ v : List Str, (∀ p ∈ v, Q p) →
      ∀ p ∈ (if filePath ∈ v then v else v ++ [filePath]), Q p := by
    intro v hv p hp
    split at hp
    · exact hv p hp
    · rcases List.mem_append.1 hp with h | h
      · exact hv p h
      · rw [List.mem_singleton] at h
        rw [h]
        exact hQ
  unfold registerSymbol
  simp only
  by_cases habs : (mapFind m name).isNone = true
  · rw [if_pos habs, mapModify_append_absent m name [] _ ((mapFind_isNone_iff m name).1 habs)]
    intro kv hkv
    rcases List.mem_append.1 hkv with h | h
    · exact hm kv h
    · rw [List.mem_singleton] at h
      rw [h]
      exact hf [] (fun p hp => by cases hp)
  · rw [if_neg habs]
    exact mapModify_forall (fun v => ∀ p ∈ v, Q p) m name _ hm hf

/-- Indexing a file keeps every path of the map `symbols` a key of the map
`files`: the content is stored before the file is parsed. -/
theorem indexFile_paths_indexed (extension : Str → Str) (rx : RegexSearch)
    (filePath content : Str) (fileSize : Nat) (ic : IndexedCode)
    (hic : ∀ sp ∈ ic.symbols, ∀ p ∈ sp.2, (mapFind ic.files p).isSome = true) :
    ∀ sp ∈ (indexFile extension rx filePath content fileSize ic).symbols,
      ∀ p ∈ sp.2,
        (mapFind (indexFile extension rx filePath content fileSize ic).files p).isSome
          = true := by
  have hfiles : (indexFile extension rx filePath content fileSize ic).files
      = mapAssign ic.files filePath content := by
    unfold indexFile
    simp only
    rw [parseFile_files]
    split <;> rfl
  rw [hfiles]
  have hgen : ∀ ic2 : IndexedCode, ic2.symbols = ic.symbols →
      ∀ sp ∈ (parseFile extension rx filePath content ic2).symbols, ∀ p ∈ sp.2,
        (mapFind (mapAssign ic.files filePath content) p).isSome = true := by
    intro ic2 h2
    unfold parseFile
    simp only
    have hloop : ∀ (symbols : List SymbolInfo) (ic3 : IndexedCode),
        (∀ sp ∈ ic3.symbols, ∀ p ∈ sp.2,
          (mapFind (mapAssign ic.files filePath content) p).isSome = true) →
        ∀ sp ∈ (symbols.foldl
          (fun ic symbol =>
            { ic with
              symbols := registerSymbol ic.symbols symbol.name filePath
              symbolDetails := ic.symbolDetails ++ [symbol] })
          ic3).symbols, ∀ p ∈ sp.2,
          (mapFind (mapAssign ic.files filePath content) p).isSome = true := by
      intro symbols
      induction symbols with
      | nil => intro ic3 h3; exact h3
      | cons symbol rest ih =>
        intro ic3 h3
        rw [List.foldl_cons]
        exact ih _ (registerSymbol_paths _ ic3.symbols symbol.name filePath h3
          (mapAssign_isSome_self ic.files filePath content))
    apply hloop
    have hstart : ∀ ic3 : IndexedCode, ic3.symbols = ic.symbols →
        ∀ sp ∈ ic3.symbols, ∀ p ∈ sp.2,
          (mapFind (mapAssign ic.files filePath content) p).isSome = true := by
      intro ic3 h3 sp hsp p hp
      rw [h3] at hsp
      exact mapAssign_isSome_of_isSome _ _ _ _ (hic sp hsp p hp)
    apply hstart
    split
    · rw [parseCppFile_symbols, h2]
    · split
      · rw [parsePythonFile_symbols, h2]
      · split
        · rw [parseJavaScriptFile_symbols, h2]
        · exact h2
  have hsyms : (indexFile extension rx filePath content fileSize ic).symbols
      = (parseFile extension rx filePath content
          (if extension filePath ≠ []
              ∧ extension filePath ∉ ic.fileExtensions then
            { ic with
              files := mapAssign ic.files filePath content
              fileExtensions := ic.fileExtensions ++ [extension filePath] }
          else { ic with files := mapAssign ic.files filePath content })).symbols := by
    unfold indexFile
    simp only
  rw [hsyms]
  apply hgen
  split <;> rfl

/-- In every index built by indexing files one after the other, every path
that the map `symbols` names is a key of the map `files`. -/
theorem scan_paths_indexed (extension : Str → Str) (rx : RegexSearch)
    (scanned : List (Str × Str × Nat)) (sp : Str × List Str) (p : Str)
    (hsp : sp ∈ (scanned.foldl
      (fun ic file => indexFile extension rx file.1 file.2.1 file.2.2 ic) emptyIndex).symbols)
    (hp : p ∈ sp.2) :
    (mapFind (scanned.foldl
      (fun ic file => indexFile extension rx file.1 file.2.1 file.2.2 ic) emptyIndex).files
      p).isSome = true := by
  have h : ∀ (ic : IndexedCode),
      (∀ sp ∈ ic.symbols, ∀ p ∈ sp.2, (mapFind ic.files p).isSome = true) →
      ∀ sp ∈ (scanned.foldl
        (fun ic file => indexFile extension rx file.1 file.2.1 file.2.2 ic) ic).symbols,
        ∀ p ∈ sp.2, (mapFind (scanned.foldl
          (fun ic file => indexFile extension rx file.1 file.2.1 file.2.2 ic) ic).files
          p).isSome = true := by
    clear hsp hp
    induction scanned with
    | nil => intro ic hic; exact hic
    | cons file rest ih =>
      intro ic hic
      rw [List.foldl_cons]
      exact ih _ (indexFile_paths_indexed extension rx file.1 file.2.1 file.2.2 ic hic)
  exact h emptyIndex (by simp [emptyIndex]) sp hsp p hp


/-! ## Commands and initialization -/

/-- C27: when `extractCommand(r)` is non-empty, `processQuery(r)` returns
exactly that command, for every context manager and every pair of templates:
no template, context or instruction block enters the result, and the manager
is left as it was. -/
theorem processQuery_command (fileName : Str → Str) (qp : QueryProcessor)
    (cm : ContextManager) (r : Str) (hcmd : extractCommand qp r ≠ []) :
    processQuery fileName qp cm r = extractCommand qp r
    ∧ processQueryM fileName qp cm r = (extractCommand qp r, cm) := by
  have h : processQuery fileName qp cm r = extractCommand qp r := by
    unfold processQuery
    simp only
    rw [if_pos hcmd]
  exact ⟨h, by rw [processQueryM_eq, h]⟩

set_option maxRecDepth 100000 in
theorem processQuery_command_witness :
    extractCommand defaultProcessor "/info now".toList ≠ []
    ∧ processQuery pathFileName defaultProcessor sampleManager "/reset".toList = "/reset".toList
    ∧ processQuery pathFileName defaultProcessor sampleManager "  /help  ".toList
        = "/help".toList
    ∧ processQuery pathFileName defaultProcessor sampleManager "/info now".toList
        = "/info".toList :=
  ⟨by decide,
    (processQuery_command pathFileName defaultProcessor sampleManager "/reset".toList
      (by decide)).1.trans (by decide),
    (processQuery_command pathFileName defaultProcessor sampleManager "  /help  ".toList
      (by decide)).1.trans (by decide),
    (processQuery_command pathFileName defaultProcessor sampleManager "/info now".toList
      (by decide)).1.trans (by decide)⟩

theorem filesFind_of_mem (m : List (Str × Str)) (hkeys : (m.map Prod.fst).Nodup)
    (kv : Str × Str) (hkv : kv ∈ m) : mapFind m kv.1 = some kv.2 := by
  induction m with
  | nil => cases hkv
  | cons a rest ih =>
    rw [filesFind_cons]
    rw [List.map_cons, List.nodup_cons] at hkeys
    rcases List.mem_cons.1 hkv with h | h
    · rw [h, if_pos rfl]
    · have hne : ¬ a.1 = kv.1 := by
        intro e
        apply hkeys.1
        rw [e]
        exact List.mem_map_of_mem Prod.fst h
      rw [if_neg hne]
      exact ih hkeys.2 h

theorem filesFind_of_not_mem (m : List (Str × Str)) (p : Str)
    (hp : p ∉ m.map Prod.fst) : mapFind m p = none := by
  induction m with
  | nil => rfl
  | cons a rest ih =>
    rw [filesFind_cons]
    rw [List.map_cons, List.mem_cons, not_or] at hp
    rw [if_neg (fun e => hp.1 e.symm)]
    exact ih hp.2

/-- C26: `initialize(x)` returns true and leaves the manager with exactly the
files and the symbols of `x`, whatever it held before: `getFile(p)` returns
`x.files[p]` for every key `p` of `x.files` (a map, so its keys are distinct)
and the empty string for every other path, and the conversation history is
unchanged. -/
theorem initFromIndex_spec (cm : ContextManager) (x : IndexedCode)
    (hkeys : (x.files.map Prod.fst).Nodup) :
    (initFromIndex cm x).1 = true
    ∧ (initFromIndex cm x).2.files_ = x.files
    ∧ (initFromIndex cm x).2.symbols_ = x.symbols
    ∧ (∀ kv ∈ x.files, getFile (initFromIndex cm x).2 kv.1 = kv.2)
    ∧ (∀ p, p ∉ x.files.map Prod.fst → getFile (initFromIndex cm x).2 p = [])
    ∧ (initFromIndex cm x).2.history_ = cm.history_ := by
  refine ⟨rfl, rfl, rfl, ?_, ?_, rfl⟩
  · intro kv hkv
    unfold getFile
    have : (initFromIndex cm x).2.files_ = x.files := rfl
    rw [this, filesFind_of_mem x.files hkeys kv hkv]
  · intro p hp
    unfold getFile
    have : (initFromIndex cm x).2.files_ = x.files := rfl
    rw [this, filesFind_of_not_mem x.files p hp]

set_option maxRecDepth 100000 in
theorem initFromIndex_spec_witness :
    (sampleIndex.files.map Prod.fst).Nodup
    ∧ ((initFromIndex sampleManager sampleIndex).1 = true
      ∧ (initFromIndex sampleManager sampleIndex).2.files_ = sampleIndex.files
      ∧ (initFromIndex sampleManager sampleIndex).2.symbols_ = sampleIndex.symbols
      ∧ (∀ kv ∈ sampleIndex.files, getFile (initFromIndex sampleManager sampleIndex).2 kv.1 = kv.2)
      ∧ (∀ p, p ∉ sampleIndex.files.map Prod.fst →
          getFile (initFromIndex sampleManager sampleIndex).2 p = [])
      ∧ (initFromIndex sampleManager sampleIndex).2.history_ = sampleManager.history_) :=
  ⟨by decide, initFromIndex_spec sampleManager sampleIndex (by decide)⟩


/-! ## Relevant files under two limits -/

theorem symbolLoop_extends (cm : ContextManager) (maxFiles : Nat) (symbols : List Str)
    (relevantFiles : List Str) :
    relevantFiles <+: symbolLoop cm maxFiles symbols relevantFiles := by
  induction symbols generalizing relevantFiles with
  | nil => exact List.prefix_refl _
  | cons symbol rest ih =>
    rw [symbolLoop]
    simp only
    split
    · split
      · exact List.prefix_append _ _
      · exact (List.prefix_append _ _).trans (ih _)
    · exact ih _

theorem fileLoop_extends (fileName : Str → Str) (terms : List Str) (maxFiles : Nat)
    (files : List (Str × Str)) (relevantFiles : List Str) :
    relevantFiles <+: fileLoop fileName terms maxFiles files relevantFiles := by
  induction files generalizing relevantFiles with
  | nil => exact List.prefix_refl _
  | cons filePair rest ih =>
    rw [fileLoop]
    by_cases hmem : filePair.1 ∈ relevantFiles
    · rw [if_pos hmem]
      exact ih _
    · rw [if_neg hmem]
      by_cases hany : terms.any (fun term => (find (toLower (fileName filePair.1)) term).isSome)
          = true
      · simp only [hany, if_true]
        split
        · exact List.prefix_append _ _
        · exact (List.prefix_append _ _).trans (ih _)
      · simp only [hany, Bool.false_eq_true, if_false]
        split
        · exact List.prefix_refl _
        · exact ih _

/-- The symbol loop under a smaller limit yields a prefix of what it yields
under a larger one, and the same list when it ends below the smaller limit. -/
theorem symbolLoop_prefix (cm : ContextManager) (m n : Nat) (hmn : m ≤ n)
    (symbols : List Str) (relevantFiles : List Str) (hlt : relevantFiles.length < m) :
    symbolLoop cm m symbols relevantFiles <+: symbolLoop cm n symbols relevantFiles
    ∧ ((symbolLoop cm m symbols relevantFiles).length < m →
        symbolLoop cm m symbols relevantFiles = symbolLoop cm n symbols relevantFiles) := by
  induction symbols generalizing relevantFiles with
  | nil => exact ⟨List.prefix_refl _, fun _ => rfl⟩
  | cons symbol rest ih =>
    rw [symbolLoop, symbolLoop]
    simp only
    split
    · by_cases hm : (relevantFiles ++ [findFileContainingSymbol cm symbol]).length ≥ m
      · rw [if_pos hm]
        constructor
        · split
          · exact List.prefix_refl _
          · exact symbolLoop_extends cm n rest _
        · intro h
          omega
      · rw [if_neg hm, if_neg (by omega)]
        exact ih _ (by omega)
    · exact ih _ hlt

/-- The file loop under a smaller limit yields a prefix of what it yields
under a larger one, and the same list when it ends below the smaller limit. -/
theorem fileLoop_prefix (fileName : Str → Str) (terms : List Str) (m n : Nat) (hmn : m ≤ n)
    (files : List (Str × Str)) (relevantFiles : List Str) (hlt : relevantFiles.length < m) :
    fileLoop fileName terms m files relevantFiles
        <+: fileLoop fileName terms n files relevantFiles
    ∧ ((fileLoop fileName terms m files relevantFiles).length < m →
        fileLoop fileName terms m files relevantFiles
          = fileLoop fileName terms n files relevantFiles) := by
  induction files generalizing relevantFiles with
  | nil => exact ⟨List.prefix_refl _, fun _ => rfl⟩
  | cons filePair rest ih =>
    rw [fileLoop, fileLoop]
    by_cases hmem : filePair.1 ∈ relevantFiles
    · rw [if_pos hmem, if_pos hmem]
      exact ih _ hlt
    · rw [if_neg hmem, if_neg hmem]
      by_cases hany : terms.any (fun term => (find (toLower (fileName filePair.1)) term).isSome)
          = true
      · simp only [hany, if_true]
        by_cases hm : (relevantFiles ++ [filePair.1]).length ≥ m
        · rw [if_pos hm]
          constructor
          · split
            · exact List.prefix_refl _
            · exact fileLoop_extends fileName terms n rest _
          · intro h
            omega
        · rw [if_neg hm, if_neg (by omega)]
          exact ih _ (by omega)
      · simp only [hany, Bool.false_eq_true, if_false]
        rw [if_neg (by omega), if_neg (by omega)]
        exact ih _ hlt

theorem getRelevantFiles_prefix_nat (fileName : Str → Str) (cm : ContextManager) (q : Str)
    (m n : Int) (hm : 1 ≤ toSizeT m) (hmn : toSizeT m ≤ toSizeT n) :
    getRelevantFiles fileName cm q m <+: getRelevantFiles fileName cm q n
    ∧ ((getRelevantFiles fileName cm q m).length < toSizeT m →
        getRelevantFiles fileName cm q m = getRelevantFiles fileName cm q n) := by
  have hs := symbolLoop_prefix cm (toSizeT m) (toSizeT n) hmn (findRelevantSymbols cm q) []
    (by simpa using hm)
  unfold getRelevantFiles
  simp only
  by_cases h1 : (symbolLoop cm (toSizeT m) (findRelevantSymbols cm q) []).length < toSizeT m
  · have heq := hs.2 h1
    rw [if_pos h1, ← heq, if_pos (by omega)]
    exact fileLoop_prefix fileName _ _ _ hmn _ _ h1
  · rw [if_neg h1]
    constructor
    · split
      · exact hs.1.trans (fileLoop_extends _ _ _ _ _)
      · exact hs.1
    · intro h
      exact absurd h h1

/-- C29: for `1 ≤ m ≤ n` (two `int` limits), `getRelevantFiles(q, m)` is a
prefix of `getRelevantFiles(q, n)`; and the selection with the limit 1, which
the classification tests, is non-empty exactly when the selection with the
limit 5, which `buildContext` uses, is non-empty. -/
theorem getRelevantFiles_prefix (fileName : Str → Str) (cm : ContextManager) (q : Str)
    (m n : Int) (hm : 1 ≤ m) (hmn : m ≤ n) (hn : n ≤ 2147483647) :
    getRelevantFiles fileName cm q m <+: getRelevantFiles fileName cm q n
    ∧ (getRelevantFiles fileName cm q 1 ≠ [] ↔ getRelevantFiles fileName cm q 5 ≠ []) := by
  have hsm : toSizeT m = m.toNat := toSizeT_of_nonneg m (by omega) (by omega)
  have hsn : toSizeT n = n.toNat := toSizeT_of_nonneg n (by omega) (by omega)
  refine ⟨(getRelevantFiles_prefix_nat fileName cm q m n (by omega) (by omega)).1, ?_⟩
  have h15 := getRelevantFiles_prefix_nat fileName cm q 1 5 (by decide) (by decide)
  constructor
  · intro h1 h5
    apply h1
    rw [h5] at h15
    exact List.prefix_nil.1 h15.1
  · intro h5 h1
    apply h5
    rw [← h15.2 (by rw [h1]; decide)]
    exact h1

set_option maxRecDepth 100000 in
theorem getRelevantFiles_prefix_witness :
    (1 : Int) ≤ 1 ∧ (1 : Int) ≤ 2 ∧ (2 : Int) ≤ 2147483647
    ∧ (getRelevantFiles pathFileName sampleManager "explain foobar in b.cpp".toList 1
          <+: getRelevantFiles pathFileName sampleManager "explain foobar in b.cpp".toList 2
      ∧ (getRelevantFiles pathFileName sampleManager "explain foobar in b.cpp".toList 1 ≠ []
          ↔ getRelevantFiles pathFileName sampleManager "explain foobar in b.cpp".toList 5
              ≠ [])) :=
  ⟨by decide, by decide, by decide,
    getRelevantFiles_prefix pathFileName sampleManager "explain foobar in b.cpp".toList 1 2
      (by decide) (by decide) (by decide)⟩


/-! ## Letter case -/

theorem char_toLower_cases (c : Char) :
    c.toLower = c ∨ ∃ n, 65 ≤ n ∧ n ≤ 90 ∧ c = Char.ofNat n := by
  by_cases h : c.toNat ≥ 65 ∧ c.toNat ≤ 90
  · exact Or.inr ⟨c.toNat, h.1, h.2, (Char.ofNat_toNat c).symm⟩
  · left
    unfold Char.toLower
    simp only
    rw [if_neg h]

theorem isSpace_char_toLower (c : Char) : isSpace c.toLower = isSpace c := by
  rcases char_toLower_cases c with h | ⟨n, h1, h2, rfl⟩
  · rw [h]
  · interval_cases n <;> decide

theorem char_toLower_toLower (c : Char) : c.toLower.toLower = c.toLower := by
  rcases char_toLower_cases c with h | ⟨n, h1, h2, rfl⟩
  · rw [h, h]
  · interval_cases n <;> decide

theorem toLower_toLower (s : Str) : toLower (toLower s) = toLower s := by
  unfold toLower
  rw [List.map_map]
  apply List.map_congr_left
  intro c _
  exact char_toLower_toLower c

/-- Splitting at whitespace commutes with lowercasing. -/
theorem splitOnP_toLower (s : Str) :
    (toLower s).splitOnP isSpace = (s.splitOnP isSpace).map toLower := by
  induction s with
  | nil => rfl
  | cons c s ih =>
    have hc : toLower (c :: s) = c.toLower :: toLower s := rfl
    rw [hc, List.splitOnP_cons, List.splitOnP_cons, isSpace_char_toLower, ih]
    by_cases hsp : isSpace c = true
    · rw [if_pos hsp, if_pos hsp]
      rfl
    · rw [if_neg hsp, if_neg hsp]
      cases hsplit : List.splitOnP isSpace s with
      | nil => rfl
      | cons head tail => rfl

/-- The query terms depend on the query only through its lowercased form. -/
theorem queryTermsSpec_toLower (q : Str) : queryTermsSpec (toLower q) = queryTermsSpec q := by
  unfold queryTermsSpec
  rw [splitOnP_toLower, List.filter_map, List.map_map]
  have hf : ((fun t : Str => decide (3 < t.length)) ∘ toLower)
      = (fun t : Str => decide (3 < t.length)) := by
    funext t
    simp [toLower]
  rw [hf]
  apply List.map_congr_left
  intro t _
  exact toLower_toLower t

theorem queryTerms_of_toLower_eq (q q2 : Str) (h : toLower q = toLower q2) :
    queryTerms q = queryTerms q2 := by
  rw [queryTerms_eq_spec, queryTerms_eq_spec, ← queryTermsSpec_toLower q,
    ← queryTermsSpec_toLower q2, h]

theorem getRelevantFiles_of_terms_eq (fileName : Str → Str) (cm : ContextManager)
    (q q2 : Str) (maxFiles : Int) (h : queryTerms q = queryTerms q2) :
    getRelevantFiles fileName cm q maxFiles = getRelevantFiles fileName cm q2 maxFiles := by
  unfold getRelevantFiles findRelevantSymbols
  simp only [h]

set_option maxRecDepth 100000 in
/-- C28: `formatInstructions` matches its keywords against the raw query and
`isCodebaseQuery` against the lowercased one: "Explain this code" is
codebase-related and gets the generic analysis block, although its
lowercased form gets the explanation block; and `isCodebaseQuery` gives the
same answer for two queries that differ only in letter case. -/
theorem case_sensitivity (fileName : Str → Str) (codeTemplate generalTemplate : Str)
    (cm : ContextManager) :
    (isCodebaseQuery fileName (QueryProcessor.mk0 codeTemplate generalTemplate) cm
        "Explain this code".toList = true
      ∧ formatInstructions "Explain this code".toList = defaultInstructions
      ∧ formatInstructions (toLower "Explain this code".toList) = explainInstructions
      ∧ defaultInstructions ≠ explainInstructions)
    ∧ (∀ (qp : QueryProcessor) (q q2 : Str), toLower q = toLower q2 →
        isCodebaseQuery fileName qp cm q = isCodebaseQuery fileName qp cm q2) := by
  refine ⟨⟨?_, by decide, by decide, by decide⟩, ?_⟩
  · have hany : (QueryProcessor.mk0 codeTemplate generalTemplate).codeKeywords_.any
        (fun keyword => (find (toLower "Explain this code".toList) keyword).isSome) = true := by
      show codeKeywords.any _ = true
      decide
    unfold isCodebaseQuery
    simp only
    rw [if_pos hany]
  · intro qp q q2 h
    unfold isCodebaseQuery
    simp only
    rw [h, getRelevantFiles_of_terms_eq fileName cm q q2 1 (queryTerms_of_toLower_eq q q2 h)]


/-! ## Code snippets: clamping, empty ranges, bounds -/

theorem snippetLoop_step (lines : List Str) (endLine : Int) (fuel : Nat) (i : Int)
    (snippet line : Str) (hle : i ≤ endLine) (hline : lines[toSizeT i]? = some line) :
    snippetLoop lines endLine (fuel + 1) i snippet
      = snippetLoop lines endLine fuel (wrapInt32 (i + 1)) (snippet ++ line ++ "\n".toList) := by
  rw [snippetLoop, if_pos hle, hline]

theorem snippetLoop_outOfBounds (lines : List Str) (endLine : Int) (fuel : Nat) (i : Int)
    (snippet : Str) (hle : i ≤ endLine) (hline : lines[toSizeT i]? = none) :
    snippetLoop lines endLine (fuel + 1) i snippet = .outOfBounds := by
  rw [snippetLoop, if_pos hle, hline]

/-- The loop over `k` indices inside the vector and below the end line
appends their lines and goes on from the index after them. -/
theorem snippetLoop_advance (lines : List Str) (endLine : Int) (k fuel : Nat) (i : Int)
    (snippet : Str) (hi : 0 ≤ i) (hend : i + (k : Int) ≤ endLine + 1)
    (hlen : i + (k : Int) ≤ (lines.length : Int)) (hint : i + (k : Int) ≤ 2147483647) :
    snippetLoop lines endLine (k + fuel) i snippet
      = snippetLoop lines endLine fuel (i + (k : Int))
          (snippet ++ ((lines.drop i.toNat).take k).flatMap
            (fun line => line ++ "\n".toList)) := by
  induction k generalizing i snippet with
  | zero => simp
  | succ k ih =>
    have hlt : i.toNat < lines.length := by omega
    have hsz : toSizeT i = i.toNat := toSizeT_of_nonneg i hi (by omega)
    have hw : wrapInt32 (i + 1) = i + 1 := wrapInt32_of_range _ (by omega) (by omega)
    have hfuel : k + 1 + fuel = (k + fuel) + 1 := by omega
    rw [hfuel, snippetLoop_step lines endLine (k + fuel) i snippet lines[i.toNat]
      (by omega) (by rw [hsz, List.getElem?_eq_getElem hlt]), hw,
      ih (i + 1) _ (by omega) (by omega) (by omega) (by omega)]
    have hnat : (i + 1).toNat = i.toNat + 1 := by omega
    have hcast : i + 1 + (k : Int) = i + ((k + 1 : Nat) : Int) := by omega
    rw [hnat, hcast, List.drop_eq_getElem_cons hlt, List.take_succ_cons, List.flatMap_cons]
    simp only [List.append_assoc]

theorem toInt32_pred (n : Nat) (h : n ≤ 2147483647) :
    toInt32 ((n + 18446744073709551616 - 1) % 18446744073709551616) = (n : Int) - 1 := by
  unfold toInt32 wrapInt32
  omega

/-- C22: for all `int` arguments `a` and `b` and a file of `n` lines,
`formatCodeSnippet(path, a, b)` equals
`formatCodeSnippet(path, max(a, 0), min(b, n - 1))`: a negative start is
clamped to 0 and an end past the last line to the last line index. -/
theorem formatCodeSnippet_clamp (cm : ContextManager) (path : Str) (a b : Int)
    (hb : b ≤ 2147483647) :
    formatCodeSnippet cm path a b
      = formatCodeSnippet cm path (max a 0)
          (min b (((splitLines (getFile cm path)).length : Int) - 1)) := by
  have hs : (if max a 0 < 0 then 0 else max a 0) = (if a < 0 then 0 else a) := by
    by_cases h : a < 0
    · rw [if_pos h, max_eq_right (by omega)]
      simp
    · rw [if_neg h, max_eq_left (by omega), if_neg h]
  have he : (if min b (((splitLines (getFile cm path)).length : Int) - 1)
        ≥ toInt32 (splitLines (getFile cm path)).length then
        toInt32 (((splitLines (getFile cm path)).length + 18446744073709551616 - 1)
          % 18446744073709551616)
      else min b (((splitLines (getFile cm path)).length : Int) - 1))
      = (if b ≥ toInt32 (splitLines (getFile cm path)).length then
        toInt32 (((splitLines (getFile cm path)).length + 18446744073709551616 - 1)
          % 18446744073709551616)
      else b) := by
    by_cases hn : (splitLines (getFile cm path)).length ≤ 2147483647
    · rw [toInt32_of_le _ hn, toInt32_pred _ hn]
      by_cases hbn : b ≥ ((splitLines (getFile cm path)).length : Int)
      · rw [if_pos hbn, min_eq_right (by omega), if_neg (by omega)]
      · rw [if_neg hbn, min_eq_left (by omega), if_neg hbn]
    · rw [min_eq_left (by omega)]
  unfold formatCodeSnippet
  simp only [hs, he]

theorem formatCodeSnippet_clamp_witness :
    (7 : Int) ≤ 2147483647
    ∧ formatCodeSnippet linesManager "src/m.py".toList (-3) 7
      = formatCodeSnippet linesManager "src/m.py".toList (max (-3) 0)
          (min 7 (((splitLines (getFile linesManager "src/m.py".toList)).length : Int) - 1)) :=
  ⟨by decide, formatCodeSnippet_clamp linesManager "src/m.py".toList (-3) 7 (by decide)⟩

/-- C21, as amended: for a file of at most 2147483647 lines (also for a path
that is not indexed) and all integers `a > b`, `formatCodeSnippet(path, a, b)`
returns the empty string. -/
theorem formatCodeSnippet_empty_range (cm : ContextManager) (path : Str) (a b : Int)
    (hn : (splitLines (getFile cm path)).length ≤ 2147483647) (hab : a > b) :
    formatCodeSnippet cm path a b = .value [] := by
  unfold formatCodeSnippet
  simp only
  split
  · rfl
  · rw [toInt32_of_le _ hn, toInt32_pred _ hn]
    have hgt : (if a < 0 then 0 else a)
        > (if b ≥ ((splitLines (getFile cm path)).length : Int) then
            ((splitLines (getFile cm path)).length : Int) - 1 else b) := by
      split <;> split <;> omega
    rw [if_pos hgt]

set_option maxRecDepth 100000 in
theorem formatCodeSnippet_empty_range_witness :
    (splitLines (getFile linesManager "src/m.py".toList)).length ≤ 2147483647
    ∧ (2 : Int) > 1
    ∧ formatCodeSnippet linesManager "src/m.py".toList 2 1 = .value [] :=
  ⟨by decide, by decide,
    formatCodeSnippet_empty_range linesManager "src/m.py".toList 2 1 (by decide) (by decide)⟩

/-- C30, as amended: for a file of at most 2147483647 lines (its content
empty, a single newline, without a newline or any other) and all integers
`startLine` and `endLine`, `formatCodeSnippet` returns a string: its loop
ends and every access `lines[i]` it makes is inside the vector. -/
theorem formatCodeSnippet_in_bounds (cm : ContextManager) (path : Str) (a b : Int)
    (hn : (splitLines (getFile cm path)).length ≤ 2147483647) :
    ∃ snippet, formatCodeSnippet cm path a b = .value snippet := by
  unfold formatCodeSnippet
  simp only
  by_cases hc : getFile cm path = []
  · rw [if_pos hc]
    exact ⟨[], rfl⟩
  · rw [if_neg hc, toInt32_of_le _ hn, toInt32_pred _ hn]
    have hend : (if b ≥ ((splitLines (getFile cm path)).length : Int) then
          ((splitLines (getFile cm path)).length : Int) - 1 else b)
        < ((splitLines (getFile cm path)).length : Int) := by
      split <;> omega
    have hstart : 0 ≤ (if a < 0 then 0 else a) := by
      split <;> omega
    generalize (if b ≥ ((splitLines (getFile cm path)).length : Int) then
          ((splitLines (getFile cm path)).length : Int) - 1 else b) = e1 at hend ⊢
    generalize (if a < 0 then 0 else a) = s1 at hstart ⊢
    by_cases hgt : s1 > e1
    · rw [if_pos hgt]
      exact ⟨[], rfl⟩
    · rw [if_neg hgt]
      exact ⟨_, snippetLoop_range _ e1 hend hn (e1 - s1 + 1).toNat _ s1 []
        (by omega) (by omega) hstart⟩

set_option maxRecDepth 100000 in
theorem formatCodeSnippet_in_bounds_witness :
    (splitLines (getFile linesManager "src/m.py".toList)).length ≤ 2147483647
    ∧ ∃ snippet, formatCodeSnippet linesManager "src/m.py".toList (-7) 2147483647
        = .value snippet :=
  ⟨by decide,
    formatCodeSnippet_in_bounds linesManager "src/m.py".toList (-7) 2147483647 (by decide)⟩


/-! ## Code snippets: a file of more than `INT_MAX` lines -/

theorem readLines_replicate (n fuel : Nat) (h : n < fuel) :
    readLines fuel (List.replicate n '\n') = List.replicate n [] := by
  induction n generalizing fuel with
  | zero =>
    cases fuel with
    | zero => omega
    | succ fuel => rfl
  | succ n ih =>
    cases fuel with
    | zero => omega
    | succ fuel =>
      rw [List.replicate_succ, readLines, getline, if_neg (List.cons_ne_nil _ _)]
      have htw : List.takeWhile (fun c => c != '\n') ('\n' :: List.replicate n '\n') = [] := by
        rw [List.takeWhile_cons_of_neg (by decide)]
      have hdw : List.dropWhile (fun c => c != '\n') ('\n' :: List.replicate n '\n')
          = '\n' :: List.replicate n '\n' := by
        rw [List.dropWhile_cons_of_neg (by decide)]
      simp only [htw, hdw, List.drop_succ_cons, List.drop_zero]
      rw [ih fuel (by omega), List.replicate_succ]

theorem splitLines_replicate (n : Nat) :
    splitLines (List.replicate n '\n') = List.replicate n [] := by
  unfold splitLines
  rw [List.length_replicate]
  exact readLines_replicate n (n + 1) (Nat.lt_succ_self n)

/-- With exactly 2147483648 lines the conversion of `lines.size()` to `int`
gives `-2147483648`, every `int` end line is replaced by 2147483647, and the
loop runs to the last line, wraps its counter and reads outside the vector. -/
theorem snippetLoop_huge (lines : List Str) (hlen : lines.length = 2147483648) (s1 : Int)
    (h0 : 0 ≤ s1) (h1 : s1 ≤ 2147483647) (snippet : Str) :
    snippetLoop lines 2147483647 ((2147483647 - s1).toNat + 2) s1 snippet = .outOfBounds := by
  have hfuel : (2147483647 - s1).toNat + 2 = (2147483647 - s1).toNat + (0 + 1 + 1) := by omega
  have hcast : s1 + (((2147483647 - s1).toNat : Nat) : Int) = 2147483647 := by omega
  have hlast : (2147483647 : Int).toNat < lines.length := by omega
  have hsz : toSizeT 2147483647 = (2147483647 : Int).toNat := by decide
  have hw : wrapInt32 (2147483647 + 1) = -2147483648 := by decide
  have hneg : toSizeT (-2147483648) = 18446744071562067968 := by decide
  rw [hfuel, snippetLoop_advance lines 2147483647 (2147483647 - s1).toNat (0 + 1 + 1) s1 snippet
    h0 (by omega) (by omega) (by omega), hcast,
    snippetLoop_step lines 2147483647 (0 + 1) 2147483647 _ lines[(2147483647 : Int).toNat]
      (Int.le_refl _) (by rw [hsz, List.getElem?_eq_getElem hlast]), hw]
  exact snippetLoop_outOfBounds lines 2147483647 0 (-2147483648) _ (by decide)
    (by rw [hneg, List.getElem?_eq_none]; omega)

theorem formatCodeSnippet_huge (cm : ContextManager) (path : Str) (a b : Int)
    (hlen : (splitLines (getFile cm path)).length = 2147483648)
    (ha : a ≤ 2147483647) (hb : -2147483648 ≤ b) :
    formatCodeSnippet cm path a b = .outOfBounds := by
  have hne : getFile cm path ≠ [] := by
    intro h
    rw [h] at hlen
    have h0 : (splitLines ([] : Str)).length = 0 := rfl
    omega
  have hN : toInt32 (splitLines (getFile cm path)).length = -2147483648 := by
    rw [hlen]
    decide
  have hE : toInt32 (((splitLines (getFile cm path)).length + 18446744073709551616 - 1)
      % 18446744073709551616) = 2147483647 := by
    rw [hlen]
    decide
  unfold formatCodeSnippet
  simp only
  have he : (if b ≥ (-2147483648 : Int) then (2147483647 : Int) else b) = 2147483647 :=
    if_pos hb
  rw [if_neg hne, hN, hE, he]
  have hs0 : 0 ≤ (if a < 0 then 0 else a) := by split <;> omega
  have hs1 : (if a < 0 then 0 else a) ≤ 2147483647 := by split <;> omega
  generalize (if a < 0 then 0 else a) = s1 at hs0 hs1 ⊢
  have hgt : ¬ s1 > 2147483647 := by omega
  rw [if_neg hgt]
  exact snippetLoop_huge _ hlen s1 hs0 hs1 []

theorem hugeManager_lines :
    (splitLines (getFile hugeManager "big.txt".toList)).length = 2147483648 := by
  have hfile : getFile hugeManager "big.txt".toList = List.replicate 2147483648 '\n' := rfl
  rw [hfile, splitLines_replicate, List.length_replicate]

/-- C21, counterexample to the claim as stated: for a file of 2147483648
lines and `a = 1 > b = 0` the function does not return the empty string; the
end line is replaced by 2147483647 and the loop runs until it reads outside
the vector. -/
theorem formatCodeSnippet_empty_range_counterexample :
    (1 : Int) > 0
    ∧ formatCodeSnippet hugeManager "big.txt".toList 1 0 = .outOfBounds
    ∧ formatCodeSnippet hugeManager "big.txt".toList 1 0 ≠ .value [] := by
  have h := formatCodeSnippet_huge hugeManager "big.txt".toList 1 0 hugeManager_lines
    (by decide) (by decide)
  refine ⟨by decide, h, ?_⟩
  rw [h]
  exact fun e => SnippetResult.noConfusion e

/-- C30, counterexample to the claim as stated: for a file of 2147483648
lines and the range 0..0 the loop of `formatCodeSnippet` reads `lines[i]`
with `i` outside the vector. -/
theorem formatCodeSnippet_in_bounds_counterexample :
    formatCodeSnippet hugeManager "big.txt".toList 0 0 = .outOfBounds := by
  exact formatCodeSnippet_huge hugeManager "big.txt".toList 0 0 hugeManager_lines
    (by decide) (by decide)


/-! ## Scan of a directory: the file count -/

theorem foldl_index_fileCount_eq {α : Type} (g : IndexedCode → α → IndexedCode)
    (hg : ∀ ic a, (g ic a).fileCount = ic.fileCount) (l : List α) (ic : IndexedCode) :
    (l.foldl g ic).fileCount = ic.fileCount := by
  induction l generalizing ic with
  | nil => rfl
  | cons a l ih => rw [List.foldl_cons, ih, hg]

theorem parseCppFile_fileCount (rx : RegexSearch) (filePath content : Str) (ic : IndexedCode) :
    (parseCppFile rx filePath content ic).fileCount = ic.fileCount := by
  unfold parseCppFile
  simp only
  rw [foldl_index_fileCount_eq, foldl_index_fileCount_eq, foldl_index_fileCount_eq]
  · intro ic m; rfl
  · intro ic m; rfl
  · intro ic m
    dsimp only
    split <;> rfl

theorem parsePythonFile_fileCount (rx : RegexSearch) (filePath content : Str)
    (ic : IndexedCode) : (parsePythonFile rx filePath content ic).fileCount = ic.fileCount := by
  unfold parsePythonFile
  simp only
  rw [foldl_index_fileCount_eq, foldl_index_fileCount_eq, foldl_index_fileCount_eq]
  · intro ic m; rfl
  · intro ic m; rfl
  · intro ic m; rfl

theorem parseJavaScriptFile_fileCount (rx : RegexSearch) (filePath content : Str)
    (ic : IndexedCode) :
    (parseJavaScriptFile rx filePath content ic).fileCount = ic.fileCount := by
  unfold parseJavaScriptFile
  simp only
  rw [foldl_index_fileCount_eq, foldl_index_fileCount_eq, foldl_index_fileCount_eq,
    foldl_index_fileCount_eq]
  · intro ic m; rfl
  · intro ic m; rfl
  · intro ic m
    dsimp only
    split <;> rfl
  · intro ic m
    dsimp only
    split <;> rfl

/-- `parseFile` does not touch the counter `fileCount`. -/
theorem parseFile_fileCount (extension : Str → Str) (rx : RegexSearch)
    (filePath content : Str) (ic : IndexedCode) :
    (parseFile extension rx filePath content ic).fileCount = ic.fileCount := by
  unfold parseFile
  simp only
  rw [foldl_index_fileCount_eq]
  · split
    · exact parseCppFile_fileCount _ _ _ _
    · split
      · exact parsePythonFile_fileCount _ _ _ _
      · split
        · exact parseJavaScriptFile_fileCount _ _ _ _
        · rfl
  · intro ic a; rfl

/-- Indexing one accepted file raises `fileCount` by one. -/
theorem indexFile_fileCount (extension : Str → Str) (rx : RegexSearch)
    (filePath content : Str) (fileSize : Nat) (ic : IndexedCode) :
    (indexFile extension rx filePath content fileSize ic).fileCount = ic.fileCount + 1 := by
  unfold indexFile
  simp only
  rw [parseFile_fileCount]
  split <;> rfl

/-- The value of `fileCount` after the second pass, from any point of the
loop: each accepted entry adds one until the counter of processed files
reaches the limit, and the first accepted entry is always indexed. -/
theorem scanLoop_fileCount (extension fileName : Str → Str) (rx : RegexSearch) (sc : Scanner) :
    ∀ (entries : List DirEntry) (processedFiles : Nat) (ic : IndexedCode),
      processedFiles < max sc.maxFileCount_ 1 →
      (scanLoop extension fileName rx sc entries processedFiles ic).fileCount
        = ic.fileCount + min (entries.filter (isAccepted extension sc)).length
            (max sc.maxFileCount_ 1 - processedFiles) := by
  intro entries
  induction entries with
  | nil => intro p ic _; simp [scanLoop]
  | cons entry rest ih =>
    intro p ic hp
    rw [scanLoop]
    by_cases hd : entry.isDirectory = true
    · have hacc : isAccepted extension sc entry = false := by simp [isAccepted, hd]
      simp only [hd, if_true, ite_self]
      rw [List.filter_cons_of_neg (by simp [hacc]), ih _ _ hp]
    · simp only [hd, Bool.false_eq_true, if_false]
      by_cases h1 : (!entry.isRegularFile || !isRelevantFile extension sc entry.path) = true
      · have hacc : isAccepted extension sc entry = false := by
          simp only [Bool.or_eq_true, Bool.not_eq_true'] at h1
          rcases h1 with h1 | h1 <;> simp [isAccepted, h1]
        rw [if_pos h1, List.filter_cons_of_neg (by simp [hacc]), ih _ _ hp]
      · rw [if_neg h1]
        simp only [Bool.or_eq_true, Bool.not_eq_true', not_or, Bool.not_eq_false] at h1
        by_cases h2 : entry.fileSize > sc.maxFileSize_
        · have hacc : isAccepted extension sc entry = false := by
            simp [isAccepted, Nat.not_le.mpr h2]
          rw [if_pos h2, List.filter_cons_of_neg (by simp [hacc]), ih _ _ hp]
        · rw [if_neg h2]
          cases hc : entry.content with
          | none =>
            have hacc : isAccepted extension sc entry = false := by simp [isAccepted, hc]
            simp only
            rw [List.filter_cons_of_neg (by simp [hacc]), ih _ _ hp]
          | some content =>
            simp only
            by_cases h3 : content.count '\n' + 1 > sc.maxLineCount_
            · have hacc : isAccepted extension sc entry = false := by
                simp [isAccepted, hc, Nat.not_le.mpr h3]
              rw [if_pos h3, List.filter_cons_of_neg (by simp [hacc]), ih _ _ hp]
            · have hacc : isAccepted extension sc entry = true := by
                have hd2 : entry.isDirectory = false := by simpa using hd
                simp [isAccepted, hc, hd2, h1.1, h1.2, Nat.not_lt.mp h2, Nat.not_lt.mp h3]
              rw [if_neg h3, List.filter_cons_of_pos hacc, List.length_cons]
              by_cases h4 : p + 1 ≥ sc.maxFileCount_
              · rw [if_pos h4, indexFile_fileCount]
                have : max sc.maxFileCount_ 1 - p = 1 := by omega
                rw [this]
                omega
              · rw [if_neg h4, ih _ _ (by omega), indexFile_fileCount]
                omega


/-- The scan of a directory returns as `fileCount` the number of accepted
entries among all that the iteration yields, when that number does not
exceed the limit. -/
theorem scanDirectory_fileCount (extension fileName : Str → Str) (rx : RegexSearch)
    (sc : Scanner) (entries : List DirEntry)
    (h : (entries.filter (isAccepted extension sc)).length ≤ sc.maxFileCount_) :
    (scanDirectory extension fileName rx sc entries).fileCount
      = (entries.filter (isAccepted extension sc)).length := by
  unfold scanDirectory
  rw [scanLoop_fileCount extension fileName rx sc entries 0 emptyIndex (by omega)]
  show 0 + _ = _
  omega

set_option maxRecDepth 100000 in
theorem scanDirectory_fileCount_witness :
    (buildTreeEntries.filter (isAccepted pathExtension defaultScanner)).length
        ≤ defaultScanner.maxFileCount_
      ∧ (scanDirectory pathExtension pathFileName sampleRegex defaultScanner
            buildTreeEntries).fileCount
          = (buildTreeEntries.filter (isAccepted pathExtension defaultScanner)).length :=
  ⟨by decide, scanDirectory_fileCount pathExtension pathFileName sampleRegex defaultScanner
    buildTreeEntries (by decide)⟩

/-- For a limit of at least one file the scan returns at most that many
files. -/
theorem scanDirectory_fileCount_le (extension fileName : Str → Str) (rx : RegexSearch)
    (sc : Scanner) (entries : List DirEntry) (h : 1 ≤ sc.maxFileCount_) :
    (scanDirectory extension fileName rx sc entries).fileCount ≤ sc.maxFileCount_ := by
  unfold scanDirectory
  rw [scanLoop_fileCount extension fileName rx sc entries 0 emptyIndex (by omega)]
  show 0 + _ ≤ _
  omega

set_option maxRecDepth 100000 in
theorem scanDirectory_fileCount_le_witness :
    1 ≤ defaultScanner.maxFileCount_
      ∧ (scanDirectory pathExtension pathFileName sampleRegex defaultScanner
            buildTreeEntries).fileCount ≤ defaultScanner.maxFileCount_ :=
  ⟨by decide, scanDirectory_fileCount_le pathExtension pathFileName sampleRegex defaultScanner
    buildTreeEntries (by decide)⟩

/-- With any limit the scan indexes the first accepted entry: the counter is
compared with the limit only after the file has been indexed. -/
theorem scanDirectory_fileCount_pos (extension fileName : Str → Str) (rx : RegexSearch)
    (sc : Scanner) (entries : List DirEntry)
    (h : 1 ≤ (entries.filter (isAccepted extension sc)).length) :
    1 ≤ (scanDirectory extension fileName rx sc entries).fileCount := by
  unfold scanDirectory
  rw [scanLoop_fileCount extension fileName rx sc entries 0 emptyIndex (by omega)]
  show 1 ≤ 0 + _
  omega

set_option maxRecDepth 100000 in
/-- C23, the code at a failing input: in a tree with the excluded
directory `build`, the file `build/gen.cpp` beneath it and the file `b.cpp`
beside it, the scan with the default limits and lists records the directory
and indexes both files, `fileCount` is 2, while one accepted file lies
outside the excluded directory. -/
theorem scanDirectory_indexes_excluded :
    pathFileName "proj/build".toList ∈ defaultScanner.excludeDirectories_
      ∧ (buildTreeEntries.filter (fun entry =>
            isAccepted pathExtension defaultScanner entry
              && !("proj/build/".toList).isPrefixOf entry.path)).length = 1
      ∧ (scanDirectory pathExtension pathFileName sampleRegex defaultScanner
            buildTreeEntries).fileCount = 2
      ∧ (scanDirectory pathExtension pathFileName sampleRegex defaultScanner
            buildTreeEntries).files
          = [("proj/build/gen.cpp".toList, bCppContent), ("proj/b.cpp".toList, bCppContent)]
      ∧ (scanDirectory pathExtension pathFileName sampleRegex defaultScanner
            buildTreeEntries).directories = ["proj/build".toList] := by
  decide

set_option maxRecDepth 100000 in
/-- C24, the code at a failing input: with the limit `maxFileCount` 0
the scan of a tree that holds one file returns `fileCount` 1. -/
theorem scanDirectory_zero_limit :
    zeroCountScanner.maxFileCount_ = 0
      ∧ (scanDirectory pathExtension pathFileName sampleRegex zeroCountScanner
            oneFileEntries).fileCount = 1
      ∧ (scanDirectory pathExtension pathFileName sampleRegex zeroCountScanner
            oneFileEntries).files = [("proj/b.cpp".toList, bCppContent)] := by
  decide

/-! ## Engine: the command `/clear` -/

/-- The command `/clear` leaves the context manager as it is; with a window
it appends the entry `!CLEAR!` to the chat panel and removes none. -/
theorem engineCommand_clear (engine : Engine) :
    engineCommand engine "/clear".toList
      = some (if engine.hasMainWindow then
          { engine with chatEntries_ := engine.chatEntries_ ++ [(false, "!CLEAR!".toList)] }
        else engine) := by
  unfold engineCommand
  rw [if_neg (by decide), if_neg (by decide), if_neg (by decide), if_pos rfl]
  unfold displayResponse
  split <;> rfl

/-- The stored history after `/clear` is the one before. -/
theorem engineCommand_clear_history (engine : Engine) :
    (engineCommand engine "/clear".toList).map (fun e => e.contextManager_.history_)
      = some engine.contextManager_.history_ := by
  rw [engineCommand_clear]
  split <;> rfl

set_option maxRecDepth 100000 in
/-- C25, the code at a failing input: after `/clear` on an engine that
holds one stored exchange, `getConversationHistory` still returns that
exchange, and the chat panel holds its two entries and the new entry
`!CLEAR!`. -/
theorem engineCommand_clear_keeps_history :
    (engineCommand sampleEngine "/clear".toList).map
        (fun e => (getConversationHistory e.contextManager_, e.chatEntries_))
      = some ("User: q1\nCodeLve: r1\n\n".toList,
          [(true, "q1".toList), (false, "r1".toList), (false, "!CLEAR!".toList)])
      ∧ getConversationHistory (clearHistory sampleEngine.contextManager_) = [] := by
  decide

end Codelve
